import Mathlib

/-!
Verification of the batched grand-product argument
(`jolt-core/src/subprotocols/grand_product.rs`).

The development shallowly embeds the layer representations (dense, sparse and
dynamic-density), the batched cubic sum-check, and the layered prover/verifier
drivers.  Field elements are taken in an arbitrary commutative field `F` with
decidable equality; machine vectors become `List F`; sparse layers become
association lists `List (Nat × F)`; fallible verifier code returns `Option`.
External collaborators that are not part of the repository source (the
multilinear-polynomial container, the `eq` helper, the univariate-polynomial
compression and the Fiat-Shamir transcript) are modelled from the specification
and marked as such in their doc comments.
-/

set_option linter.unusedSectionVars false

namespace GrandProduct

/-- The scalar field used for concrete instances (the source instantiates the
BN254 scalar field; any prime field with `2 ≠ 0 ≠ 3` exercises the same
code paths). -/
instance : Fact (Nat.Prime 101) := ⟨by norm_num⟩

variable {F : Type} [Field F] [DecidableEq F]

/-! ## Small list helpers -/

/-- Evaluate `getD` on a `range`-`map` list. -/
theorem getD_range_map {α : Type} (f : Nat → α) (n i : Nat) (d : α) :
    (((List.range n).map f).getD i d) = if i < n then f i else d := by
  by_cases h : i < n
  · rw [List.getD_eq_getElem?_getD, List.getElem?_map, List.getElem?_range h]
    simp [h]
  · rw [List.getD_eq_getElem?_getD, List.getElem?_map]
    rw [List.getElem?_eq_none (by simpa using Nat.le_of_not_lt h)]
    simp [h]

theorem length_range_map {α : Type} (f : Nat → α) (n : Nat) :
    (((List.range n).map f)).length = n := by simp

/-! ## Dense layers

`DenseGrandProductLayer<F>` is `Vec<F>`; a batched dense layer is `Vec<Vec<F>>`.
-/

/-- Source: `BatchedDenseGrandProductLayer::num_rounds`, which is
`self[0].len().log_2() - 1`. -/
def denseNumRounds (layers : List (List F)) : Nat :=
  Nat.log2 (layers.headD []).length - 1

/-- Source: the per-layer body of `BatchedDenseGrandProductLayer::bind`.
The in-place quartet folds
`layer[2i] := layer[4i] + r*(layer[4i+2] - layer[4i])`,
`layer[2i+1] := layer[4i+1] + r*(layer[4i+3] - layer[4i+1])` for
`i < len/4` followed by `truncate (len/2)`, written functionally: position
`j < 2*(len/4)` receives the fold and any remaining position below `len/2`
keeps its old (stale) value. -/
def bindDenseLayer (layer : List F) (r : F) : List F :=
  (List.range (layer.length / 2)).map (fun j =>
    if j < 2 * (layer.length / 4) then
      if j % 2 = 0 then
        layer.getD (2*j) 0 + r * (layer.getD (2*j+2) 0 - layer.getD (2*j) 0)
      else
        layer.getD (2*j-1) 0 + r * (layer.getD (2*j+1) 0 - layer.getD (2*j-1) 0)
    else layer.getD j 0)

theorem bindDenseLayer_length (layer : List F) (r : F) :
    (bindDenseLayer layer r).length = layer.length / 2 := by
  simp [bindDenseLayer]

theorem bindDenseLayer_getD (layer : List F) (r : F) (j : Nat)
    (h4 : layer.length % 4 = 0) (hj : j < layer.length / 2) :
    (bindDenseLayer layer r).getD j 0 =
      if j % 2 = 0 then
        layer.getD (2*j) 0 + r * (layer.getD (2*j+2) 0 - layer.getD (2*j) 0)
      else
        layer.getD (2*j-1) 0 + r * (layer.getD (2*j+1) 0 - layer.getD (2*j-1) 0) := by
  have h24 : 2 * (layer.length / 4) = layer.length / 2 := by omega
  rw [bindDenseLayer, getD_range_map, if_pos hj, h24, if_pos hj]

/-- Source: the layer-construction step of `BatchedDenseGrandProduct::construct`:
next layer at `i` is `previous_layer[2i] * previous_layer[2i+1]`. -/
def halveLayer (l : List F) : List F :=
  (List.range (l.length / 2)).map (fun i => l.getD (2*i) 0 * l.getD (2*i+1) 0)

theorem halveLayer_length (l : List F) : (halveLayer l).length = l.length / 2 := by
  simp [halveLayer]

theorem halveLayer_getD (l : List F) (i : Nat) (hi : i < l.length / 2) :
    (halveLayer l).getD i 0 = l.getD (2*i) 0 * l.getD (2*i+1) 0 := by
  rw [halveLayer, getD_range_map, if_pos hi]

/-! ## External polynomial collaborators, modelled from the spec -/

/-- Modelled from the spec: `DensePolynomial::bound_poly_var_bot(r)` (the
multilinear-polynomial container is outside the repository source).  It halves
the evaluation table using the low-variable-first convention:
`Z[i] := Z[2i] + r * (Z[2i+1] - Z[2i])`. -/
def boundPolyVarBot (Z : List F) (r : F) : List F :=
  (List.range (Z.length / 2)).map (fun i =>
    Z.getD (2*i) 0 + r * (Z.getD (2*i+1) 0 - Z.getD (2*i) 0))

theorem boundPolyVarBot_length (Z : List F) (r : F) :
    (boundPolyVarBot Z r).length = Z.length / 2 := by simp [boundPolyVarBot]

theorem boundPolyVarBot_getD (Z : List F) (r : F) (i : Nat) (hi : i < Z.length / 2) :
    (boundPolyVarBot Z r).getD i 0 =
      Z.getD (2*i) 0 + r * (Z.getD (2*i+1) 0 - Z.getD (2*i) 0) := by
  rw [boundPolyVarBot, getD_range_map, if_pos hi]

/-- Modelled from the spec: `EqPolynomial::new(r).evals()` (the `eq` helper is
outside the repository source).  Returns the `2^|r|` evaluations of the
multilinear equality indicator against `r`; the first component of `r`
corresponds to the most significant index bit, so that
`boundPolyVarBot` binds the last component first, matching the
low-variable-first convention of the spec. -/
def eqEvals : List F → List F
  | [] => [1]
  | r0 :: rs => (eqEvals rs).map (fun e => (1 - r0) * e) ++
      (eqEvals rs).map (fun e => r0 * e)

theorem eqEvals_length (r : List F) : (eqEvals r).length = 2 ^ r.length := by
  induction r with
  | nil => simp [eqEvals]
  | cons r0 rs ih => simp [eqEvals, ih]; ring

/-- Degree-3 univariate polynomials are coefficient lists `[a0, a1, a2, a3]`.
Source: `UniPoly::evaluate`, the usual `Σ coeffs[i] * r^i`. -/
def evalUniPoly : List F → F → F
  | [], _ => 0
  | c :: cs, r => c + r * evalUniPoly cs r

/-- Modelled from the spec: `UniPoly::from_evals` on four evaluation points
reconstructs the degree-3 polynomial from its evaluations at `0, 1, 2, 3`
(standard Lagrange interpolation, here in finite-difference form). -/
def fromEvalsCubic (e0 e1 e2 e3 : F) : List F :=
  let a3 := (e3 - 3*e2 + 3*e1 - e0) / 6
  let a2 := (e2 - 2*e1 + e0) / 2 - 3 * a3
  let a1 := (e1 - e0) - a2 - a3
  [e0, a1, a2, a3]

/-- Modelled from the spec: `UniPoly::compress` drops the linear coefficient
(the one recoverable from the parent claim). -/
def compressUniPoly : List F → List F
  | a0 :: _ :: rest => a0 :: rest
  | l => l

/-- Modelled from the spec: `CompressedUniPoly::decompress(hint)` restores the
linear coefficient from `g(0) + g(1) = hint`. -/
def decompressUniPoly (c : List F) (hint : F) : List F :=
  match c with
  | a0 :: rest => a0 :: (hint - a0 - a0 - rest.sum) :: rest
  | [] => []

theorem decompress_compress (a0 a1 a2 a3 : F) :
    decompressUniPoly (compressUniPoly [a0, a1, a2, a3])
        (evalUniPoly [a0, a1, a2, a3] 0 + evalUniPoly [a0, a1, a2, a3] 1) =
      [a0, a1, a2, a3] := by
  simp [decompressUniPoly, compressUniPoly, evalUniPoly]

/-- Interpolation correctness for `fromEvalsCubic`: feeding the values of a
cubic at `0, 1, 2, 3` recovers exactly its coefficients.  Needs `2 ≠ 0` and
`3 ≠ 0` in `F` (true in the BN254 scalar field the source instantiates). -/
theorem fromEvalsCubic_coeffs (a0 a1 a2 a3 : F) (h2 : (2:F) ≠ 0) (h3 : (3:F) ≠ 0)
    (p : F → F) (hp : ∀ t, p t = a0 + a1*t + a2*t^2 + a3*t^3) :
    fromEvalsCubic (p 0) (p 1) (p 2) (p 3) = [a0, a1, a2, a3] := by
  have h6 : (6:F) ≠ 0 := by
    intro h
    have : (2:F) * 3 = 0 := by rw [← h]; norm_num
    rcases mul_eq_zero.mp this with h' | h'
    · exact h2 h'
    · exact h3 h'
  simp only [fromEvalsCubic, hp, List.cons.injEq, and_true]
  refine ⟨by ring, by field_simp; ring, by field_simp; ring, by field_simp; ring⟩

/-! ## Sparse and dynamic-density layers -/

/-- Source: `SparseGrandProductLayer<F> = Vec<(usize, F)>` and
`DynamicDensityGrandProductLayer<F>`, the tagged dense/sparse variant. -/
inductive DynamicDensityGrandProductLayer (F : Type) where
  | Sparse (entries : List (Nat × F))
  | Dense (layer : List F)
deriving DecidableEq

/-- Source: `BatchedSparseGrandProductLayer<F>`. -/
structure BatchedSparseGrandProductLayer (F : Type) where
  layer_len : Nat
  layers : List (DynamicDensityGrandProductLayer F)
deriving DecidableEq

/-- Value of a sparse layer at an index: the explicit entry's value when
present, otherwise the implicit `one`. -/
def sval (s : List (Nat × F)) (k : Nat) : F :=
  ((s.find? (fun e => e.1 == k)).map Prod.snd).getD 1

/-- Whether a sparse layer has an explicit entry at an index. -/
def smem (s : List (Nat × F)) (k : Nat) : Bool :=
  s.any (fun e => e.1 == k)

/-- Densification of a sparse layer at a given length (absent indices read as
`one`); this is the `condense` operator of the source's parity tests. -/
def densifySparse (n : Nat) (s : List (Nat × F)) : List F :=
  (List.range n).map (sval s)

/-- Densification of a dynamic-density layer: dense variants are truncated to
the logical layer length, matching `condense` in the source's tests. -/
def densifyDyn (n : Nat) : DynamicDensityGrandProductLayer F → List F
  | .Sparse s => densifySparse n s
  | .Dense d => d.take n

/-- The sparse encoding of a dense layer: explicit entries exactly at the
non-one positions, in index order (as built in the source's tests). -/
def sparsify (d : List F) : List (Nat × F) :=
  (List.range d.length).filterMap (fun i =>
    if d.getD i 0 ≠ 1 then some (i, d.getD i 0) else none)

/-- Strictly increasing explicit indices, the sparse-layer ordering
invariant. -/
def SparseSorted (s : List (Nat × F)) : Prop :=
  List.Pairwise (fun a b => a.1 < b.1) s

/-- Source: the `push_to_bound_layer` closure in
`BatchedSparseGrandProductLayer::bind`. -/
def pushToBoundLayer (out : DynamicDensityGrandProductLayer F) (index : Nat)
    (value : F) : DynamicDensityGrandProductLayer F :=
  match out with
  | .Sparse v => .Sparse (v ++ [(index, value)])
  | .Dense d => .Dense (d.set index value)

/-- Source: the entry loop of `BatchedSparseGrandProductLayer::bind` (the
`for (j, (index, value)) in sparse_layer.iter().enumerate()` loop), with the
two skip counters `next_left_node_to_process` / `next_right_node_to_process`
as explicit state and the two-entry lookahead `neighbors`/`find_neighbor`
realised on the tail of the list. -/
def bindSparseLoop (r : F) :
    List (Nat × F) → Nat → Nat → DynamicDensityGrandProductLayer F →
      DynamicDensityGrandProductLayer F
  | [], _, _, out => out
  | (idx, v) :: rest, nl, nr, out =>
    if idx % 2 = 0 ∧ idx < nl then bindSparseLoop r rest nl nr out
    else if idx % 2 = 1 ∧ idx < nr then bindSparseLoop r rest nl nr out
    else
      let n1 := rest.getD 0 (idx + 1, 1)
      let n2 := rest.getD 1 (idx + 2, 1)
      let findN : Nat → F := fun q =>
        if n1.1 = q then n1.2 else if n2.1 = q then n2.2 else 1
      if idx % 4 = 0 then
        bindSparseLoop r rest (idx + 4) nr
          (pushToBoundLayer out (idx / 2) (v + r * (findN (idx + 2) - v)))
      else if idx % 4 = 1 then
        if nl ≤ idx + 1 then
          bindSparseLoop r rest (idx + 3) (idx + 4)
            (pushToBoundLayer
              (if findN (idx + 1) ≠ 1 then
                pushToBoundLayer out (idx / 2) (1 + r * (findN (idx + 1) - 1))
              else out)
              (idx / 2 + 1) (v + r * (findN (idx + 2) - v)))
        else
          bindSparseLoop r rest nl (idx + 4)
            (pushToBoundLayer out (idx / 2 + 1) (v + r * (findN (idx + 2) - v)))
      else if idx % 4 = 2 then
        bindSparseLoop r rest (idx + 2) nr
          (pushToBoundLayer out (idx / 2 - 1) (1 + r * (v - 1)))
      else
        bindSparseLoop r rest nl (idx + 2)
          (pushToBoundLayer out (idx / 2) (1 + r * (v - 1)))

/-- Source: the per-layer body of `BatchedSparseGrandProductLayer::bind`.
For a sparse layer the output representation is chosen up front by the
densification threshold `0.8` (the f64 comparison
`sparse_layer.len() / layer_len > 0.8` is exact for the power-of-two layer
lengths in use, hence rendered as `5 * len > 4 * layer_len`); for a dense
layer the quartet folds are applied in place to the first `layer_len / 2`
positions and the physical vector is not truncated. -/
def bindDynLayer (r : F) (layerLen : Nat) :
    DynamicDensityGrandProductLayer F → DynamicDensityGrandProductLayer F
  | .Sparse sparse_layer =>
      let init : DynamicDensityGrandProductLayer F :=
        if 5 * sparse_layer.length > 4 * layerLen then
          .Dense (List.replicate (layerLen / 2) 1)
        else .Sparse []
      bindSparseLoop r sparse_layer 0 0 init
  | .Dense dense_layer =>
      .Dense ((List.range dense_layer.length).map (fun j =>
        if j < 2 * (layerLen / 4) then
          if j % 2 = 0 then
            dense_layer.getD (2*j) 0 +
              r * (dense_layer.getD (2*j+2) 0 - dense_layer.getD (2*j) 0)
          else
            dense_layer.getD (2*j-1) 0 +
              r * (dense_layer.getD (2*j+1) 0 - dense_layer.getD (2*j-1) 0)
        else dense_layer.getD j 0))

/-- Source: `BatchedSparseGrandProductLayer::bind`: binds every layer of the
batch, halves `layer_len`, and (in the parallel join) binds the `eq`
polynomial to the same challenge. -/
def BatchedSparseGrandProductLayer.bind (b : BatchedSparseGrandProductLayer F)
    (eqPoly : List F) (r : F) :
    BatchedSparseGrandProductLayer F × List F :=
  ({ layer_len := b.layer_len / 2,
     layers := b.layers.map (bindDynLayer r b.layer_len) },
   boundPolyVarBot eqPoly r)

/-- Source: `BatchedDenseGrandProductLayer::bind`: binds every layer of the
batch (truncating) and binds the `eq` polynomial in the parallel join. -/
def bindDenseBatched (layers : List (List F)) (eqPoly : List F) (r : F) :
    List (List F) × List F :=
  (layers.map (fun l => bindDenseLayer l r), boundPolyVarBot eqPoly r)

/-! ### The pure emission view of the sparse bind loop -/

/-- The sequence of `push_to_bound_layer` calls performed by
`bindSparseLoop`, as a list, independent of the output representation. -/
def bindSparseEmit (r : F) : List (Nat × F) → Nat → Nat → List (Nat × F)
  | [], _, _ => []
  | (idx, v) :: rest, nl, nr =>
    if idx % 2 = 0 ∧ idx < nl then bindSparseEmit r rest nl nr
    else if idx % 2 = 1 ∧ idx < nr then bindSparseEmit r rest nl nr
    else
      let n1 := rest.getD 0 (idx + 1, 1)
      let n2 := rest.getD 1 (idx + 2, 1)
      let findN : Nat → F := fun q =>
        if n1.1 = q then n1.2 else if n2.1 = q then n2.2 else 1
      if idx % 4 = 0 then
        (idx / 2, v + r * (findN (idx + 2) - v)) ::
          bindSparseEmit r rest (idx + 4) nr
      else if idx % 4 = 1 then
        if nl ≤ idx + 1 then
          (if findN (idx + 1) ≠ 1 then
            [(idx / 2, 1 + r * (findN (idx + 1) - 1))]
          else []) ++
          (idx / 2 + 1, v + r * (findN (idx + 2) - v)) ::
            bindSparseEmit r rest (idx + 3) (idx + 4)
        else
          (idx / 2 + 1, v + r * (findN (idx + 2) - v)) ::
            bindSparseEmit r rest nl (idx + 4)
      else if idx % 4 = 2 then
        (idx / 2 - 1, 1 + r * (v - 1)) :: bindSparseEmit r rest (idx + 2) nr
      else
        (idx / 2, 1 + r * (v - 1)) :: bindSparseEmit r rest nl (idx + 2)

/-- Replay a list of emissions through `pushToBoundLayer`. -/
def applyPushes (out : DynamicDensityGrandProductLayer F)
    (ps : List (Nat × F)) : DynamicDensityGrandProductLayer F :=
  ps.foldl (fun o e => pushToBoundLayer o e.1 e.2) out

theorem applyPushes_append (out : DynamicDensityGrandProductLayer F)
    (ps qs : List (Nat × F)) :
    applyPushes out (ps ++ qs) = applyPushes (applyPushes out ps) qs := by
  simp [applyPushes, List.foldl_append]

/-- The bind loop is the replay of its emissions. -/
theorem bindSparseLoop_eq_applyPushes (r : F) (s : List (Nat × F)) :
    ∀ (nl nr : Nat) (out : DynamicDensityGrandProductLayer F),
      bindSparseLoop r s nl nr out = applyPushes out (bindSparseEmit r s nl nr) := by
  induction s with
  | nil => intro nl nr out; rfl
  | cons e rest ih =>
      intro nl nr out
      obtain ⟨idx, v⟩ := e
      rw [bindSparseLoop, bindSparseEmit]
      split
      · exact ih _ _ _
      · split
        · exact ih _ _ _
        · split
          · rw [ih]; rfl
          · split
            · split
              · rw [ih, applyPushes_append]
                split <;> rfl
              · rw [ih]; rfl
            · split
              · rw [ih]; rfl
              · rw [ih]; rfl

/-! ### Lookup lemmas for sparse layers -/

theorem sval_nil (k : Nat) : sval ([] : List (Nat × F)) k = 1 := rfl

theorem sval_cons (idx : Nat) (v : F) (t : List (Nat × F)) (k : Nat) :
    sval ((idx, v) :: t) k = if idx = k then v else sval t k := by
  by_cases h : idx = k <;> simp [sval, List.find?_cons, h]

theorem smem_cons (idx : Nat) (v : F) (t : List (Nat × F)) (k : Nat) :
    smem ((idx, v) :: t) k = (idx == k || smem t k) := by
  simp [smem]

theorem sval_eq_one_of_not_smem (s : List (Nat × F)) (k : Nat)
    (h : smem s k = false) : sval s k = 1 := by
  induction s with
  | nil => rfl
  | cons e t ih =>
      obtain ⟨i, v⟩ := e
      rw [smem_cons] at h
      rcases Bool.or_eq_false_iff.mp h with ⟨h1, h2⟩
      rw [sval_cons, if_neg (by simpa using h1)]
      exact ih h2

theorem smem_eq_false_of_forall_ne (s : List (Nat × F)) (k : Nat)
    (h : ∀ e ∈ s, e.1 ≠ k) : smem s k = false := by
  simp only [smem, List.any_eq_false]
  intro e he
  simpa using h e he

theorem sval_eq_one_of_forall_ne (s : List (Nat × F)) (k : Nat)
    (h : ∀ e ∈ s, e.1 ≠ k) : sval s k = 1 :=
  sval_eq_one_of_not_smem s k (smem_eq_false_of_forall_ne s k h)

theorem sval_eq_one_of_forall_lt (s : List (Nat × F)) (k : Nat)
    (h : ∀ e ∈ s, k < e.1) : sval s k = 1 :=
  sval_eq_one_of_forall_ne s k (fun e he => by have := h e he; omega)

theorem sorted_cons_iff {e : Nat × F} {t : List (Nat × F)} :
    SparseSorted (e :: t) ↔ (∀ b ∈ t, e.1 < b.1) ∧ SparseSorted t := by
  simp [SparseSorted, List.pairwise_cons]

/-- The quartet fold value: what `bind` must place at output position `j`,
computed from the pointwise values of the pre-bind layer. -/
def bindFoldVal (g : Nat → F) (r : F) (j : Nat) : F :=
  if j % 2 = 0 then g (2*j) + r * (g (2*j+2) - g (2*j))
  else g (2*j-1) + r * (g (2*j+1) - g (2*j-1))

/-- The two-entry lookahead of the bind loop computes the pointwise value of
the remaining entries, for queries at distance at most two. -/
theorem findTwo_eq_sval (rest : List (Nat × F)) (idx q : Nat)
    (hs : SparseSorted rest) (hgt : ∀ e ∈ rest, idx < e.1)
    (hq1 : idx < q) (hq2 : q ≤ idx + 2) :
    (if (rest.getD 0 (idx + 1, 1)).1 = q then (rest.getD 0 (idx + 1, 1)).2
     else if (rest.getD 1 (idx + 2, 1)).1 = q then (rest.getD 1 (idx + 2, 1)).2
     else 1) = sval rest q := by
  match rest with
  | [] =>
      simp only [List.getD_nil, sval_nil]
      split <;> [rfl; (split <;> rfl)]
  | [e1] =>
      obtain ⟨i1, v1⟩ := e1
      simp only [List.getD_cons_zero, List.getD_cons_succ, List.getD_nil, sval_cons, sval_nil]
      by_cases h1 : i1 = q
      · simp [h1]
      · rw [if_neg h1, if_neg h1]
        split <;> rfl
  | e1 :: e2 :: t =>
      obtain ⟨i1, v1⟩ := e1
      obtain ⟨i2, v2⟩ := e2
      simp only [List.getD_cons_zero, List.getD_cons_succ, sval_cons]
      by_cases h1 : i1 = q
      · simp [h1]
      · rw [if_neg h1, if_neg h1]
        by_cases h2 : i2 = q
        · simp [h2]
        · rw [if_neg h2, if_neg h2]
          rcases sorted_cons_iff.mp hs with ⟨hlt1, hs2⟩
          rcases sorted_cons_iff.mp hs2 with ⟨hlt2, _⟩
          refine (sval_eq_one_of_forall_lt t q ?_).symm
          intro e he
          have hi1 : idx < i1 := hgt (i1, v1) (by simp)
          have hi2 : i1 < i2 := hlt1 (i2, v2) (by simp)
          have := hlt2 e he
          omega

/-! ### Step equations of the bind-loop emissions -/

theorem emit_skip_even (r : F) (idx : Nat) (v : F) (rest : List (Nat × F))
    (nl nr : Nat) (h1 : idx % 2 = 0) (h2 : idx < nl) :
    bindSparseEmit r ((idx, v) :: rest) nl nr = bindSparseEmit r rest nl nr := by
  rw [bindSparseEmit, if_pos ⟨h1, h2⟩]

theorem emit_skip_odd (r : F) (idx : Nat) (v : F) (rest : List (Nat × F))
    (nl nr : Nat) (h1 : idx % 2 = 1) (h2 : idx < nr) :
    bindSparseEmit r ((idx, v) :: rest) nl nr = bindSparseEmit r rest nl nr := by
  rw [bindSparseEmit, if_neg (by omega), if_pos ⟨h1, h2⟩]

theorem emit_case0 (r : F) (idx : Nat) (v : F) (rest : List (Nat × F))
    (nl nr : Nat) (h : idx % 4 = 0) (hnl : nl ≤ idx)
    (hs : SparseSorted rest) (hgt : ∀ e ∈ rest, idx < e.1) :
    bindSparseEmit r ((idx, v) :: rest) nl nr =
      (idx / 2, v + r * (sval rest (idx + 2) - v)) ::
        bindSparseEmit r rest (idx + 4) nr := by
  simp only [bindSparseEmit]
  rw [if_neg (by omega), if_neg (by omega), if_pos h,
    findTwo_eq_sval rest idx (idx + 2) hs hgt (by omega) (by omega)]

theorem emit_case1_edge (r : F) (idx : Nat) (v : F) (rest : List (Nat × F))
    (nl nr : Nat) (h : idx % 4 = 1) (hnr : nr ≤ idx) (hnl : nl ≤ idx + 1)
    (hs : SparseSorted rest) (hgt : ∀ e ∈ rest, idx < e.1) :
    bindSparseEmit r ((idx, v) :: rest) nl nr =
      (if sval rest (idx + 1) ≠ 1 then
        [(idx / 2, 1 + r * (sval rest (idx + 1) - 1))]
      else []) ++
      (idx / 2 + 1, v + r * (sval rest (idx + 2) - v)) ::
        bindSparseEmit r rest (idx + 3) (idx + 4) := by
  simp only [bindSparseEmit]
  rw [if_neg (by omega), if_neg (by omega), if_neg (by omega), if_pos h, if_pos hnl,
    findTwo_eq_sval rest idx (idx + 1) hs hgt (by omega) (by omega),
    findTwo_eq_sval rest idx (idx + 2) hs hgt (by omega) (by omega)]

theorem emit_case1_noedge (r : F) (idx : Nat) (v : F) (rest : List (Nat × F))
    (nl nr : Nat) (h : idx % 4 = 1) (hnr : nr ≤ idx) (hnl : idx + 1 < nl)
    (hs : SparseSorted rest) (hgt : ∀ e ∈ rest, idx < e.1) :
    bindSparseEmit r ((idx, v) :: rest) nl nr =
      (idx / 2 + 1, v + r * (sval rest (idx + 2) - v)) ::
        bindSparseEmit r rest nl (idx + 4) := by
  simp only [bindSparseEmit]
  rw [if_neg (by omega), if_neg (by omega), if_neg (by omega), if_pos h,
    if_neg (by omega),
    findTwo_eq_sval rest idx (idx + 2) hs hgt (by omega) (by omega)]

theorem emit_case2 (r : F) (idx : Nat) (v : F) (rest : List (Nat × F))
    (nl nr : Nat) (h : idx % 4 = 2) (hnl : nl ≤ idx) :
    bindSparseEmit r ((idx, v) :: rest) nl nr =
      (idx / 2 - 1, 1 + r * (v - 1)) :: bindSparseEmit r rest (idx + 2) nr := by
  simp only [bindSparseEmit]
  rw [if_neg (by omega), if_neg (by omega), if_neg (by omega), if_neg (by omega),
    if_pos h]

theorem emit_case3 (r : F) (idx : Nat) (v : F) (rest : List (Nat × F))
    (nl nr : Nat) (h : idx % 4 = 3) (hnr : nr ≤ idx) :
    bindSparseEmit r ((idx, v) :: rest) nl nr =
      (idx / 2, 1 + r * (v - 1)) :: bindSparseEmit r rest nl (idx + 2) := by
  simp only [bindSparseEmit]
  rw [if_neg (by omega), if_neg (by omega), if_neg (by omega), if_neg (by omega),
    if_neg (by omega)]

/-! ### Fold-value helpers -/

theorem bindFoldVal_cons_ne (idx : Nat) (v : F) (t : List (Nat × F)) (r : F)
    (j : Nat) (h : idx / 4 ≠ j / 2 ∨ idx % 2 ≠ j % 2) :
    bindFoldVal (sval ((idx, v) :: t)) r j = bindFoldVal (sval t) r j := by
  unfold bindFoldVal
  by_cases hj : j % 2 = 0
  · rw [if_pos hj, if_pos hj, sval_cons, if_neg (by omega), sval_cons,
      if_neg (by omega)]
  · rw [if_neg hj, if_neg hj, sval_cons, if_neg (by omega), sval_cons,
      if_neg (by omega)]

theorem bindFoldVal_eq_one (s : List (Nat × F)) (r : F) (j : Nat)
    (h : ∀ e ∈ s, 2*j + 2 < e.1) :
    bindFoldVal (sval s) r j = 1 := by
  unfold bindFoldVal
  split
  · rw [sval_eq_one_of_forall_lt s (2*j) (fun e he => by have := h e he; omega),
      sval_eq_one_of_forall_lt s (2*j+2) (fun e he => by have := h e he; omega)]
    ring
  · rw [sval_eq_one_of_forall_lt s (2*j-1) (fun e he => by have := h e he; omega),
      sval_eq_one_of_forall_lt s (2*j+1) (fun e he => by have := h e he; omega)]
    ring

/-! ### Pointwise correctness of the sparse bind loop

The generalized invariant: the frontier counters `nl`/`nr` always sit at a
quartet boundary relative to every remaining entry (either at or before the
entry's quartet, or fully past it). -/

theorem bindSparseEmit_sval (r : F) :
    ∀ (s : List (Nat × F)) (nl nr : Nat),
      SparseSorted s →
      (∀ e ∈ s, nl ≤ 4 * (e.1 / 4) ∨ 4 * (e.1 / 4) + 4 ≤ nl) →
      (∀ e ∈ s, nr ≤ 4 * (e.1 / 4) + 1 ∨ 4 * (e.1 / 4) + 5 ≤ nr) →
      ∀ j, sval (bindSparseEmit r s nl nr) j =
        if j % 2 = 0 then
          if nl ≤ 2 * j then bindFoldVal (sval s) r j else 1
        else
          if nr ≤ 2 * j - 1 then bindFoldVal (sval s) r j else 1 := by
  intro s
  induction s with
  | nil =>
      intro nl nr _ _ _ j
      have h1 : bindFoldVal (sval ([] : List (Nat × F))) r j = 1 :=
        bindFoldVal_eq_one [] r j (by simp)
      show sval [] j = _
      rw [sval_nil]
      split <;> split <;> simp [h1]
  | cons e rest ih =>
      obtain ⟨idx, v⟩ := e
      intro nl nr hs hInvL hInvR j
      have hsrest : SparseSorted rest := (sorted_cons_iff.mp hs).2
      have hgt : ∀ e ∈ rest, idx < e.1 := (sorted_cons_iff.mp hs).1
      have hLhead := hInvL (idx, v) (List.mem_cons_self _ _)
      have hRhead := hInvR (idx, v) (List.mem_cons_self _ _)
      have hInvLr : ∀ e ∈ rest, nl ≤ 4 * (e.1 / 4) ∨ 4 * (e.1 / 4) + 4 ≤ nl :=
        fun e he => hInvL e (List.mem_cons_of_mem _ he)
      have hInvRr : ∀ e ∈ rest, nr ≤ 4 * (e.1 / 4) + 1 ∨ 4 * (e.1 / 4) + 5 ≤ nr :=
        fun e he => hInvR e (List.mem_cons_of_mem _ he)
      by_cases hA : idx % 2 = 0 ∧ idx < nl
      · -- the head is a left node already bound in a previous iteration
        have hnl4 : 4 * (idx / 4) + 4 ≤ nl := by omega
        rw [emit_skip_even r idx v rest nl nr hA.1 hA.2,
          ih nl nr hsrest hInvLr hInvRr j]
        by_cases hj2 : j % 2 = 0
        · rw [if_pos hj2, if_pos hj2]
          by_cases hf : nl ≤ 2 * j
          · rw [if_pos hf, if_pos hf,
              bindFoldVal_cons_ne idx v rest r j (Or.inl (by omega))]
          · rw [if_neg hf, if_neg hf]
        · rw [if_neg hj2, if_neg hj2]
          by_cases hf : nr ≤ 2 * j - 1
          · rw [if_pos hf, if_pos hf,
              bindFoldVal_cons_ne idx v rest r j (Or.inr (by omega))]
          · rw [if_neg hf, if_neg hf]
      · by_cases hB : idx % 2 = 1 ∧ idx < nr
        · -- the head is a right node already bound in a previous iteration
          have hnr5 : 4 * (idx / 4) + 5 ≤ nr := by omega
          rw [emit_skip_odd r idx v rest nl nr hB.1 hB.2,
            ih nl nr hsrest hInvLr hInvRr j]
          by_cases hj2 : j % 2 = 0
          · rw [if_pos hj2, if_pos hj2]
            by_cases hf : nl ≤ 2 * j
            · rw [if_pos hf, if_pos hf,
                bindFoldVal_cons_ne idx v rest r j (Or.inr (by omega))]
            · rw [if_neg hf, if_neg hf]
          · rw [if_neg hj2, if_neg hj2]
            by_cases hf : nr ≤ 2 * j - 1
            · rw [if_pos hf, if_pos hf,
                bindFoldVal_cons_ne idx v rest r j (Or.inl (by omega))]
            · rw [if_neg hf, if_neg hf]
        · by_cases h0 : idx % 4 = 0
          · -- left node, sibling present or implicit one
            have hnl : nl ≤ idx := by omega
            rw [emit_case0 r idx v rest nl nr h0 hnl hsrest hgt, sval_cons]
            by_cases hj : idx / 2 = j
            · rw [if_pos hj, if_pos (show j % 2 = 0 by omega),
                if_pos (show nl ≤ 2 * j by omega)]
              unfold bindFoldVal
              rw [if_pos (show j % 2 = 0 by omega), sval_cons,
                if_pos (show idx = 2 * j by omega), sval_cons, if_neg (by omega),
                show 2 * j + 2 = idx + 2 by omega]
            · rw [if_neg hj, ih (idx + 4) nr hsrest
                (fun e he => by have := hgt e he; omega) hInvRr j]
              by_cases hj2 : j % 2 = 0
              · rw [if_pos hj2, if_pos hj2]
                by_cases hf : idx + 4 ≤ 2 * j
                · rw [if_pos hf, if_pos (by omega),
                    bindFoldVal_cons_ne idx v rest r j (Or.inl (by omega))]
                · rw [if_neg hf]
                  by_cases hf2 : nl ≤ 2 * j
                  · rw [if_pos hf2, bindFoldVal_eq_one _ r j ?_]
                    intro e he
                    rcases List.mem_cons.mp he with h' | h'
                    · rw [h']; omega
                    · have := hgt e h'; omega
                  · rw [if_neg hf2]
              · rw [if_neg hj2, if_neg hj2]
                by_cases hf : nr ≤ 2 * j - 1
                · rw [if_pos hf, if_pos hf,
                    bindFoldVal_cons_ne idx v rest r j (Or.inr (by omega))]
                · rw [if_neg hf, if_neg hf]
          · by_cases h1 : idx % 4 = 1
            · -- right node of an even quartet; left sibling may need emitting
              have hnr : nr ≤ idx := by omega
              by_cases hE : nl ≤ idx + 1
              · have hnl0 : nl ≤ 4 * (idx / 4) := by omega
                rw [emit_case1_edge r idx v rest nl nr h1 hnr hE hsrest hgt]
                by_cases hone : sval rest (idx + 1) = 1
                · rw [if_neg (not_not_intro hone), List.nil_append, sval_cons]
                  by_cases hj : idx / 2 + 1 = j
                  · rw [if_pos hj, if_neg (show ¬ j % 2 = 0 by omega),
                      if_pos (show nr ≤ 2 * j - 1 by omega)]
                    unfold bindFoldVal
                    rw [if_neg (show ¬ j % 2 = 0 by omega), sval_cons,
                      if_pos (show idx = 2 * j - 1 by omega), sval_cons,
                      if_neg (by omega), show 2 * j + 1 = idx + 2 by omega]
                  · rw [if_neg hj, ih (idx + 3) (idx + 4) hsrest
                      (fun e he => by have := hgt e he; omega)
                      (fun e he => by have := hgt e he; omega) j]
                    by_cases hj2 : j % 2 = 0
                    · rw [if_pos hj2, if_pos hj2]
                      by_cases hf : idx + 3 ≤ 2 * j
                      · rw [if_pos hf, if_pos (by omega),
                          bindFoldVal_cons_ne idx v rest r j (Or.inr (by omega))]
                      · rw [if_neg hf]
                        by_cases hf2 : nl ≤ 2 * j
                        · have hv1 : sval ((idx, v) :: rest) (2 * j) = 1 := by
                            rw [sval_cons, if_neg (by omega)]
                            exact sval_eq_one_of_forall_lt rest (2 * j)
                              (fun e he => by have := hgt e he; omega)
                          have hv2 : sval ((idx, v) :: rest) (2 * j + 2) = 1 := by
                            rw [sval_cons, if_neg (by omega)]
                            by_cases hc : 2 * j + 2 = idx + 1
                            · rw [hc]; exact hone
                            · exact sval_eq_one_of_forall_lt rest (2 * j + 2)
                                (fun e he => by have := hgt e he; omega)
                          have hfold : bindFoldVal (sval ((idx, v) :: rest)) r j = 1 := by
                            unfold bindFoldVal
                            rw [if_pos hj2, hv1, hv2]; ring
                          rw [if_pos hf2, hfold]
                        · rw [if_neg hf2]
                    · rw [if_neg hj2, if_neg hj2]
                      by_cases hf : idx + 4 ≤ 2 * j - 1
                      · rw [if_pos hf, if_pos (by omega),
                          bindFoldVal_cons_ne idx v rest r j (Or.inl (by omega))]
                      · rw [if_neg hf]
                        by_cases hf2 : nr ≤ 2 * j - 1
                        · rw [if_pos hf2, bindFoldVal_eq_one _ r j ?_]
                          intro e he
                          rcases List.mem_cons.mp he with h' | h'
                          · rw [h']; omega
                          · have := hgt e h'; omega
                        · rw [if_neg hf2]
                · rw [if_pos hone, List.cons_append, List.nil_append, sval_cons]
                  by_cases hjL : idx / 2 = j
                  · rw [if_pos hjL, if_pos (show j % 2 = 0 by omega),
                      if_pos (show nl ≤ 2 * j by omega)]
                    unfold bindFoldVal
                    rw [if_pos (show j % 2 = 0 by omega), sval_cons,
                      if_neg (by omega),
                      sval_eq_one_of_forall_lt rest (2 * j)
                        (fun e he => by have := hgt e he; omega),
                      sval_cons, if_neg (by omega),
                      show 2 * j + 2 = idx + 1 by omega]
                  · rw [if_neg hjL, sval_cons]
                    by_cases hj : idx / 2 + 1 = j
                    · rw [if_pos hj, if_neg (show ¬ j % 2 = 0 by omega),
                        if_pos (show nr ≤ 2 * j - 1 by omega)]
                      unfold bindFoldVal
                      rw [if_neg (show ¬ j % 2 = 0 by omega), sval_cons,
                        if_pos (show idx = 2 * j - 1 by omega), sval_cons,
                        if_neg (by omega), show 2 * j + 1 = idx + 2 by omega]
                    · rw [if_neg hj, ih (idx + 3) (idx + 4) hsrest
                        (fun e he => by have := hgt e he; omega)
                        (fun e he => by have := hgt e he; omega) j]
                      by_cases hj2 : j % 2 = 0
                      · rw [if_pos hj2, if_pos hj2]
                        by_cases hf : idx + 3 ≤ 2 * j
                        · rw [if_pos hf, if_pos (by omega),
                            bindFoldVal_cons_ne idx v rest r j (Or.inr (by omega))]
                        · rw [if_neg hf]
                          by_cases hf2 : nl ≤ 2 * j
                          · rw [if_pos hf2, bindFoldVal_eq_one _ r j ?_]
                            intro e he
                            rcases List.mem_cons.mp he with h' | h'
                            · rw [h']; omega
                            · have := hgt e h'; omega
                          · rw [if_neg hf2]
                      · rw [if_neg hj2, if_neg hj2]
                        by_cases hf : idx + 4 ≤ 2 * j - 1
                        · rw [if_pos hf, if_pos (by omega),
                            bindFoldVal_cons_ne idx v rest r j (Or.inl (by omega))]
                        · rw [if_neg hf]
                          by_cases hf2 : nr ≤ 2 * j - 1
                          · rw [if_pos hf2, bindFoldVal_eq_one _ r j ?_]
                            intro e he
                            rcases List.mem_cons.mp he with h' | h'
                            · rw [h']; omega
                            · have := hgt e h'; omega
                          · rw [if_neg hf2]
              · -- the left half of this quartet was already processed
                have hnl4 : 4 * (idx / 4) + 4 ≤ nl := by omega
                rw [emit_case1_noedge r idx v rest nl nr h1 hnr (by omega) hsrest hgt,
                  sval_cons]
                by_cases hj : idx / 2 + 1 = j
                · rw [if_pos hj, if_neg (show ¬ j % 2 = 0 by omega),
                    if_pos (show nr ≤ 2 * j - 1 by omega)]
                  unfold bindFoldVal
                  rw [if_neg (show ¬ j % 2 = 0 by omega), sval_cons,
                    if_pos (show idx = 2 * j - 1 by omega), sval_cons,
                    if_neg (by omega), show 2 * j + 1 = idx + 2 by omega]
                · rw [if_neg hj, ih nl (idx + 4) hsrest hInvLr
                    (fun e he => by have := hgt e he; omega) j]
                  by_cases hj2 : j % 2 = 0
                  · rw [if_pos hj2, if_pos hj2]
                    by_cases hf : nl ≤ 2 * j
                    · rw [if_pos hf, if_pos hf,
                        bindFoldVal_cons_ne idx v rest r j (Or.inr (by omega))]
                    · rw [if_neg hf, if_neg hf]
                  · rw [if_neg hj2, if_neg hj2]
                    by_cases hf : idx + 4 ≤ 2 * j - 1
                    · rw [if_pos hf, if_pos (by omega),
                        bindFoldVal_cons_ne idx v rest r j (Or.inl (by omega))]
                    · rw [if_neg hf]
                      by_cases hf2 : nr ≤ 2 * j - 1
                      · rw [if_pos hf2, bindFoldVal_eq_one _ r j ?_]
                        intro e he
                        rcases List.mem_cons.mp he with h' | h'
                        · rw [h']; omega
                        · have := hgt e h'; omega
                      · rw [if_neg hf2]
            · by_cases h2 : idx % 4 = 2
              · -- left node of an odd quartet, partner implicit one
                have hnl : nl ≤ idx := by omega
                have hnl0 : nl ≤ 4 * (idx / 4) := by omega
                rw [emit_case2 r idx v rest nl nr h2 hnl, sval_cons]
                by_cases hj : idx / 2 - 1 = j
                · rw [if_pos hj, if_pos (show j % 2 = 0 by omega),
                    if_pos (show nl ≤ 2 * j by omega)]
                  unfold bindFoldVal
                  rw [if_pos (show j % 2 = 0 by omega), sval_cons,
                    if_neg (by omega),
                    sval_eq_one_of_forall_lt rest (2 * j)
                      (fun e he => by have := hgt e he; omega),
                    sval_cons, if_pos (show idx = 2 * j + 2 by omega)]
                · rw [if_neg hj, ih (idx + 2) nr hsrest
                    (fun e he => by have := hgt e he; omega) hInvRr j]
                  by_cases hj2 : j % 2 = 0
                  · rw [if_pos hj2, if_pos hj2]
                    by_cases hf : idx + 2 ≤ 2 * j
                    · rw [if_pos hf, if_pos (by omega),
                        bindFoldVal_cons_ne idx v rest r j (Or.inl (by omega))]
                    · rw [if_neg hf]
                      by_cases hf2 : nl ≤ 2 * j
                      · rw [if_pos hf2, bindFoldVal_eq_one _ r j ?_]
                        intro e he
                        rcases List.mem_cons.mp he with h' | h'
                        · rw [h']; omega
                        · have := hgt e h'; omega
                      · rw [if_neg hf2]
                  · rw [if_neg hj2, if_neg hj2]
                    by_cases hf : nr ≤ 2 * j - 1
                    · rw [if_pos hf, if_pos hf,
                        bindFoldVal_cons_ne idx v rest r j (Or.inr (by omega))]
                    · rw [if_neg hf, if_neg hf]
              · -- right node of an odd quartet, partner implicit one
                have h3 : idx % 4 = 3 := by omega
                have hnr : nr ≤ idx := by omega
                have hnr0 : nr ≤ 4 * (idx / 4) + 1 := by omega
                rw [emit_case3 r idx v rest nl nr h3 hnr, sval_cons]
                by_cases hj : idx / 2 = j
                · rw [if_pos hj, if_neg (show ¬ j % 2 = 0 by omega),
                    if_pos (show nr ≤ 2 * j - 1 by omega)]
                  unfold bindFoldVal
                  rw [if_neg (show ¬ j % 2 = 0 by omega), sval_cons,
                    if_neg (by omega),
                    sval_eq_one_of_forall_lt rest (2 * j - 1)
                      (fun e he => by have := hgt e he; omega),
                    sval_cons, if_pos (show idx = 2 * j + 1 by omega)]
                · rw [if_neg hj, ih nl (idx + 2) hsrest hInvLr
                    (fun e he => by have := hgt e he; omega) j]
                  by_cases hj2 : j % 2 = 0
                  · rw [if_pos hj2, if_pos hj2]
                    by_cases hf : nl ≤ 2 * j
                    · rw [if_pos hf, if_pos hf,
                        bindFoldVal_cons_ne idx v rest r j (Or.inr (by omega))]
                    · rw [if_neg hf, if_neg hf]
                  · rw [if_neg hj2, if_neg hj2]
                    by_cases hf : idx + 2 ≤ 2 * j - 1
                    · rw [if_pos hf, if_pos (by omega),
                        bindFoldVal_cons_ne idx v rest r j (Or.inl (by omega))]
                    · rw [if_neg hf]
                      by_cases hf2 : nr ≤ 2 * j - 1
                      · rw [if_pos hf2, bindFoldVal_eq_one _ r j ?_]
                        intro e he
                        rcases List.mem_cons.mp he with h' | h'
                        · rw [h']; omega
                        · have := hgt e h'; omega
                      · rw [if_neg hf2]

/-- Characterization of the emitted output positions: left outputs only after
the left frontier, right outputs only after the right frontier, and every
output position comes from a quartet that has an explicit input entry. -/
theorem bindSparseEmit_keys (r : F) :
    ∀ (s : List (Nat × F)) (nl nr : Nat),
      SparseSorted s →
      (∀ e ∈ s, nl ≤ 4 * (e.1 / 4) ∨ 4 * (e.1 / 4) + 4 ≤ nl) →
      (∀ e ∈ s, nr ≤ 4 * (e.1 / 4) + 1 ∨ 4 * (e.1 / 4) + 5 ≤ nr) →
      ∀ p ∈ bindSparseEmit r s nl nr,
        (p.1 % 2 = 0 → nl ≤ 2 * p.1) ∧ (p.1 % 2 = 1 → nr ≤ 2 * p.1 - 1) ∧
        ∃ a ∈ s, p.1 / 2 = a.1 / 4 := by
  intro s
  induction s with
  | nil => intro nl nr _ _ _ p hp; simp [show bindSparseEmit r [] nl nr = [] from rfl] at hp
  | cons e rest ih =>
      obtain ⟨idx, v⟩ := e
      intro nl nr hs hInvL hInvR p hp
      have hsrest : SparseSorted rest := (sorted_cons_iff.mp hs).2
      have hgt : ∀ e ∈ rest, idx < e.1 := (sorted_cons_iff.mp hs).1
      have hLhead := hInvL (idx, v) (List.mem_cons_self _ _)
      have hRhead := hInvR (idx, v) (List.mem_cons_self _ _)
      have hInvLr : ∀ e ∈ rest, nl ≤ 4 * (e.1 / 4) ∨ 4 * (e.1 / 4) + 4 ≤ nl :=
        fun e he => hInvL e (List.mem_cons_of_mem _ he)
      have hInvRr : ∀ e ∈ rest, nr ≤ 4 * (e.1 / 4) + 1 ∨ 4 * (e.1 / 4) + 5 ≤ nr :=
        fun e he => hInvR e (List.mem_cons_of_mem _ he)
      have tailWeaken : ∀ (nl' nr' : Nat), nl ≤ nl' → nr ≤ nr' →
          (p.1 % 2 = 0 → nl' ≤ 2 * p.1) → (p.1 % 2 = 1 → nr' ≤ 2 * p.1 - 1) →
          (∃ a ∈ rest, p.1 / 2 = a.1 / 4) →
          (p.1 % 2 = 0 → nl ≤ 2 * p.1) ∧ (p.1 % 2 = 1 → nr ≤ 2 * p.1 - 1) ∧
            ∃ a ∈ (idx, v) :: rest, p.1 / 2 = a.1 / 4 := by
        intro nl' nr' h1 h2 h3 h4 h5
        refine ⟨fun h => le_trans h1 (h3 h), fun h => le_trans h2 (h4 h), ?_⟩
        obtain ⟨a, ha, ha2⟩ := h5
        exact ⟨a, List.mem_cons_of_mem _ ha, ha2⟩
      by_cases hA : idx % 2 = 0 ∧ idx < nl
      · rw [emit_skip_even r idx v rest nl nr hA.1 hA.2] at hp
        exact tailWeaken nl nr le_rfl le_rfl
          (ih nl nr hsrest hInvLr hInvRr p hp).1
          (ih nl nr hsrest hInvLr hInvRr p hp).2.1
          (ih nl nr hsrest hInvLr hInvRr p hp).2.2
      · by_cases hB : idx % 2 = 1 ∧ idx < nr
        · rw [emit_skip_odd r idx v rest nl nr hB.1 hB.2] at hp
          exact tailWeaken nl nr le_rfl le_rfl
            (ih nl nr hsrest hInvLr hInvRr p hp).1
            (ih nl nr hsrest hInvLr hInvRr p hp).2.1
            (ih nl nr hsrest hInvLr hInvRr p hp).2.2
        · by_cases h0 : idx % 4 = 0
          · have hnl : nl ≤ idx := by omega
            rw [emit_case0 r idx v rest nl nr h0 hnl hsrest hgt] at hp
            rcases List.mem_cons.mp hp with h' | h'
            · rw [h']
              exact ⟨fun _ => by omega, fun h => by omega,
                ⟨(idx, v), List.mem_cons_self _ _, by omega⟩⟩
            · have hrec := ih (idx + 4) nr hsrest
                (fun e he => by have := hgt e he; omega) hInvRr p h'
              exact tailWeaken (idx + 4) nr (by omega) le_rfl hrec.1 hrec.2.1 hrec.2.2
          · by_cases h1 : idx % 4 = 1
            · have hnr : nr ≤ idx := by omega
              by_cases hE : nl ≤ idx + 1
              · have hnl0 : nl ≤ 4 * (idx / 4) := by omega
                rw [emit_case1_edge r idx v rest nl nr h1 hnr hE hsrest hgt] at hp
                have hTail : p ∈ bindSparseEmit r rest (idx + 3) (idx + 4) →
                    (p.1 % 2 = 0 → nl ≤ 2 * p.1) ∧ (p.1 % 2 = 1 → nr ≤ 2 * p.1 - 1) ∧
                      ∃ a ∈ (idx, v) :: rest, p.1 / 2 = a.1 / 4 := by
                  intro h'
                  have hrec := ih (idx + 3) (idx + 4) hsrest
                    (fun e he => by have := hgt e he; omega)
                    (fun e he => by have := hgt e he; omega) p h'
                  exact tailWeaken (idx + 3) (idx + 4) (by omega) (by omega)
                    hrec.1 hrec.2.1 hrec.2.2
                by_cases hone : sval rest (idx + 1) ≠ 1
                · rw [if_pos hone, List.cons_append, List.nil_append] at hp
                  rcases List.mem_cons.mp hp with h' | h'
                  · rw [h']
                    exact ⟨fun _ => by omega, fun h => by omega,
                      ⟨(idx, v), List.mem_cons_self _ _, by omega⟩⟩
                  · rcases List.mem_cons.mp h' with h'' | h''
                    · rw [h'']
                      exact ⟨fun h => by omega, fun _ => by omega,
                        ⟨(idx, v), List.mem_cons_self _ _, by omega⟩⟩
                    · exact hTail h''
                · rw [if_neg hone, List.nil_append] at hp
                  rcases List.mem_cons.mp hp with h' | h'
                  · rw [h']
                    exact ⟨fun h => by omega, fun _ => by omega,
                      ⟨(idx, v), List.mem_cons_self _ _, by omega⟩⟩
                  · exact hTail h'
              · rw [emit_case1_noedge r idx v rest nl nr h1 hnr (by omega) hsrest hgt] at hp
                rcases List.mem_cons.mp hp with h' | h'
                · rw [h']
                  exact ⟨fun h => by omega, fun _ => by omega,
                    ⟨(idx, v), List.mem_cons_self _ _, by omega⟩⟩
                · have hrec := ih nl (idx + 4) hsrest hInvLr
                    (fun e he => by have := hgt e he; omega) p h'
                  exact tailWeaken nl (idx + 4) le_rfl (by omega)
                    hrec.1 hrec.2.1 hrec.2.2
            · by_cases h2 : idx % 4 = 2
              · have hnl : nl ≤ idx := by omega
                have hnl0 : nl ≤ 4 * (idx / 4) := by omega
                rw [emit_case2 r idx v rest nl nr h2 hnl] at hp
                rcases List.mem_cons.mp hp with h' | h'
                · rw [h']
                  exact ⟨fun _ => by omega, fun h => by omega,
                    ⟨(idx, v), List.mem_cons_self _ _, by omega⟩⟩
                · have hrec := ih (idx + 2) nr hsrest
                    (fun e he => by have := hgt e he; omega) hInvRr p h'
                  exact tailWeaken (idx + 2) nr (by omega) le_rfl
                    hrec.1 hrec.2.1 hrec.2.2
              · have h3 : idx % 4 = 3 := by omega
                have hnr : nr ≤ idx := by omega
                have hnr0 : nr ≤ 4 * (idx / 4) + 1 := by omega
                rw [emit_case3 r idx v rest nl nr h3 hnr] at hp
                rcases List.mem_cons.mp hp with h' | h'
                · rw [h']
                  exact ⟨fun h => by omega, fun _ => by omega,
                    ⟨(idx, v), List.mem_cons_self _ _, by omega⟩⟩
                · have hrec := ih nl (idx + 2) hsrest hInvLr
                    (fun e he => by have := hgt e he; omega) p h'
                  exact tailWeaken nl (idx + 2) le_rfl (by omega)
                    hrec.1 hrec.2.1 hrec.2.2

/-- The bind loop emits strictly increasing output indices. -/
theorem bindSparseEmit_sorted (r : F) :
    ∀ (s : List (Nat × F)) (nl nr : Nat),
      SparseSorted s →
      (∀ e ∈ s, nl ≤ 4 * (e.1 / 4) ∨ 4 * (e.1 / 4) + 4 ≤ nl) →
      (∀ e ∈ s, nr ≤ 4 * (e.1 / 4) + 1 ∨ 4 * (e.1 / 4) + 5 ≤ nr) →
      SparseSorted (bindSparseEmit r s nl nr) := by
  intro s
  induction s with
  | nil => intro nl nr _ _ _; exact List.Pairwise.nil
  | cons e rest ih =>
      obtain ⟨idx, v⟩ := e
      intro nl nr hs hInvL hInvR
      have hsrest : SparseSorted rest := (sorted_cons_iff.mp hs).2
      have hgt : ∀ e ∈ rest, idx < e.1 := (sorted_cons_iff.mp hs).1
      have hLhead := hInvL (idx, v) (List.mem_cons_self _ _)
      have hRhead := hInvR (idx, v) (List.mem_cons_self _ _)
      have hInvLr : ∀ e ∈ rest, nl ≤ 4 * (e.1 / 4) ∨ 4 * (e.1 / 4) + 4 ≤ nl :=
        fun e he => hInvL e (List.mem_cons_of_mem _ he)
      have hInvRr : ∀ e ∈ rest, nr ≤ 4 * (e.1 / 4) + 1 ∨ 4 * (e.1 / 4) + 5 ≤ nr :=
        fun e he => hInvR e (List.mem_cons_of_mem _ he)
      by_cases hA : idx % 2 = 0 ∧ idx < nl
      · rw [emit_skip_even r idx v rest nl nr hA.1 hA.2]
        exact ih nl nr hsrest hInvLr hInvRr
      · by_cases hB : idx % 2 = 1 ∧ idx < nr
        · rw [emit_skip_odd r idx v rest nl nr hB.1 hB.2]
          exact ih nl nr hsrest hInvLr hInvRr
        · by_cases h0 : idx % 4 = 0
          · have hnl : nl ≤ idx := by omega
            rw [emit_case0 r idx v rest nl nr h0 hnl hsrest hgt]
            rw [sorted_cons_iff]
            refine ⟨?_, ih (idx + 4) nr hsrest
              (fun e he => by have := hgt e he; omega) hInvRr⟩
            intro p hp
            obtain ⟨hEv, hOd, a, ha, haq⟩ := bindSparseEmit_keys r rest (idx + 4) nr
              hsrest (fun e he => by have := hgt e he; omega) hInvRr p hp
            have hagt := hgt a ha
            by_cases hpar : p.1 % 2 = 0
            · have := hEv hpar; omega
            · omega
          · by_cases h1 : idx % 4 = 1
            · have hnr : nr ≤ idx := by omega
              by_cases hE : nl ≤ idx + 1
              · have hnl0 : nl ≤ 4 * (idx / 4) := by omega
                rw [emit_case1_edge r idx v rest nl nr h1 hnr hE hsrest hgt]
                have hTail : ∀ p ∈ bindSparseEmit r rest (idx + 3) (idx + 4),
                    idx / 2 + 1 < p.1 := by
                  intro p hp
                  obtain ⟨hEv, hOd, a, ha, haq⟩ := bindSparseEmit_keys r rest
                    (idx + 3) (idx + 4) hsrest
                    (fun e he => by have := hgt e he; omega)
                    (fun e he => by have := hgt e he; omega) p hp
                  by_cases hpar : p.1 % 2 = 0
                  · have := hEv hpar; omega
                  · have := hOd (by omega); omega
                have hsTail : SparseSorted (bindSparseEmit r rest (idx + 3) (idx + 4)) :=
                  ih (idx + 3) (idx + 4) hsrest
                    (fun e he => by have := hgt e he; omega)
                    (fun e he => by have := hgt e he; omega)
                by_cases hone : sval rest (idx + 1) ≠ 1
                · rw [if_pos hone, List.cons_append, List.nil_append]
                  rw [sorted_cons_iff]
                  constructor
                  · intro p hp
                    rcases List.mem_cons.mp hp with h' | h'
                    · rw [h']; omega
                    · have := hTail p h'; omega
                  · rw [sorted_cons_iff]
                    exact ⟨hTail, hsTail⟩
                · rw [if_neg hone, List.nil_append, sorted_cons_iff]
                  exact ⟨hTail, hsTail⟩
              · have hnl4 : 4 * (idx / 4) + 4 ≤ nl := by omega
                rw [emit_case1_noedge r idx v rest nl nr h1 hnr (by omega) hsrest hgt,
                  sorted_cons_iff]
                refine ⟨?_, ih nl (idx + 4) hsrest hInvLr
                  (fun e he => by have := hgt e he; omega)⟩
                intro p hp
                obtain ⟨hEv, hOd, a, ha, haq⟩ := bindSparseEmit_keys r rest nl (idx + 4)
                  hsrest hInvLr (fun e he => by have := hgt e he; omega) p hp
                by_cases hpar : p.1 % 2 = 0
                · have := hEv hpar; omega
                · have := hOd (by omega); omega
            · by_cases h2 : idx % 4 = 2
              · have hnl : nl ≤ idx := by omega
                rw [emit_case2 r idx v rest nl nr h2 hnl, sorted_cons_iff]
                refine ⟨?_, ih (idx + 2) nr hsrest
                  (fun e he => by have := hgt e he; omega) hInvRr⟩
                intro p hp
                obtain ⟨hEv, hOd, a, ha, haq⟩ := bindSparseEmit_keys r rest (idx + 2) nr
                  hsrest (fun e he => by have := hgt e he; omega) hInvRr p hp
                have hagt := hgt a ha
                by_cases hpar : p.1 % 2 = 0
                · have := hEv hpar; omega
                · omega
              · have h3 : idx % 4 = 3 := by omega
                have hnr : nr ≤ idx := by omega
                rw [emit_case3 r idx v rest nl nr h3 hnr, sorted_cons_iff]
                refine ⟨?_, ih nl (idx + 2) hsrest hInvLr
                  (fun e he => by have := hgt e he; omega)⟩
                intro p hp
                obtain ⟨hEv, hOd, a, ha, haq⟩ := bindSparseEmit_keys r rest nl (idx + 2)
                  hsrest hInvLr (fun e he => by have := hgt e he; omega) p hp
                have hagt := hgt a ha
                by_cases hpar : p.1 % 2 = 0
                · omega
                · have := hOd (by omega); omega

/-! ### From the emission list to densified layers -/

theorem ext_of_getD {l l' : List F} (hlen : l.length = l'.length)
    (h : ∀ i < l.length, l.getD i 0 = l'.getD i 0) : l = l' := by
  refine List.ext_getElem hlen ?_
  intro i h1 h2
  have := h i h1
  rw [List.getD_eq_getElem?_getD, List.getD_eq_getElem?_getD,
    List.getElem?_eq_getElem h1, List.getElem?_eq_getElem h2] at this
  simpa using this

theorem densifySparse_length (n : Nat) (s : List (Nat × F)) :
    (densifySparse n s).length = n := by simp [densifySparse]

theorem densifySparse_getD (n : Nat) (s : List (Nat × F)) (i : Nat) (hi : i < n) :
    (densifySparse n s).getD i 0 = sval s i := by
  rw [densifySparse, getD_range_map, if_pos hi]

theorem sval_of_mem (s : List (Nat × F)) (j : Nat) (w : F)
    (hs : SparseSorted s) (hm : (j, w) ∈ s) : sval s j = w := by
  induction s with
  | nil => cases hm
  | cons e rest ih =>
      obtain ⟨k, x⟩ := e
      rcases List.mem_cons.mp hm with h' | h'
      · obtain ⟨h1, h2⟩ := Prod.mk.injEq .. ▸ h'
        rw [sval_cons]
        simp_all
      · have hk : k < j := (sorted_cons_iff.mp hs).1 (j, w) h'
        rw [sval_cons, if_neg (by omega)]
        exact ih (sorted_cons_iff.mp hs).2 h'

theorem applyPushes_sparse (acc ps : List (Nat × F)) :
    applyPushes (.Sparse acc : DynamicDensityGrandProductLayer F) ps =
      .Sparse (acc ++ ps) := by
  induction ps generalizing acc with
  | nil => simp [applyPushes]
  | cons p t ih =>
      rw [applyPushes, List.foldl_cons]
      have := ih (acc ++ [p])
      rw [applyPushes] at this
      rw [show pushToBoundLayer (.Sparse acc) p.1 p.2 =
        (.Sparse (acc ++ [p]) : DynamicDensityGrandProductLayer F) from rfl, this,
        List.append_assoc, List.singleton_append]

theorem applyPushes_dense (d : List F) (ps : List (Nat × F)) :
    applyPushes (.Dense d : DynamicDensityGrandProductLayer F) ps =
      .Dense (ps.foldl (fun dd e => dd.set e.1 e.2) d) := by
  induction ps generalizing d with
  | nil => simp [applyPushes]
  | cons p t ih =>
      rw [applyPushes, List.foldl_cons]
      have := ih (d.set p.1 p.2)
      rw [applyPushes] at this
      rw [show pushToBoundLayer (.Dense d) p.1 p.2 =
        (.Dense (d.set p.1 p.2) : DynamicDensityGrandProductLayer F) from rfl, this,
        List.foldl_cons]

theorem foldl_set_length (ps : List (Nat × F)) (d : List F) :
    (ps.foldl (fun dd e => dd.set e.1 e.2) d).length = d.length := by
  induction ps generalizing d with
  | nil => rfl
  | cons p t ih => rw [List.foldl_cons, ih, List.length_set]

theorem foldl_set_getD (ps : List (Nat × F)) (d : List F) (j : Nat)
    (hsort : SparseSorted ps) (hrange : ∀ e ∈ ps, e.1 < d.length) :
    (ps.foldl (fun dd e => dd.set e.1 e.2) d).getD j 0 =
      if smem ps j then sval ps j else d.getD j 0 := by
  induction ps generalizing d with
  | nil => simp [smem]
  | cons p t ih =>
      obtain ⟨k, w⟩ := p
      have hklt : ∀ e ∈ t, k < e.1 := (sorted_cons_iff.mp hsort).1
      have hrange' : ∀ e ∈ t, e.1 < (d.set k w).length := by
        intro e he
        rw [List.length_set]
        exact hrange e (List.mem_cons_of_mem _ he)
      rw [List.foldl_cons, ih (d.set k w) (sorted_cons_iff.mp hsort).2 hrange',
        smem_cons, sval_cons]
      by_cases hkj : k = j
      · subst hkj
        have hnm : smem t k = false :=
          smem_eq_false_of_forall_ne t k (fun e he => by have := hklt e he; omega)
        simp only [hnm, Bool.false_eq_true, if_false, smem_cons, sval_cons]
        simp only [List.getD_eq_getElem?_getD,
          List.getElem?_set_self (hrange (k, w) (List.mem_cons_self _ _))]
        simp
      · by_cases hm : smem t j
        · simp [hm, hkj]
        · have hset : (d.set k w).getD j 0 = d.getD j 0 := by
            rw [List.getD_eq_getElem?_getD, List.getElem?_set_ne hkj,
              ← List.getD_eq_getElem?_getD]
          simp [hm, hkj, hset]

theorem getD_take {α : Type} (l : List α) (n i : Nat) (d : α) (h : i < n) :
    (l.take n).getD i d = l.getD i d := by
  rw [List.getD_eq_getElem?_getD, List.getD_eq_getElem?_getD,
    List.getElem?_take_of_lt h]

theorem getD_replicate (n i : Nat) (a d : F) (h : i < n) :
    (List.replicate n a).getD i d = a := by
  rw [List.getD_eq_getElem?_getD, List.getElem?_replicate_of_lt h]
  rfl

/-- The representation invariant of a dynamic-density layer at logical length
`L`: sparse variants carry strictly increasing in-range indices; dense
variants have at least `L` physical entries. -/
def DynInv (L : Nat) : DynamicDensityGrandProductLayer F → Prop
  | .Sparse s => SparseSorted s ∧ ∀ e ∈ s, e.1 < L
  | .Dense d => L ≤ d.length

/-- The fold values of the dense bind of a densified sparse layer. -/
theorem bindDense_densify_getD (s : List (Nat × F)) (r : F) (L i : Nat)
    (h4 : L % 4 = 0) (hi : i < L / 2) :
    (bindDenseLayer (densifySparse L s) r).getD i 0 = bindFoldVal (sval s) r i := by
  rw [bindDenseLayer_getD _ r i (by rw [densifySparse_length]; omega)
    (by rw [densifySparse_length]; omega)]
  unfold bindFoldVal
  by_cases hp : i % 2 = 0
  · rw [if_pos hp, if_pos hp, densifySparse_getD L s (2*i) (by omega),
      densifySparse_getD L s (2*i+2) (by omega)]
  · rw [if_neg hp, if_neg hp, densifySparse_getD L s (2*i-1) (by omega),
      densifySparse_getD L s (2*i+1) (by omega)]

/-- The full specification of the per-layer sparse-aware bind: its
densification is exactly the dense quartet fold, and the representation
invariant is preserved. -/
theorem bindDynLayer_spec (r : F) (L : Nat)
    (dyn : DynamicDensityGrandProductLayer F) (h4 : L % 4 = 0)
    (hInv : DynInv L dyn) :
    densifyDyn (L / 2) (bindDynLayer r L dyn) =
        bindDenseLayer (densifyDyn L dyn) r ∧
      DynInv (L / 2) (bindDynLayer r L dyn) := by
  cases dyn with
  | Sparse s =>
      obtain ⟨hsort, hrange⟩ := hInv
      have hIL : ∀ e ∈ s, 0 ≤ 4 * (e.1 / 4) ∨ 4 * (e.1 / 4) + 4 ≤ 0 :=
        fun e _ => Or.inl (Nat.zero_le _)
      have hIR : ∀ e ∈ s, 0 ≤ 4 * (e.1 / 4) + 1 ∨ 4 * (e.1 / 4) + 5 ≤ 0 :=
        fun e _ => Or.inl (Nat.zero_le _)
      have hsval : ∀ j, sval (bindSparseEmit r s 0 0) j = bindFoldVal (sval s) r j := by
        intro j
        have h := bindSparseEmit_sval r s 0 0 hsort hIL hIR j
        rwa [if_pos (Nat.zero_le _), if_pos (Nat.zero_le _), ite_self] at h
      have hesorted : SparseSorted (bindSparseEmit r s 0 0) :=
        bindSparseEmit_sorted r s 0 0 hsort hIL hIR
      have herange : ∀ p ∈ bindSparseEmit r s 0 0, p.1 < L / 2 := by
        intro p hp
        obtain ⟨_, _, a, ha, haq⟩ := bindSparseEmit_keys r s 0 0 hsort hIL hIR p hp
        have := hrange a ha
        omega
      show densifyDyn (L / 2) (bindSparseLoop r s 0 0 _) = _ ∧
        DynInv (L / 2) (bindSparseLoop r s 0 0 _)
      by_cases hth : 5 * s.length > 4 * L
      · -- densification threshold exceeded: the bound layer is dense
        rw [if_pos hth, bindSparseLoop_eq_applyPushes, applyPushes_dense]
        have hlen : (List.foldl (fun dd e => dd.set e.1 e.2) (List.replicate (L / 2) 1)
            (bindSparseEmit r s 0 0)).length = L / 2 := by
          rw [foldl_set_length, List.length_replicate]
        constructor
        · simp only [densifyDyn]
          refine ext_of_getD ?_ ?_
          · rw [List.length_take_of_le (by omega), bindDenseLayer_length,
              densifySparse_length]
          · intro i hi
            have hi2 : i < L / 2 := by
              have := List.length_take_le (L / 2)
                (List.foldl (fun dd e => dd.set e.1 e.2)
                  (List.replicate (L / 2) 1) (bindSparseEmit r s 0 0))
              omega
            rw [getD_take _ _ _ _ hi2,
              foldl_set_getD _ _ _ hesorted
                (fun e he => by rw [List.length_replicate]; exact herange e he),
              bindDense_densify_getD s r L i h4 hi2]
            by_cases hm : smem (bindSparseEmit r s 0 0) i
            · rw [if_pos hm, hsval i]
            · rw [if_neg (by simpa using hm),
                getD_replicate _ _ _ _ hi2, ← hsval i,
                sval_eq_one_of_not_smem _ _ (by simpa using hm)]
        · show L / 2 ≤ _
          rw [hlen]
      · -- still sparse: the bound layer is the emission list itself
        rw [if_neg hth, bindSparseLoop_eq_applyPushes, applyPushes_sparse,
          List.nil_append]
        refine ⟨?_, hesorted, herange⟩
        simp only [densifyDyn]
        refine ext_of_getD ?_ ?_
        · rw [densifySparse_length, bindDenseLayer_length, densifySparse_length]
        · intro i hi
          rw [densifySparse_length] at hi
          rw [densifySparse_getD _ _ _ hi, hsval i,
            bindDense_densify_getD s r L i h4 hi]
  | Dense d =>
      have hLd : L ≤ d.length := hInv
      constructor
      · simp only [densifyDyn, bindDynLayer]
        refine ext_of_getD ?_ ?_
        · simp only [List.length_take, bindDenseLayer_length, List.length_map,
            List.length_range]
          omega
        · intro i hi
          have hi2 : i < L / 2 := by
            have := List.length_take_le (L / 2) ((List.range d.length).map
              (fun j => if j < 2 * (L / 4) then
                if j % 2 = 0 then
                  d.getD (2*j) 0 + r * (d.getD (2*j+2) 0 - d.getD (2*j) 0)
                else
                  d.getD (2*j-1) 0 + r * (d.getD (2*j+1) 0 - d.getD (2*j-1) 0)
              else d.getD j 0))
            omega
          rw [getD_take _ _ _ _ hi2, getD_range_map, if_pos (by omega),
            if_pos (by omega),
            bindDenseLayer_getD _ r i (by rw [List.length_take_of_le (by omega)]; omega)
              (by rw [List.length_take_of_le (by omega)]; omega)]
          by_cases hp : i % 2 = 0
          · rw [if_pos hp, if_pos hp, getD_take _ _ _ _ (by omega),
              getD_take _ _ _ _ (by omega)]
          · rw [if_neg hp, if_neg hp, getD_take _ _ _ _ (by omega),
              getD_take _ _ _ _ (by omega)]
      · show L / 2 ≤ _
        simp
        omega

/-! ### Properties of the sparse encoding -/

theorem sparsify_mem (d : List F) (i : Nat) (v : F) :
    (i, v) ∈ sparsify d ↔ i < d.length ∧ d.getD i 0 ≠ 1 ∧ v = d.getD i 0 := by
  simp only [sparsify, List.mem_filterMap, List.mem_range]
  constructor
  · rintro ⟨a, ha, hfa⟩
    by_cases hne : d.getD a 0 ≠ 1
    · rw [if_pos hne, Option.some.injEq, Prod.mk.injEq] at hfa
      obtain ⟨h1, h2⟩ := hfa
      exact ⟨h1 ▸ ha, h1 ▸ hne, (h1 ▸ h2).symm⟩
    · rw [if_neg hne] at hfa
      cases hfa
  · rintro ⟨h1, h2, h3⟩
    exact ⟨i, h1, by rw [if_pos h2, h3]⟩

theorem sparsify_sorted (d : List F) : SparseSorted (sparsify d) := by
  unfold sparsify SparseSorted
  have hgen : ∀ (l : List Nat), List.Pairwise (· < ·) l →
      List.Pairwise (fun a b => a.1 < b.1)
        (l.filterMap (fun i =>
          if d.getD i 0 ≠ 1 then some (i, d.getD i 0) else none)) := by
    intro l hl
    induction l with
    | nil => exact List.Pairwise.nil
    | cons a t ih =>
        obtain ⟨h1, h2⟩ := List.pairwise_cons.mp hl
        by_cases hne : d.getD a 0 ≠ 1
        · rw [List.filterMap_cons_some (by rw [if_pos hne])]
          refine List.pairwise_cons.mpr ⟨?_, ih h2⟩
          intro b hb
          obtain ⟨j, hj, hfj⟩ := List.mem_filterMap.mp hb
          have hbj : b.1 = j := by
            by_cases hj1 : d.getD j 0 ≠ 1
            · rw [if_pos hj1, Option.some.injEq] at hfj
              rw [← hfj]
            · rw [if_neg hj1] at hfj
              cases hfj
          rw [hbj]
          exact h1 j hj
        · rw [List.filterMap_cons_none (by rw [if_neg hne])]
          exact ih h2
  exact hgen _ (List.pairwise_lt_range d.length)

theorem sval_sparsify (d : List F) (k : Nat) (hk : k < d.length) :
    sval (sparsify d) k = d.getD k 0 := by
  by_cases h : d.getD k 0 = 1
  · rw [h]
    refine sval_eq_one_of_not_smem _ _ ?_
    refine smem_eq_false_of_forall_ne _ _ ?_
    intro e he hek
    obtain ⟨_, hne, _⟩ := (sparsify_mem d e.1 e.2).mp (by
      have : e = (e.1, e.2) := rfl
      rwa [this] at he)
    rw [hek] at hne
    exact hne h
  · exact sval_of_mem _ _ _ (sparsify_sorted d)
      ((sparsify_mem d k (d.getD k 0)).mpr ⟨hk, h, rfl⟩)

theorem densifySparse_sparsify (d : List F) :
    densifySparse d.length (sparsify d) = d := by
  refine ext_of_getD (by rw [densifySparse_length]) ?_
  intro i hi
  rw [densifySparse_length] at hi
  rw [densifySparse_getD _ _ _ hi, sval_sparsify d i hi]

/-! ### Batched, round-by-round dense/sparse lockstep -/

/-- The correspondence between a batched sparse layer and its dense shadow:
every per-tree layer satisfies the representation invariant, densifies to the
dense layer, and the dense layers all have the (shared) logical length. -/
def BatchMatches (b : BatchedSparseGrandProductLayer F) (D : List (List F)) : Prop :=
  (∀ dyn ∈ b.layers, DynInv b.layer_len dyn) ∧
  b.layers.map (densifyDyn b.layer_len) = D ∧
  (∀ l ∈ D, l.length = b.layer_len)

/-- Iterated sparse bind over a list of round challenges. -/
def bindRoundsSparse (b : BatchedSparseGrandProductLayer F) (eqPoly : List F) :
    List F → BatchedSparseGrandProductLayer F × List F
  | [] => (b, eqPoly)
  | r :: rs =>
      let step := b.bind eqPoly r
      bindRoundsSparse step.1 step.2 rs

/-- Iterated dense bind over a list of round challenges. -/
def bindRoundsDense (layers : List (List F)) (eqPoly : List F) :
    List F → List (List F) × List F
  | [] => (layers, eqPoly)
  | r :: rs =>
      let step := bindDenseBatched layers eqPoly r
      bindRoundsDense step.1 step.2 rs

theorem batchMatches_bind (b : BatchedSparseGrandProductLayer F)
    (D : List (List F)) (eqPoly : List F) (r : F)
    (h4 : b.layer_len % 4 = 0) (hM : BatchMatches b D) :
    BatchMatches (b.bind eqPoly r).1 (bindDenseBatched D eqPoly r).1 ∧
      (b.bind eqPoly r).2 = (bindDenseBatched D eqPoly r).2 := by
  obtain ⟨hInv, hDen, hLen⟩ := hM
  refine ⟨⟨?_, ?_, ?_⟩, rfl⟩
  · intro dyn hdyn
    simp only [BatchedSparseGrandProductLayer.bind, List.mem_map] at hdyn
    obtain ⟨dyn0, hd0, hd0e⟩ := hdyn
    rw [← hd0e]
    exact (bindDynLayer_spec r b.layer_len dyn0 h4 (hInv dyn0 hd0)).2
  · show (b.layers.map (bindDynLayer r b.layer_len)).map
        (densifyDyn (b.layer_len / 2)) = D.map (fun l => bindDenseLayer l r)
    rw [List.map_map, ← hDen, List.map_map]
    refine List.map_congr_left ?_
    intro dyn hdyn
    exact (bindDynLayer_spec r b.layer_len dyn h4 (hInv dyn hdyn)).1
  · intro l hl
    simp only [bindDenseBatched, List.mem_map] at hl
    obtain ⟨l0, hl0, hl0e⟩ := hl
    rw [← hl0e, bindDenseLayer_length, hLen l0 hl0]
    rfl

theorem bindRounds_lockstep :
    ∀ (rs : List F) (b : BatchedSparseGrandProductLayer F)
      (D : List (List F)) (eqPoly : List F) (k : Nat),
      BatchMatches b D → b.layer_len = 2 ^ k → rs.length < k →
      BatchMatches (bindRoundsSparse b eqPoly rs).1
          (bindRoundsDense D eqPoly rs).1 ∧
        (bindRoundsSparse b eqPoly rs).2 = (bindRoundsDense D eqPoly rs).2 ∧
        (bindRoundsSparse b eqPoly rs).1.layer_len = 2 ^ (k - rs.length) := by
  intro rs
  induction rs with
  | nil =>
      intro b D eqPoly k hM hL _
      exact ⟨hM, rfl, by simpa using hL⟩
  | cons r rs' ih =>
      intro b D eqPoly k hM hL hlen
      have hk2 : 2 ≤ k := by
        have := hlen
        simp only [List.length_cons] at this
        omega
      have hpow : (2:Nat) ^ k = 2 ^ (k - 2) * 4 := by
        have h := pow_add 2 (k - 2) 2
        rw [show k - 2 + 2 = k from by omega] at h
        rw [h]
        norm_num
      have h4 : b.layer_len % 4 = 0 := by
        rw [hL, hpow]
        omega
      obtain ⟨hM', hEq'⟩ := batchMatches_bind b D eqPoly r h4 hM
      have hL' : (b.bind eqPoly r).1.layer_len = 2 ^ (k - 1) := by
        show b.layer_len / 2 = 2 ^ (k - 1)
        have h := pow_succ 2 (k - 1)
        rw [show k - 1 + 1 = k from by omega] at h
        rw [hL, h]
        omega
      have hrec := ih (b.bind eqPoly r).1 (bindDenseBatched D eqPoly r).1
        (b.bind eqPoly r).2 (k - 1) hM' hL'
        (by simp only [List.length_cons] at hlen; omega)
      rw [show bindRoundsSparse b eqPoly (r :: rs') =
          bindRoundsSparse (b.bind eqPoly r).1 (b.bind eqPoly r).2 rs' from rfl,
        show bindRoundsDense D eqPoly (r :: rs') =
          bindRoundsDense (bindDenseBatched D eqPoly r).1
            (bindDenseBatched D eqPoly r).2 rs' from rfl]
      rw [← hEq']
      refine ⟨hrec.1, hrec.2.1, ?_⟩
      rw [hrec.2.2]
      congr 1
      simp only [List.length_cons]
      omega

theorem densifyDyn_length (L : Nat) (dyn : DynamicDensityGrandProductLayer F)
    (h : DynInv L dyn) : (densifyDyn L dyn).length = L := by
  cases dyn with
  | Sparse s => exact densifySparse_length L s
  | Dense d => exact List.length_take_of_le h

/-! ## Claim theorems about `bind` -/

/-- C2: for any batch of dense layers and its sparse encoding (explicit
entries exactly at the non-one positions), binding both with the same
challenges and the same `eq` polynomial keeps them in lockstep: after any
number of rounds up to `num_rounds = log2(layer_len) - 1`, densifying the
sparse batch (absent indices read as one, dense variants truncated to the
current `layer_len`) yields exactly the dense batch, and the two `eq`
polynomials are equal. -/
theorem c2_dense_sparse_bind_lockstep (D : List (List F)) (eqPoly : List F)
    (rs : List F) (m : Nat) (hm : 1 ≤ m)
    (hD : ∀ l ∈ D, l.length = 2 ^ m)
    (hrs : rs.length ≤ Nat.log2 (2 ^ m) - 1) :
    (bindRoundsSparse ⟨2 ^ m, D.map (fun l => .Sparse (sparsify l))⟩ eqPoly rs).1.layers.map
        (densifyDyn (bindRoundsSparse ⟨2 ^ m, D.map (fun l => .Sparse (sparsify l))⟩ eqPoly rs).1.layer_len) =
      (bindRoundsDense D eqPoly rs).1 ∧
    (bindRoundsSparse ⟨2 ^ m, D.map (fun l => .Sparse (sparsify l))⟩ eqPoly rs).2 =
      (bindRoundsDense D eqPoly rs).2 := by
  have hM : BatchMatches (⟨2 ^ m, D.map (fun l => .Sparse (sparsify l))⟩ :
      BatchedSparseGrandProductLayer F) D := by
    refine ⟨?_, ?_, ?_⟩
    · intro dyn hdyn
      simp only [List.mem_map] at hdyn
      obtain ⟨l, hl, hle⟩ := hdyn
      rw [← hle]
      exact ⟨sparsify_sorted l, fun e he => by
        have := ((sparsify_mem l e.1 e.2).mp he).1
        rw [hD l hl] at this
        exact this⟩
    · show (D.map _).map _ = D
      rw [List.map_map]
      have h1 : D.map (densifyDyn (2 ^ m) ∘ fun l =>
          DynamicDensityGrandProductLayer.Sparse (sparsify l)) = D.map (fun l => l) := by
        refine List.map_congr_left ?_
        intro l hl
        show densifySparse (2 ^ m) (sparsify l) = l
        rw [← hD l hl, densifySparse_sparsify]
      rw [h1, List.map_id']
    · exact hD
  have h := bindRounds_lockstep rs _ D eqPoly m hM rfl
    (by rw [Nat.log2_two_pow] at hrs; omega)
  exact ⟨h.1.2.1, h.2.1⟩

/-- C2 witness: a concrete two-round lockstep instance over `ℚ`. -/
theorem c2_witness :
    ((1:Nat) ≤ 2 ∧ (∀ l ∈ [[(2:ℚ), 1, 1, 5]], l.length = 2 ^ 2) ∧
      [(3:ℚ)].length ≤ Nat.log2 (2 ^ 2) - 1) ∧
    ((bindRoundsSparse ⟨2 ^ 2, [[(2:ℚ), 1, 1, 5]].map (fun l => .Sparse (sparsify l))⟩ [(1:ℚ), 0] [(3:ℚ)]).1.layers.map
        (densifyDyn (bindRoundsSparse ⟨2 ^ 2, [[(2:ℚ), 1, 1, 5]].map (fun l => .Sparse (sparsify l))⟩ [(1:ℚ), 0] [(3:ℚ)]).1.layer_len) =
      (bindRoundsDense [[(2:ℚ), 1, 1, 5]] [(1:ℚ), 0] [(3:ℚ)]).1 ∧
    (bindRoundsSparse ⟨2 ^ 2, [[(2:ℚ), 1, 1, 5]].map (fun l => .Sparse (sparsify l))⟩ [(1:ℚ), 0] [(3:ℚ)]).2 =
      (bindRoundsDense [[(2:ℚ), 1, 1, 5]] [(1:ℚ), 0] [(3:ℚ)]).2) :=
  ⟨⟨by decide, by decide, by
      have h : Nat.log2 4 = 2 := by
        rw [show (4:Nat) = 2 ^ 2 by norm_num]
        exact Nat.log2_two_pow
      simp [h]⟩,
    c2_dense_sparse_bind_lockstep [[(2:ℚ), 1, 1, 5]] [(1:ℚ), 0] [(3:ℚ)] 2
      (by decide) (by decide) (by
        have h : Nat.log2 4 = 2 := by
          rw [show (4:Nat) = 2 ^ 2 by norm_num]
          exact Nat.log2_two_pow
        simp [h])⟩

/-- C4: for every batched layer (dense or dynamic-density) with `layer_len`
divisible by 4, and every challenge `r`, `bind` halves `layer_len` and for
every tree and every quartet `(4i, 4i+1, 4i+2, 4i+3)` the post-bind value at
`2i` is `layer[4i] + r*(layer[4i+2] - layer[4i])` and at `2i+1` is
`layer[4i+1] + r*(layer[4i+3] - layer[4i+1])`, sparse layers read as one at
absent indices (via densification). -/
theorem c4_bind_quartet_folds (r : F) :
    (∀ layer : List F, layer.length % 4 = 0 →
      (bindDenseLayer layer r).length = layer.length / 2 ∧
      ∀ i, 4*i + 3 < layer.length →
        (bindDenseLayer layer r).getD (2*i) 0 =
          layer.getD (4*i) 0 + r * (layer.getD (4*i+2) 0 - layer.getD (4*i) 0) ∧
        (bindDenseLayer layer r).getD (2*i+1) 0 =
          layer.getD (4*i+1) 0 + r * (layer.getD (4*i+3) 0 - layer.getD (4*i+1) 0)) ∧
    (∀ (b : BatchedSparseGrandProductLayer F) (eqPoly : List F),
      b.layer_len % 4 = 0 →
      (∀ dyn ∈ b.layers, DynInv b.layer_len dyn) →
      (b.bind eqPoly r).1.layer_len = b.layer_len / 2 ∧
      ∀ dyn ∈ b.layers, ∀ i, 4*i + 3 < b.layer_len →
        (densifyDyn (b.layer_len / 2) (bindDynLayer r b.layer_len dyn)).getD (2*i) 0 =
          (densifyDyn b.layer_len dyn).getD (4*i) 0 +
            r * ((densifyDyn b.layer_len dyn).getD (4*i+2) 0 -
              (densifyDyn b.layer_len dyn).getD (4*i) 0) ∧
        (densifyDyn (b.layer_len / 2) (bindDynLayer r b.layer_len dyn)).getD (2*i+1) 0 =
          (densifyDyn b.layer_len dyn).getD (4*i+1) 0 +
            r * ((densifyDyn b.layer_len dyn).getD (4*i+3) 0 -
              (densifyDyn b.layer_len dyn).getD (4*i+1) 0)) := by
  have hdense : ∀ layer : List F, layer.length % 4 = 0 →
      (bindDenseLayer layer r).length = layer.length / 2 ∧
      ∀ i, 4*i + 3 < layer.length →
        (bindDenseLayer layer r).getD (2*i) 0 =
          layer.getD (4*i) 0 + r * (layer.getD (4*i+2) 0 - layer.getD (4*i) 0) ∧
        (bindDenseLayer layer r).getD (2*i+1) 0 =
          layer.getD (4*i+1) 0 + r * (layer.getD (4*i+3) 0 - layer.getD (4*i+1) 0) := by
    intro layer h4
    refine ⟨bindDenseLayer_length layer r, ?_⟩
    intro i hi
    constructor
    · rw [bindDenseLayer_getD layer r (2*i) h4 (by omega), if_pos (by omega),
        show 2*(2*i) = 4*i by ring]
    · rw [bindDenseLayer_getD layer r (2*i+1) h4 (by omega), if_neg (by omega),
        show 2*(2*i+1)-1 = 4*i+1 by omega, show 2*(2*i+1)+1 = 4*i+3 by ring]
  refine ⟨hdense, ?_⟩
  intro b eqPoly h4 hInv
  refine ⟨rfl, ?_⟩
  intro dyn hdyn i hi
  have hspec := bindDynLayer_spec r b.layer_len dyn h4 (hInv dyn hdyn)
  rw [hspec.1]
  have hlen : (densifyDyn b.layer_len dyn).length = b.layer_len :=
    densifyDyn_length _ _ (hInv dyn hdyn)
  have := (hdense (densifyDyn b.layer_len dyn) (by rw [hlen]; exact h4)).2 i
    (by rw [hlen]; exact hi)
  exact this

/-- C4 witness: a concrete dense quartet fold over `ℚ`. -/
theorem c4_witness :
    ([(1:ℚ), 2, 3, 4].length % 4 = 0) ∧
    ((bindDenseLayer [(1:ℚ), 2, 3, 4] 2).length = [(1:ℚ), 2, 3, 4].length / 2 ∧
      ∀ i, 4*i + 3 < [(1:ℚ), 2, 3, 4].length →
        (bindDenseLayer [(1:ℚ), 2, 3, 4] 2).getD (2*i) 0 =
          [(1:ℚ), 2, 3, 4].getD (4*i) 0 +
            2 * ([(1:ℚ), 2, 3, 4].getD (4*i+2) 0 - [(1:ℚ), 2, 3, 4].getD (4*i) 0) ∧
        (bindDenseLayer [(1:ℚ), 2, 3, 4] 2).getD (2*i+1) 0 =
          [(1:ℚ), 2, 3, 4].getD (4*i+1) 0 +
            2 * ([(1:ℚ), 2, 3, 4].getD (4*i+3) 0 - [(1:ℚ), 2, 3, 4].getD (4*i+1) 0)) :=
  ⟨by decide, (c4_bind_quartet_folds 2).1 [(1:ℚ), 2, 3, 4] (by decide)⟩

/-- C6: the sparse bind chooses a dense output exactly when the explicit-entry
ratio exceeds the densification threshold `0.8` (rendered exactly as
`5 * entries > 4 * layer_len`), and an already-dense layer always binds to a
dense layer. -/
theorem c6_densification_trigger (r : F) (L : Nat) :
    (∀ s : List (Nat × F),
      (5 * s.length > 4 * L →
        ∃ dl, bindDynLayer r L (.Sparse s) = .Dense dl) ∧
      (5 * s.length ≤ 4 * L →
        ∃ sl, bindDynLayer r L (.Sparse s) = .Sparse sl)) ∧
    (∀ d : List F, ∃ dl, bindDynLayer r L (.Dense d) = .Dense dl) := by
  refine ⟨?_, fun d => ⟨_, rfl⟩⟩
  intro s
  constructor
  · intro hth
    show ∃ dl, bindSparseLoop r s 0 0 _ = _
    rw [if_pos hth, bindSparseLoop_eq_applyPushes, applyPushes_dense]
    exact ⟨_, rfl⟩
  · intro hth
    show ∃ sl, bindSparseLoop r s 0 0 _ = _
    rw [if_neg (by omega), bindSparseLoop_eq_applyPushes, applyPushes_sparse]
    exact ⟨_, rfl⟩

/-- C6 witness: ratio 0.85 densifies, ratio 0.5 stays sparse (the spec's S6
scenario, at layer length 20). -/
theorem c6_witness :
    (5 * ((List.range 17).map (fun i => (i, (2:ℚ)))).length > 4 * 20 ∧
      5 * ((List.range 10).map (fun i => (i, (2:ℚ)))).length ≤ 4 * 20) ∧
    (∃ dl, bindDynLayer (3:ℚ) 20 (.Sparse ((List.range 17).map (fun i => (i, (2:ℚ))))) = .Dense dl) ∧
    (∃ sl, bindDynLayer (3:ℚ) 20 (.Sparse ((List.range 10).map (fun i => (i, (2:ℚ))))) = .Sparse sl) :=
  ⟨⟨by decide, by decide⟩,
    ((c6_densification_trigger (3:ℚ) 20).1 _).1 (by decide),
    ((c6_densification_trigger (3:ℚ) 20).1 _).2 (by decide)⟩

/-- C7 counterexample: a sparse layer whose explicit values are all `≠ 1`
can bind (at challenge `r = 1`) to a sparse output containing an explicit
entry whose value IS `1`: the loop only guards the implicit-left fold of the
`idx % 4 = 1` case with an `is_one` check. -/
theorem c7_counterexample :
    (∀ e ∈ [((0:Nat), (2:ZMod 101))], e.2 ≠ 1) ∧
    bindDynLayer (1:ZMod 101) 4 (.Sparse [(0, 2)]) = .Sparse [(0, 1)] := by
  constructor
  · intro e he
    simp only [List.mem_singleton] at he
    rw [he]
    decide
  · decide

/-- C7 (amended): every explicit entry `(j, v)` of the sparse output of
`bind` carries exactly the dense fold value of the densified layer at `j`;
consequently, whenever every position of the dense fold differs from one,
the output preserves the "values ≠ one" invariant.  (The unconditional
claim is false: a fold can land on one, e.g. at `r = 1`.) -/
theorem c7_sparse_values_are_folds (r : F) (L : Nat) (s out : List (Nat × F))
    (hs : SparseSorted s) (hrange : ∀ e ∈ s, e.1 < L) (h4 : L % 4 = 0)
    (hout : bindDynLayer r L (.Sparse s) = .Sparse out) :
    (∀ e ∈ out, e.2 = (bindDenseLayer (densifySparse L s) r).getD e.1 0) ∧
    ((∀ j < L / 2, (bindDenseLayer (densifySparse L s) r).getD j 0 ≠ 1) →
      ∀ e ∈ out, e.2 ≠ 1) := by
  have hIL : ∀ e ∈ s, 0 ≤ 4 * (e.1 / 4) ∨ 4 * (e.1 / 4) + 4 ≤ 0 :=
    fun e _ => Or.inl (Nat.zero_le _)
  have hIR : ∀ e ∈ s, 0 ≤ 4 * (e.1 / 4) + 1 ∨ 4 * (e.1 / 4) + 5 ≤ 0 :=
    fun e _ => Or.inl (Nat.zero_le _)
  have hemit : out = bindSparseEmit r s 0 0 := by
    by_cases hth : 5 * s.length > 4 * L
    · rw [show bindDynLayer r L (.Sparse s) = bindSparseLoop r s 0 0 _ from rfl,
        if_pos hth, bindSparseLoop_eq_applyPushes, applyPushes_dense] at hout
      cases hout
    · rw [show bindDynLayer r L (.Sparse s) = bindSparseLoop r s 0 0 _ from rfl,
        if_neg (by omega), bindSparseLoop_eq_applyPushes, applyPushes_sparse,
        List.nil_append] at hout
      cases hout
      rfl
  have hmain : ∀ e ∈ out, e.2 = (bindDenseLayer (densifySparse L s) r).getD e.1 0 := by
    intro e he
    rw [hemit] at he
    obtain ⟨_, _, a, ha, haq⟩ := bindSparseEmit_keys r s 0 0 hs hIL hIR e he
    have hjr : e.1 < L / 2 := by have := hrange a ha; omega
    have hv : sval (bindSparseEmit r s 0 0) e.1 = e.2 :=
      sval_of_mem _ e.1 e.2 (bindSparseEmit_sorted r s 0 0 hs hIL hIR) he
    have hfv := bindSparseEmit_sval r s 0 0 hs hIL hIR e.1
    rw [if_pos (Nat.zero_le _), if_pos (Nat.zero_le _), ite_self] at hfv
    rw [← hv, hfv, bindDense_densify_getD s r L e.1 h4 hjr]
  refine ⟨hmain, ?_⟩
  intro hno e he
  rw [hmain e he]
  rw [hemit] at he
  obtain ⟨_, _, a, ha, haq⟩ := bindSparseEmit_keys r s 0 0 hs hIL hIR e he
  exact hno e.1 (by have := hrange a ha; omega)

/-- C7 witness (for the amended claim): concrete sparse layer whose folds all
differ from one, so the output values all differ from one. -/
theorem c7_witness :
    (SparseSorted [((0:Nat), (3:ZMod 101)), (1, 5)] ∧
      (∀ e ∈ [((0:Nat), (3:ZMod 101)), (1, 5)], e.1 < 4) ∧ (4:Nat) % 4 = 0 ∧
      bindDynLayer (2:ZMod 101) 4 (.Sparse [(0, 3), (1, 5)]) = .Sparse [(0, -1), (1, -3)]) ∧
    ((∀ j < 4 / 2,
        (bindDenseLayer (densifySparse 4 [((0:Nat), (3:ZMod 101)), (1, 5)]) 2).getD j 0 ≠ 1) →
      ∀ e ∈ [((0:Nat), (-1:ZMod 101)), (1, -3)], e.2 ≠ 1) :=
  ⟨⟨by simp [SparseSorted], by decide, by decide, by decide⟩,
    (c7_sparse_values_are_folds (2:ZMod 101) 4 [(0, 3), (1, 5)] [(0, -1), (1, -3)]
      (by simp [SparseSorted]) (by decide) (by decide) (by decide)).2⟩

/-- C8: for every sparse layer with strictly increasing explicit indices, the
sparse output produced by `bind` also has strictly increasing indices (in the
`idx % 4 = 1` case the implicit-left fold is emitted before the right fold,
preserving sorted order). -/
theorem c8_sparse_bind_output_sorted (r : F) (L : Nat) (s out : List (Nat × F))
    (hs : SparseSorted s)
    (hout : bindDynLayer r L (.Sparse s) = .Sparse out) :
    SparseSorted out := by
  have hIL : ∀ e ∈ s, 0 ≤ 4 * (e.1 / 4) ∨ 4 * (e.1 / 4) + 4 ≤ 0 :=
    fun e _ => Or.inl (Nat.zero_le _)
  have hIR : ∀ e ∈ s, 0 ≤ 4 * (e.1 / 4) + 1 ∨ 4 * (e.1 / 4) + 5 ≤ 0 :=
    fun e _ => Or.inl (Nat.zero_le _)
  have hemit : out = bindSparseEmit r s 0 0 := by
    by_cases hth : 5 * s.length > 4 * L
    · rw [show bindDynLayer r L (.Sparse s) = bindSparseLoop r s 0 0 _ from rfl,
        if_pos hth, bindSparseLoop_eq_applyPushes, applyPushes_dense] at hout
      cases hout
    · rw [show bindDynLayer r L (.Sparse s) = bindSparseLoop r s 0 0 _ from rfl,
        if_neg (by omega), bindSparseLoop_eq_applyPushes, applyPushes_sparse,
        List.nil_append] at hout
      cases hout
      rfl
  rw [hemit]
  exact bindSparseEmit_sorted r s 0 0 hs hIL hIR

/-- C8 witness: a concrete layer exercising the `idx % 4 = 1` implicit-left
edge case; the output indices are strictly increasing. -/
theorem c8_witness :
    (SparseSorted [((1:Nat), (5:ZMod 101)), (2, 7)] ∧
      bindDynLayer (1:ZMod 101) 8 (.Sparse [(1, 5), (2, 7)]) = .Sparse [(0, 7), (1, 1)]) ∧
    SparseSorted [((0:Nat), (7:ZMod 101)), (1, 1)] :=
  ⟨⟨by simp [SparseSorted], by decide⟩,
    c8_sparse_bind_output_sorted (1:ZMod 101) 8 [(1, 5), (2, 7)] [(0, 7), (1, 1)]
      (by simp [SparseSorted]) (by decide)⟩

/-! ## `final_claims` -/

/-- Monadic map over `Option`, used to model the per-tree panics of
`final_claims` as a fallible traversal. -/
def mapMOption {α β : Type} (f : α → Option β) : List α → Option (List β)
  | [] => some []
  | a :: t =>
      match f a with
      | none => none
      | some b => (mapMOption f t).map (fun bs => b :: bs)

theorem mapMOption_eq_none {α β : Type} (f : α → Option β) (l : List α)
    (a : α) (ha : a ∈ l) (hf : f a = none) : mapMOption f l = none := by
  induction l with
  | nil => cases ha
  | cons x t ih =>
      rcases List.mem_cons.mp ha with h' | h'
      · rw [mapMOption, ← h', hf]
      · rw [mapMOption]
        cases hx : f x with
        | none => rfl
        | some b =>
            show Option.map (fun bs => b :: bs) (mapMOption f t) = none
            rw [ih h']
            rfl

/-- Source: the per-tree match of
`BatchedSparseGrandProductLayer::final_claims`: a sparse layer with zero, one
or two explicit entries (absent entries read as one; a single entry is a left
claim iff its index is zero); more than two entries is a structural error
(panic, modelled as `none`); a dense layer reads positions 0 and 1. -/
def dynFinalClaim : DynamicDensityGrandProductLayer F → Option (F × F)
  | .Sparse s =>
      match s with
      | [] => some (1, 1)
      | [e] => if e.1 = 0 then some (e.2, 1) else some (1, e.2)
      | [e0, e1] => some (e0.2, e1.2)
      | _ => none
  | .Dense d => some (d.getD 0 0, d.getD 1 0)

/-- Source: `BatchedSparseGrandProductLayer::final_claims` (the
`assert_eq!(self.layer_len, 2)` is modelled as a guard). -/
def BatchedSparseGrandProductLayer.final_claims
    (b : BatchedSparseGrandProductLayer F) : Option (List F × List F) :=
  if b.layer_len = 2 then (mapMOption dynFinalClaim b.layers).map List.unzip
  else none

/-- Source: `BatchedDenseGrandProductLayer::final_claims` (the per-tree
`assert_eq!(layer.len(), 2)` is modelled as a guard). -/
def denseFinalClaims (layers : List (List F)) : Option (List F × List F) :=
  if layers.all (fun l => l.length == 2) then
    some (layers.map (fun l => (l.getD 0 0, l.getD 1 0))).unzip
  else none

/-- C9: with `layer_len = 2`, `final_claims` returns `(left, right)` per
tree: dense gives `(layer[0], layer[1])`; a sparse tree with zero entries
gives `(1,1)`, one entry at index 0 gives `(v,1)`, one entry at a non-zero
index gives `(1,v)`, two entries give `(v0,v1)`, and more than two entries
is a structural failure that makes the whole call fail. -/
theorem c9_final_claims :
    (∀ layers : List (List F), (∀ l ∈ layers, l.length = 2) →
      denseFinalClaims layers =
        some (layers.map (fun l => l.getD 0 0), layers.map (fun l => l.getD 1 0))) ∧
    (dynFinalClaim (.Sparse ([] : List (Nat × F))) = some (1, 1)) ∧
    (∀ v : F, dynFinalClaim (.Sparse [(0, v)]) = some (v, 1)) ∧
    (∀ (i : Nat) (v : F), i ≠ 0 → dynFinalClaim (.Sparse [(i, v)]) = some (1, v)) ∧
    (∀ e0 e1 : Nat × F, dynFinalClaim (.Sparse [e0, e1]) = some (e0.2, e1.2)) ∧
    (∀ s : List (Nat × F), 2 < s.length → dynFinalClaim (.Sparse s) = none) ∧
    (∀ d : List F, dynFinalClaim (.Dense d) = some (d.getD 0 0, d.getD 1 0)) ∧
    (∀ b : BatchedSparseGrandProductLayer F, b.layer_len = 2 →
      ∀ s : List (Nat × F), .Sparse s ∈ b.layers → 2 < s.length →
        b.final_claims = none) ∧
    (∀ b : BatchedSparseGrandProductLayer F, b.layer_len ≠ 2 →
      b.final_claims = none) := by
  refine ⟨?_, rfl, fun v => rfl, ?_, fun e0 e1 => rfl, ?_, fun d => rfl, ?_, ?_⟩
  · intro layers h
    rw [denseFinalClaims,
      if_pos (by rw [List.all_eq_true]; intro l hl; simpa using h l hl),
      List.unzip_eq_map, List.map_map, List.map_map]
    rfl
  · intro i v hi
    rw [show dynFinalClaim (.Sparse [(i, v)]) =
      (if (i, v).1 = 0 then some ((i, v).2, 1) else some (1, (i, v).2)) from rfl]
    rw [if_neg hi]
  · intro s hs
    match s, hs with
    | a :: b :: c :: t, _ => rfl
  · intro b hb s hsb hs
    rw [BatchedSparseGrandProductLayer.final_claims, if_pos hb,
      mapMOption_eq_none dynFinalClaim b.layers (.Sparse s) hsb ?_, Option.map_none']
    match s, hs with
    | a :: b' :: c :: t, _ => rfl
  · intro b hb
    rw [BatchedSparseGrandProductLayer.final_claims, if_neg hb]

/-- C9 witness: the dense part at a concrete batch. -/
theorem c9_witness :
    (∀ l ∈ [[(2:ZMod 101), 3]], l.length = 2) ∧
    denseFinalClaims [[(2:ZMod 101), 3]] =
      some ([[(2:ZMod 101), 3]].map (fun l => l.getD 0 0),
        [[(2:ZMod 101), 3]].map (fun l => l.getD 1 0)) :=
  ⟨by decide, c9_final_claims.1 [[(2:ZMod 101), 3]] (by decide)⟩

/-! ## `compute_cubic` -/

/-- Componentwise sum of evaluation triples, as used by the source's parallel
fold/reduce. -/
def addTriple (s t : F × F × F) : F × F × F :=
  (s.1 + t.1, s.2.1 + t.2.1, s.2.2 + t.2.2)

/-- Source: the `eq_evals` table shared by both `compute_cubic`
implementations: for each `i < eq.len()/2`, the evaluations of the `eq`
factor at the points `{0, 2, 3}` of the next variable,
`(eq[2i], eq[2i+1] + m, eq[2i+1] + 2m)` with `m = eq[2i+1] - eq[2i]`. -/
def cubicEqTriples (eqPoly : List F) : List (F × F × F) :=
  (List.range (eqPoly.length / 2)).map (fun i =>
    (eqPoly.getD (2*i) 0,
     eqPoly.getD (2*i+1) 0 + (eqPoly.getD (2*i+1) 0 - eqPoly.getD (2*i) 0),
     eqPoly.getD (2*i+1) 0 + (eqPoly.getD (2*i+1) 0 - eqPoly.getD (2*i) 0) +
       (eqPoly.getD (2*i+1) 0 - eqPoly.getD (2*i) 0)))

/-- Source: `BatchedDenseGrandProductLayer::compute_cubic`: for each `i` the
batch-summed products at points `{0, 2, 3}` (the RLC coefficient is folded
into the left operand), scaled by the `eq` triple, summed over `i`; the
point-1 evaluation is `previous_round_claim - evals.0`. -/
def denseCubicEvals (layers : List (List F)) (coeffs : List F)
    (eqPoly : List F) : F × F × F :=
  ((List.range (eqPoly.length / 2)).map (fun i =>
    let eq_evals := (eqPoly.getD (2*i) 0,
      eqPoly.getD (2*i+1) 0 + (eqPoly.getD (2*i+1) 0 - eqPoly.getD (2*i) 0),
      eqPoly.getD (2*i+1) 0 + (eqPoly.getD (2*i+1) 0 - eqPoly.getD (2*i) 0) +
        (eqPoly.getD (2*i+1) 0 - eqPoly.getD (2*i) 0))
    let inner : F × F × F := ((List.range layers.length).map (fun batch_index =>
      let layer := layers.getD batch_index []
      let left0 := coeffs.getD batch_index 0 * layer.getD (4*i) 0
      let left1 := coeffs.getD batch_index 0 * layer.getD (4*i+2) 0
      let right0 := layer.getD (4*i+1) 0
      let right1 := layer.getD (4*i+3) 0
      (left0 * right0,
       (left1 + (left1 - left0)) * (right1 + (right1 - right0)),
       (left1 + (left1 - left0) + (left1 - left0)) *
         (right1 + (right1 - right0) + (right1 - right0))))).foldl addTriple (0, 0, 0)
    (inner.1 * eq_evals.1, inner.2.1 * eq_evals.2.1,
      inner.2.2 * eq_evals.2.2))).foldl addTriple (0, 0, 0)

def computeCubicDense (layers : List (List F)) (coeffs : List F)
    (eqPoly : List F) (previousRoundClaim : F) : List F :=
  let evals : F × F × F := denseCubicEvals layers coeffs eqPoly
  fromEvalsCubic evals.1 (previousRoundClaim - evals.1) evals.2.1 evals.2.2

/-- Source: `chunks_exact(4)` over a dense layer. -/
def chunks4 : List F → List (F × F × F × F)
  | c0 :: c1 :: c2 :: c3 :: t => (c0, c1, c2, c3) :: chunks4 t
  | _ => []

/-- Source: the sparse delta loop of
`BatchedSparseGrandProductLayer::compute_cubic`: only the first explicit
entry of each quartet is processed (`next_index_to_process` skips the rest);
the four corner values are reconstructed by `idx % 4` from up to three
lookahead entries; each processed quartet accumulates
`eq_evals[idx/4] * (left*right - 1)` at the points `{0, 2, 3}`
(`mul_0_optimized`/`mul_1_optimized` are fast paths for the plain products).
-/
def sparseDeltaLoop (E : List (F × F × F)) :
    List (Nat × F) → Nat → (F × F × F) → F × F × F
  | [], _, acc => acc
  | (idx, v) :: rest, next, acc =>
    if idx < next then sparseDeltaLoop E rest next acc
    else
      let n1 := rest.getD 0 (idx + 1, 1)
      let n2 := rest.getD 1 (idx + 2, 1)
      let n3 := rest.getD 2 (idx + 3, 1)
      let findN : Nat → F := fun q =>
        if n1.1 = q then n1.2
        else if n2.1 = q then n2.2
        else if n3.1 = q then n3.2 else 1
      let corners : (F × F) × (F × F) × Nat :=
        if idx % 4 = 0 then
          ((v, findN (idx + 2)), (findN (idx + 1), findN (idx + 3)), idx + 4)
        else if idx % 4 = 1 then
          ((1, findN (idx + 1)), (v, findN (idx + 2)), idx + 3)
        else if idx % 4 = 2 then
          ((1, v), (1, findN (idx + 1)), idx + 2)
        else
          ((1, 1), (1, v), idx + 1)
      let left := corners.1
      let right := corners.2.1
      let t := E.getD (idx / 4) (0, 0, 0)
      sparseDeltaLoop E rest corners.2.2
        (acc.1 + t.1 * (left.1 * right.1 - 1),
         acc.2.1 + t.2.1 * ((left.2 + (left.2 - left.1)) *
           (right.2 + (right.2 - right.1)) - 1),
         acc.2.2 + t.2.2 * ((left.2 + (left.2 - left.1) + (left.2 - left.1)) *
           (right.2 + (right.2 - right.1) + (right.2 - right.1)) - 1))

/-- Source: the per-batch-index body of
`BatchedSparseGrandProductLayer::compute_cubic`: a sparse layer contributes
`coeff * (eq_eval_sums + delta)`, a dense layer contributes
`coeff * Σ eq_evals[i] * left[i] * right[i]` over its 4-chunks. -/
def sparseCubicBranch (eq_evals : List (F × F × F)) (eq_eval_sums : F × F × F)
    (coeff : F) : DynamicDensityGrandProductLayer F → F × F × F
  | .Sparse sparse_layer =>
      let delta := sparseDeltaLoop eq_evals sparse_layer 0 (0, 0, 0)
      (coeff * (eq_eval_sums.1 + delta.1),
       coeff * (eq_eval_sums.2.1 + delta.2.1),
       coeff * (eq_eval_sums.2.2 + delta.2.2))
  | .Dense dense_layer =>
      let e : F × F × F := ((eq_evals.zip (chunks4 dense_layer)).map (fun p =>
        let left0 := p.2.1
        let right0 := p.2.2.1
        let left1 := p.2.2.2.1
        let right1 := p.2.2.2.2
        (p.1.1 * left0 * right0,
         p.1.2.1 * (left1 + (left1 - left0)) * (right1 + (right1 - right0)),
         p.1.2.2 * (left1 + (left1 - left0) + (left1 - left0)) *
           (right1 + (right1 - right0) + (right1 - right0))))).foldl
          addTriple (0, 0, 0)
      (coeff * e.1, coeff * e.2.1, coeff * e.2.2)

/-- Source: `BatchedSparseGrandProductLayer::compute_cubic`: per batch index,
the contribution of `sparseCubicBranch`; the three combined evaluations feed
`from_evals` together with `previous_round_claim - evals_combined_0`. -/
def computeCubicSparse (b : BatchedSparseGrandProductLayer F) (coeffs : List F)
    (eqPoly : List F) (previousRoundClaim : F) : List F :=
  let eq_evals := cubicEqTriples eqPoly
  let eq_eval_sums : F × F × F := eq_evals.foldl addTriple (0, 0, 0)
  let evals : List (F × F × F) := (List.range coeffs.length).map (fun batch_index =>
    sparseCubicBranch eq_evals eq_eval_sums (coeffs.getD batch_index 0)
      (b.layers.getD batch_index (.Sparse [])))
  let evals_combined_0 := (evals.map (fun e => e.1)).sum
  let evals_combined_2 := (evals.map (fun e => e.2.1)).sum
  let evals_combined_3 := (evals.map (fun e => e.2.2)).sum
  fromEvalsCubic evals_combined_0 (previousRoundClaim - evals_combined_0)
    evals_combined_2 evals_combined_3

/-! ### Sum infrastructure for the cubic evaluations -/

theorem addTriple_eq_add (s t : F × F × F) : addTriple s t = s + t := rfl

theorem foldl_addTriple (l : List (F × F × F)) :
    ∀ acc : F × F × F, l.foldl addTriple acc = acc + l.sum := by
  induction l with
  | nil => intro acc; simp
  | cons x t ih =>
      intro acc
      rw [List.foldl_cons, addTriple_eq_add, ih, List.sum_cons, add_assoc]

theorem sum_map_range {M : Type} [AddCommMonoid M] (f : Nat → M) :
    ∀ n : Nat, ((List.range n).map f).sum = ∑ i ∈ Finset.range n, f i := by
  intro n
  induction n with
  | zero => simp
  | succ n ih =>
      rw [List.range_succ, List.map_append, List.sum_append,
        Finset.sum_range_succ, ih]
      simp

theorem cubicEqTriples_length (eqPoly : List F) :
    (cubicEqTriples eqPoly).length = eqPoly.length / 2 := by
  simp [cubicEqTriples]

theorem cubicEqTriples_getD (eqPoly : List F) (i : Nat)
    (hi : i < eqPoly.length / 2) :
    (cubicEqTriples eqPoly).getD i (0, 0, 0) =
      (eqPoly.getD (2*i) 0,
       eqPoly.getD (2*i+1) 0 + (eqPoly.getD (2*i+1) 0 - eqPoly.getD (2*i) 0),
       eqPoly.getD (2*i+1) 0 + (eqPoly.getD (2*i+1) 0 - eqPoly.getD (2*i) 0) +
         (eqPoly.getD (2*i+1) 0 - eqPoly.getD (2*i) 0)) := by
  rw [cubicEqTriples, getD_range_map, if_pos hi]

theorem chunks4_length : ∀ d : List F, (chunks4 d).length = d.length / 4
  | [] => by simp [chunks4]
  | [a] => by simp [chunks4]
  | [a, b] => by simp [chunks4]
  | [a, b, c] => by simp [chunks4]
  | c0 :: c1 :: c2 :: c3 :: t => by
      rw [chunks4, List.length_cons, chunks4_length t]
      simp only [List.length_cons]
      omega

theorem getD_cons4 (x0 x1 x2 x3 : F) (t : List F) (n : Nat) (d : F) :
    (x0 :: x1 :: x2 :: x3 :: t).getD (n + 4) d = t.getD n d := rfl

theorem chunks4_getD : ∀ (d : List F) (i : Nat), i < d.length / 4 →
    (chunks4 d).getD i (0, 0, 0, 0) =
      (d.getD (4*i) 0, d.getD (4*i+1) 0, d.getD (4*i+2) 0, d.getD (4*i+3) 0)
  | [], i, h => absurd h (by simp)
  | [a], i, h => absurd h (by simp)
  | [a, b], i, h => absurd h (by simp)
  | [a, b, c], i, h => absurd h (by simp)
  | c0 :: c1 :: c2 :: c3 :: t, 0, h => rfl
  | c0 :: c1 :: c2 :: c3 :: t, i + 1, h => by
      rw [chunks4, List.getD_cons_succ, chunks4_getD t i (by
        simp only [List.length_cons] at h
        omega)]
      rw [show 4*(i+1)+3 = (4*i+3) + 4 by ring, show 4*(i+1)+2 = (4*i+2) + 4 by ring,
        show 4*(i+1)+1 = (4*i+1) + 4 by ring, show 4*(i+1) = 4*i + 4 by ring,
        getD_cons4, getD_cons4, getD_cons4, getD_cons4]

/-- Sum of a mapped zip, as an indexed sum over the common length. -/
theorem sum_map_zip {α β M : Type} [AddCommMonoid M] (f : α × β → M)
    (dA : α) (dB : β) :
    ∀ (A : List α) (B : List β), A.length ≤ B.length →
      ((A.zip B).map f).sum =
        ∑ i ∈ Finset.range A.length, f (A.getD i dA, B.getD i dB) := by
  intro A
  induction A with
  | nil => intro B _; simp
  | cons a At ih =>
      intro B hB
      match B with
      | [] => simp at hB
      | b :: Bt =>
          rw [List.zip_cons_cons, List.map_cons, List.sum_cons,
            ih Bt (by simpa using hB), List.length_cons,
            Finset.sum_range_succ']
          simp only [List.getD_cons_succ, List.getD_cons_zero]
          rw [add_comm]

/-! ### The three-entry lookahead of the sparse delta loop -/

theorem findThree_eq_sval (rest : List (Nat × F)) (idx q : Nat)
    (hs : SparseSorted rest) (hgt : ∀ e ∈ rest, idx < e.1)
    (hq1 : idx < q) (hq2 : q ≤ idx + 3) :
    (if (rest.getD 0 (idx + 1, 1)).1 = q then (rest.getD 0 (idx + 1, 1)).2
     else if (rest.getD 1 (idx + 2, 1)).1 = q then (rest.getD 1 (idx + 2, 1)).2
     else if (rest.getD 2 (idx + 3, 1)).1 = q then (rest.getD 2 (idx + 3, 1)).2
     else 1) = sval rest q := by
  match rest with
  | [] =>
      simp only [List.getD_nil, sval_nil]
      split
      · rfl
      · split
        · rfl
        · split <;> rfl
  | [e1] =>
      obtain ⟨i1, v1⟩ := e1
      simp only [List.getD_cons_zero, List.getD_cons_succ, List.getD_nil,
        sval_cons, sval_nil]
      by_cases h1 : i1 = q
      · simp [h1]
      · rw [if_neg h1, if_neg h1]
        split
        · rfl
        · split <;> rfl
  | [e1, e2] =>
      obtain ⟨i1, v1⟩ := e1
      obtain ⟨i2, v2⟩ := e2
      simp only [List.getD_cons_zero, List.getD_cons_succ, List.getD_nil,
        sval_cons, sval_nil]
      by_cases h1 : i1 = q
      · simp [h1]
      · rw [if_neg h1, if_neg h1]
        by_cases h2 : i2 = q
        · simp [h2]
        · rw [if_neg h2, if_neg h2]
          split <;> rfl
  | e1 :: e2 :: e3 :: t =>
      obtain ⟨i1, v1⟩ := e1
      obtain ⟨i2, v2⟩ := e2
      obtain ⟨i3, v3⟩ := e3
      simp only [List.getD_cons_zero, List.getD_cons_succ, sval_cons]
      by_cases h1 : i1 = q
      · simp [h1]
      · rw [if_neg h1, if_neg h1]
        by_cases h2 : i2 = q
        · simp [h2]
        · rw [if_neg h2, if_neg h2]
          by_cases h3 : i3 = q
          · simp [h3]
          · rw [if_neg h3, if_neg h3]
            rcases sorted_cons_iff.mp hs with ⟨hlt1, hs2⟩
            rcases sorted_cons_iff.mp hs2 with ⟨hlt2, hs3⟩
            rcases sorted_cons_iff.mp hs3 with ⟨hlt3, _⟩
            refine (sval_eq_one_of_forall_lt t q ?_).symm
            intro e he
            have hi1 : idx < i1 := hgt (i1, v1) (by simp)
            have hi2 : i1 < i2 := hlt1 (i2, v2) (by simp)
            have hi3 : i2 < i3 := hlt2 (i3, v3) (by simp)
            have := hlt3 e he
            omega

/-! ### The per-quartet delta term -/

/-- The contribution of quartet `q` to the sparse `compute_cubic` delta, for
logical layer values `g`: `eq_evals[q] ⊙ (corner products − 1)` at the
points `{0, 2, 3}`, in the exact algebraic shape used by the source. -/
def deltaTerm (E : List (F × F × F)) (g : Nat → F) (q : Nat) : F × F × F :=
  let t := E.getD q (0, 0, 0)
  let l0 := g (4*q)
  let r0 := g (4*q+1)
  let l1 := g (4*q+2)
  let r1 := g (4*q+3)
  (t.1 * (l0 * r0 - 1),
   t.2.1 * ((l1 + (l1 - l0)) * (r1 + (r1 - r0)) - 1),
   t.2.2 * ((l1 + (l1 - l0) + (l1 - l0)) * (r1 + (r1 - r0) + (r1 - r0)) - 1))

theorem deltaTerm_congr (E : List (F × F × F)) (g g' : Nat → F) (q : Nat)
    (h0 : g (4*q) = g' (4*q)) (h1 : g (4*q+1) = g' (4*q+1))
    (h2 : g (4*q+2) = g' (4*q+2)) (h3 : g (4*q+3) = g' (4*q+3)) :
    deltaTerm E g q = deltaTerm E g' q := by
  simp only [deltaTerm, h0, h1, h2, h3]

theorem deltaTerm_ones (E : List (F × F × F)) (g : Nat → F) (q : Nat)
    (h0 : g (4*q) = 1) (h1 : g (4*q+1) = 1)
    (h2 : g (4*q+2) = 1) (h3 : g (4*q+3) = 1) :
    deltaTerm E g q = 0 := by
  simp only [deltaTerm, h0, h1, h2, h3, Prod.ext_iff]
  norm_num

/-! ### Step equations of the delta loop -/

theorem delta_skip (E : List (F × F × F)) (idx : Nat) (v : F)
    (rest : List (Nat × F)) (next : Nat) (acc : F × F × F) (h : idx < next) :
    sparseDeltaLoop E ((idx, v) :: rest) next acc =
      sparseDeltaLoop E rest next acc := by
  rw [sparseDeltaLoop, if_pos h]

theorem delta_step0 (E : List (F × F × F)) (m : Nat) (v : F)
    (rest : List (Nat × F)) (next : Nat) (acc : F × F × F)
    (hnext : next ≤ 4*m) (hs : SparseSorted rest)
    (hgt : ∀ e ∈ rest, 4*m < e.1) :
    sparseDeltaLoop E ((4*m, v) :: rest) next acc =
      sparseDeltaLoop E rest (4*m + 4)
        (addTriple acc (deltaTerm E (sval ((4*m, v) :: rest)) m)) := by
  simp only [sparseDeltaLoop]
  rw [if_neg (by omega), if_pos (by omega : 4*m % 4 = 0),
    findThree_eq_sval rest (4*m) (4*m+1) hs hgt (by omega) (by omega),
    findThree_eq_sval rest (4*m) (4*m+2) hs hgt (by omega) (by omega),
    findThree_eq_sval rest (4*m) (4*m+3) hs hgt (by omega) (by omega)]
  simp only [addTriple, deltaTerm, show (4*m)/4 = m by omega, sval_cons]
  rw [if_pos trivial, if_neg (by omega), if_neg (by omega), if_neg (by omega)]

theorem delta_step1 (E : List (F × F × F)) (m : Nat) (v : F)
    (rest : List (Nat × F)) (next : Nat) (acc : F × F × F)
    (hnext : next ≤ 4*m + 1) (hs : SparseSorted rest)
    (hgt : ∀ e ∈ rest, 4*m + 1 < e.1) :
    sparseDeltaLoop E ((4*m + 1, v) :: rest) next acc =
      sparseDeltaLoop E rest (4*m + 4)
        (addTriple acc (deltaTerm E (sval ((4*m + 1, v) :: rest)) m)) := by
  simp only [sparseDeltaLoop]
  rw [if_neg (by omega), if_neg (by omega : ¬ (4*m+1) % 4 = 0),
    if_pos (by omega : (4*m+1) % 4 = 1),
    findThree_eq_sval rest (4*m+1) (4*m+1+1) hs hgt (by omega) (by omega),
    findThree_eq_sval rest (4*m+1) (4*m+1+2) hs hgt (by omega) (by omega)]
  simp only [addTriple, deltaTerm, show (4*m+1)/4 = m by omega, sval_cons]
  rw [if_neg (by omega), if_pos trivial, if_neg (by omega), if_neg (by omega),
    sval_eq_one_of_forall_lt rest (4*m)
      (fun e he => by have := hgt e he; omega),
    show 4*m+1+1 = 4*m+2 by omega, show 4*m+1+2 = 4*m+3 by omega,
    show 4*m+1+3 = 4*m+4 by omega]

theorem delta_step2 (E : List (F × F × F)) (m : Nat) (v : F)
    (rest : List (Nat × F)) (next : Nat) (acc : F × F × F)
    (hnext : next ≤ 4*m + 2) (hs : SparseSorted rest)
    (hgt : ∀ e ∈ rest, 4*m + 2 < e.1) :
    sparseDeltaLoop E ((4*m + 2, v) :: rest) next acc =
      sparseDeltaLoop E rest (4*m + 4)
        (addTriple acc (deltaTerm E (sval ((4*m + 2, v) :: rest)) m)) := by
  simp only [sparseDeltaLoop]
  rw [if_neg (by omega), if_neg (by omega : ¬ (4*m+2) % 4 = 0),
    if_neg (by omega : ¬ (4*m+2) % 4 = 1),
    if_pos (by omega : (4*m+2) % 4 = 2),
    findThree_eq_sval rest (4*m+2) (4*m+2+1) hs hgt (by omega) (by omega)]
  simp only [addTriple, deltaTerm, show (4*m+2)/4 = m by omega, sval_cons]
  rw [if_neg (by omega), if_neg (by omega), if_pos trivial, if_neg (by omega),
    sval_eq_one_of_forall_lt rest (4*m)
      (fun e he => by have := hgt e he; omega),
    sval_eq_one_of_forall_lt rest (4*m+1)
      (fun e he => by have := hgt e he; omega),
    show 4*m+2+1 = 4*m+3 by omega, show 4*m+2+2 = 4*m+4 by omega]

theorem delta_step3 (E : List (F × F × F)) (m : Nat) (v : F)
    (rest : List (Nat × F)) (next : Nat) (acc : F × F × F)
    (hnext : next ≤ 4*m + 3) (hs : SparseSorted rest)
    (hgt : ∀ e ∈ rest, 4*m + 3 < e.1) :
    sparseDeltaLoop E ((4*m + 3, v) :: rest) next acc =
      sparseDeltaLoop E rest (4*m + 4)
        (addTriple acc (deltaTerm E (sval ((4*m + 3, v) :: rest)) m)) := by
  simp only [sparseDeltaLoop]
  rw [if_neg (by omega), if_neg (by omega : ¬ (4*m+3) % 4 = 0),
    if_neg (by omega : ¬ (4*m+3) % 4 = 1),
    if_neg (by omega : ¬ (4*m+3) % 4 = 2)]
  simp only [addTriple, deltaTerm, show (4*m+3)/4 = m by omega, sval_cons]
  rw [if_neg (by omega), if_neg (by omega), if_neg (by omega), if_pos trivial,
    sval_eq_one_of_forall_lt rest (4*m)
      (fun e he => by have := hgt e he; omega),
    sval_eq_one_of_forall_lt rest (4*m+1)
      (fun e he => by have := hgt e he; omega),
    sval_eq_one_of_forall_lt rest (4*m+2)
      (fun e he => by have := hgt e he; omega),
    show 4*m+3+1 = 4*m+4 by omega]

/-! ### The delta-loop master lemma -/

theorem delta_sum_shift (E : List (F × F × F)) (n m next idx : Nat) (v : F)
    (rest : List (Nat × F))
    (hro : idx / 4 = m) (hnext : next ≤ 4 * m) (hmn : m < n)
    (hgt : ∀ e ∈ rest, idx < e.1) :
    deltaTerm E (sval ((idx, v) :: rest)) m +
      ∑ q ∈ Finset.range n,
        (if 4*m + 4 ≤ 4*q then deltaTerm E (sval rest) q else 0) =
      ∑ q ∈ Finset.range n,
        (if next ≤ 4*q then deltaTerm E (sval ((idx, v) :: rest)) q else 0) := by
  have key : ∀ q ∈ Finset.range n,
      (if next ≤ 4*q then deltaTerm E (sval ((idx, v) :: rest)) q else 0) =
        (if q = m then deltaTerm E (sval ((idx, v) :: rest)) m else 0) +
        (if 4*m + 4 ≤ 4*q then deltaTerm E (sval rest) q else 0) := by
    intro q _
    by_cases hqm : q = m
    · subst hqm
      rw [if_pos (by omega), if_pos rfl, if_neg (by omega), add_zero]
    · rw [if_neg hqm, zero_add]
      by_cases hql : q < m
      · rw [if_neg (show ¬ (4*m + 4 ≤ 4*q) by omega)]
        by_cases hflag : next ≤ 4*q
        · rw [if_pos hflag]
          refine deltaTerm_ones _ _ _ ?_ ?_ ?_ ?_ <;>
            refine sval_eq_one_of_forall_lt _ _ ?_ <;>
            · intro e he
              rcases List.mem_cons.mp he with rfl | h
              · simp only
                omega
              · have := hgt e h
                omega
        · rw [if_neg hflag]
      · rw [if_pos (show next ≤ 4*q by omega),
          if_pos (show 4*m + 4 ≤ 4*q by omega)]
        refine deltaTerm_congr _ _ _ _ ?_ ?_ ?_ ?_ <;>
          rw [sval_cons, if_neg (by omega)]
  rw [Finset.sum_congr rfl key, Finset.sum_add_distrib,
    Finset.sum_ite_eq' (Finset.range n) m
      (fun _ => deltaTerm E (sval ((idx, v) :: rest)) m),
    if_pos (Finset.mem_range.mpr hmn)]

/-- The sparse delta loop computes, for every quartet `q` at or past the
frontier, the delta contribution `eq_evals[q] ⊙ (products − 1)` of the
logical (default-one) layer values, added to the accumulator. -/
theorem sparseDeltaLoop_spec (E : List (F × F × F)) (n : Nat)
    (s : List (Nat × F)) :
    ∀ (next : Nat) (acc : F × F × F),
      SparseSorted s →
      (∀ e ∈ s, next ≤ 4 * (e.1 / 4) ∨ 4 * (e.1 / 4) + 4 ≤ next) →
      (∀ e ∈ s, e.1 < 4 * n) →
      sparseDeltaLoop E s next acc =
        acc + ∑ q ∈ Finset.range n,
          (if next ≤ 4 * q then deltaTerm E (sval s) q else 0) := by
  induction s with
  | nil =>
      intro next acc _ _ _
      have hz : ∀ q ∈ Finset.range n,
          (if next ≤ 4*q then deltaTerm E (sval ([] : List (Nat × F))) q
           else 0) = 0 := by
        intro q _
        split
        · exact deltaTerm_ones E _ q (sval_nil _) (sval_nil _) (sval_nil _)
            (sval_nil _)
        · rfl
      simp only [sparseDeltaLoop]
      rw [Finset.sum_congr rfl hz, Finset.sum_const_zero, add_zero]
  | cons e rest ih =>
      obtain ⟨idx, v⟩ := e
      intro next acc hs hinv hlt
      rcases sorted_cons_iff.mp hs with ⟨hgt0, hs'⟩
      have hgt : ∀ b ∈ rest, idx < b.1 := hgt0
      have hin : idx < 4 * n := hlt (idx, v) (by simp)
      have hinv' : ∀ e ∈ rest,
          4 * (idx / 4) + 4 ≤ 4 * (e.1 / 4) ∨
            4 * (e.1 / 4) + 4 ≤ 4 * (idx / 4) + 4 := by
        intro e he
        have := hgt e he
        omega
      have hlt' : ∀ e ∈ rest, e.1 < 4 * n :=
        fun e he => hlt e (List.mem_cons_of_mem _ he)
      by_cases hskip : idx < next
      · have hcov : 4 * (idx / 4) + 4 ≤ next := by
          rcases hinv (idx, v) (by simp) with h | h
          · exfalso
            simp only at h
            omega
          · simpa using h
        rw [delta_skip E idx v rest next acc hskip,
          ih next acc hs' (fun e he => hinv e (List.mem_cons_of_mem _ he))
            hlt']
        congr 1
        refine Finset.sum_congr rfl ?_
        intro q hq
        by_cases hflag : next ≤ 4*q
        · rw [if_pos hflag, if_pos hflag]
          refine deltaTerm_congr _ _ _ _ ?_ ?_ ?_ ?_ <;>
            rw [sval_cons, if_neg (by omega)]
        · rw [if_neg hflag, if_neg hflag]
      · push_neg at hskip
        have hm0 : next ≤ 4 * (idx / 4) := by
          rcases hinv (idx, v) (by simp) with h | h
          · simpa using h
          · exfalso
            simp only at h
            omega
        have hmn : idx / 4 < n := by omega
        rcases (by omega : idx % 4 = 0 ∨ idx % 4 = 1 ∨ idx % 4 = 2 ∨
            idx % 4 = 3) with h4 | h4 | h4 | h4
        · obtain ⟨m, rfl⟩ : ∃ m, idx = 4*m := ⟨idx / 4, by omega⟩
          rw [delta_step0 E m v rest next acc (by omega) hs' hgt,
            ih (4*m + 4) _ hs'
              (fun e he => by have := hgt e he; omega) hlt',
            addTriple_eq_add, add_assoc]
          congr 1
          exact delta_sum_shift E n m next (4*m) v rest (by omega) (by omega)
            (by omega) hgt
        · obtain ⟨m, rfl⟩ : ∃ m, idx = 4*m + 1 := ⟨idx / 4, by omega⟩
          rw [delta_step1 E m v rest next acc (by omega) hs' hgt,
            ih (4*m + 4) _ hs'
              (fun e he => by have := hgt e he; omega) hlt',
            addTriple_eq_add, add_assoc]
          congr 1
          exact delta_sum_shift E n m next (4*m + 1) v rest (by omega)
            (by omega) (by omega) hgt
        · obtain ⟨m, rfl⟩ : ∃ m, idx = 4*m + 2 := ⟨idx / 4, by omega⟩
          rw [delta_step2 E m v rest next acc (by omega) hs' hgt,
            ih (4*m + 4) _ hs'
              (fun e he => by have := hgt e he; omega) hlt',
            addTriple_eq_add, add_assoc]
          congr 1
          exact delta_sum_shift E n m next (4*m + 2) v rest (by omega)
            (by omega) (by omega) hgt
        · obtain ⟨m, rfl⟩ : ∃ m, idx = 4*m + 3 := ⟨idx / 4, by omega⟩
          rw [delta_step3 E m v rest next acc (by omega) hs' hgt,
            ih (4*m + 4) _ hs'
              (fun e he => by have := hgt e he; omega) hlt',
            addTriple_eq_add, add_assoc]
          congr 1
          exact delta_sum_shift E n m next (4*m + 3) v rest (by omega)
            (by omega) (by omega) hgt

/-! ### Canonical form of the cubic evaluations -/

/-- The three cubic evaluations contributed by one (densified) layer, in
canonical form: `Σ_i eq_evals[i] ⊙ (left·right)` at the points `{0, 2, 3}`. -/
def cubicCanon (eqPoly dd : List F) : F × F × F :=
  (∑ i ∈ Finset.range (eqPoly.length / 2),
     eqPoly.getD (2*i) 0 * (dd.getD (4*i) 0 * dd.getD (4*i+1) 0),
   ∑ i ∈ Finset.range (eqPoly.length / 2),
     (eqPoly.getD (2*i+1) 0 + (eqPoly.getD (2*i+1) 0 - eqPoly.getD (2*i) 0)) *
       ((dd.getD (4*i+2) 0 + (dd.getD (4*i+2) 0 - dd.getD (4*i) 0)) *
        (dd.getD (4*i+3) 0 + (dd.getD (4*i+3) 0 - dd.getD (4*i+1) 0))),
   ∑ i ∈ Finset.range (eqPoly.length / 2),
     (eqPoly.getD (2*i+1) 0 + (eqPoly.getD (2*i+1) 0 - eqPoly.getD (2*i) 0) +
        (eqPoly.getD (2*i+1) 0 - eqPoly.getD (2*i) 0)) *
       ((dd.getD (4*i+2) 0 + (dd.getD (4*i+2) 0 - dd.getD (4*i) 0) +
           (dd.getD (4*i+2) 0 - dd.getD (4*i) 0)) *
        (dd.getD (4*i+3) 0 + (dd.getD (4*i+3) 0 - dd.getD (4*i+1) 0) +
           (dd.getD (4*i+3) 0 - dd.getD (4*i+1) 0))))

/-- The batch-combined canonical cubic evaluations. -/
def canonCombined (D : List (List F)) (coeffs eqPoly : List F) : F × F × F :=
  (∑ bi ∈ Finset.range coeffs.length,
     coeffs.getD bi 0 * (cubicCanon eqPoly (D.getD bi [])).1,
   ∑ bi ∈ Finset.range coeffs.length,
     coeffs.getD bi 0 * (cubicCanon eqPoly (D.getD bi [])).2.1,
   ∑ bi ∈ Finset.range coeffs.length,
     coeffs.getD bi 0 * (cubicCanon eqPoly (D.getD bi [])).2.2)

theorem fst_finset_sum {ι : Type} (s : Finset ι) (f : ι → F × F × F) :
    (∑ i ∈ s, f i).1 = ∑ i ∈ s, (f i).1 :=
  map_sum (AddMonoidHom.fst F (F × F)) f s

theorem sndfst_finset_sum {ι : Type} (s : Finset ι) (f : ι → F × F × F) :
    (∑ i ∈ s, f i).2.1 = ∑ i ∈ s, (f i).2.1 :=
  map_sum ((AddMonoidHom.fst F F).comp (AddMonoidHom.snd F (F × F))) f s

theorem sndsnd_finset_sum {ι : Type} (s : Finset ι) (f : ι → F × F × F) :
    (∑ i ∈ s, f i).2.2 = ∑ i ∈ s, (f i).2.2 :=
  map_sum ((AddMonoidHom.snd F F).comp (AddMonoidHom.snd F (F × F))) f s

theorem triple_zero : ((0, 0, 0) : F × F × F) = 0 := rfl

theorem eqSums_eq (eqPoly : List F) :
    (cubicEqTriples eqPoly).foldl addTriple (0, 0, 0) =
      ∑ i ∈ Finset.range (eqPoly.length / 2),
        (eqPoly.getD (2*i) 0,
         eqPoly.getD (2*i+1) 0 + (eqPoly.getD (2*i+1) 0 - eqPoly.getD (2*i) 0),
         eqPoly.getD (2*i+1) 0 + (eqPoly.getD (2*i+1) 0 - eqPoly.getD (2*i) 0)
           + (eqPoly.getD (2*i+1) 0 - eqPoly.getD (2*i) 0)) := by
  rw [foldl_addTriple, triple_zero, zero_add, cubicEqTriples, sum_map_range]

theorem sum_swap_scale (n B : Nat) (f g : Nat → Nat → F)
    (E c : Nat → F) (hfg : ∀ bi i, f bi i = c bi * g bi i) :
    ∑ i ∈ Finset.range n, (∑ bi ∈ Finset.range B, f bi i) * E i =
      ∑ bi ∈ Finset.range B, c bi * ∑ i ∈ Finset.range n, E i * g bi i := by
  have h1 : ∀ i ∈ Finset.range n,
      (∑ bi ∈ Finset.range B, f bi i) * E i =
        ∑ bi ∈ Finset.range B, c bi * (E i * g bi i) := by
    intro i _
    rw [Finset.sum_mul]
    exact Finset.sum_congr rfl (fun bi _ => by rw [hfg]; ring)
  rw [Finset.sum_congr rfl h1, Finset.sum_comm]
  exact Finset.sum_congr rfl (fun bi _ => (Finset.mul_sum _ _ _).symm)

/-! ### The per-batch branch equals the canonical form -/

theorem sparse_branch_sparse (eqPoly : List F) (L : Nat) (coeff : F)
    (s : List (Nat × F)) (hL : L = 2 * eqPoly.length)
    (heven : eqPoly.length % 2 = 0)
    (hs : SparseSorted s) (hbound : ∀ e ∈ s, e.1 < L) :
    sparseCubicBranch (cubicEqTriples eqPoly)
        ((cubicEqTriples eqPoly).foldl addTriple (0, 0, 0)) coeff
        (.Sparse s) =
      (coeff * (cubicCanon eqPoly (densifySparse L s)).1,
       coeff * (cubicCanon eqPoly (densifySparse L s)).2.1,
       coeff * (cubicCanon eqPoly (densifySparse L s)).2.2) := by
  have hn : ∀ e ∈ s, e.1 < 4 * (eqPoly.length / 2) := by
    intro e he
    have := hbound e he
    omega
  have hdrop : ∀ q ∈ Finset.range (eqPoly.length / 2),
      (if 0 ≤ 4*q then deltaTerm (cubicEqTriples eqPoly) (sval s) q else 0) =
        deltaTerm (cubicEqTriples eqPoly) (sval s) q :=
    fun q _ => if_pos (Nat.zero_le _)
  simp only [sparseCubicBranch, cubicCanon]
  rw [eqSums_eq,
    sparseDeltaLoop_spec (cubicEqTriples eqPoly) (eqPoly.length / 2) s 0
      (0, 0, 0) hs (fun e _ => Or.inl (Nat.zero_le _)) hn,
    triple_zero, zero_add, Finset.sum_congr rfl hdrop]
  simp only [Prod.mk.injEq]
  refine ⟨?_, ?_, ?_⟩
  · rw [fst_finset_sum, fst_finset_sum, ← Finset.sum_add_distrib]
    congr 1
    refine Finset.sum_congr rfl ?_
    intro q hq
    have hqn : q < eqPoly.length / 2 := Finset.mem_range.mp hq
    simp only [deltaTerm, cubicEqTriples_getD eqPoly q hqn,
      densifySparse_getD L s (4*q) (by omega),
      densifySparse_getD L s (4*q+1) (by omega)]
    ring
  · rw [sndfst_finset_sum, sndfst_finset_sum, ← Finset.sum_add_distrib]
    congr 1
    refine Finset.sum_congr rfl ?_
    intro q hq
    have hqn : q < eqPoly.length / 2 := Finset.mem_range.mp hq
    simp only [deltaTerm, cubicEqTriples_getD eqPoly q hqn,
      densifySparse_getD L s (4*q) (by omega),
      densifySparse_getD L s (4*q+1) (by omega),
      densifySparse_getD L s (4*q+2) (by omega),
      densifySparse_getD L s (4*q+3) (by omega)]
    ring
  · rw [sndsnd_finset_sum, sndsnd_finset_sum, ← Finset.sum_add_distrib]
    congr 1
    refine Finset.sum_congr rfl ?_
    intro q hq
    have hqn : q < eqPoly.length / 2 := Finset.mem_range.mp hq
    simp only [deltaTerm, cubicEqTriples_getD eqPoly q hqn,
      densifySparse_getD L s (4*q) (by omega),
      densifySparse_getD L s (4*q+1) (by omega),
      densifySparse_getD L s (4*q+2) (by omega),
      densifySparse_getD L s (4*q+3) (by omega)]
    ring

theorem sparse_branch_dense (eqPoly : List F) (L : Nat) (coeff : F)
    (d : List F) (hL : L = 2 * eqPoly.length) (heven : eqPoly.length % 2 = 0)
    (hd : L ≤ d.length) :
    sparseCubicBranch (cubicEqTriples eqPoly)
        ((cubicEqTriples eqPoly).foldl addTriple (0, 0, 0)) coeff
        (.Dense d) =
      (coeff * (cubicCanon eqPoly (d.take L)).1,
       coeff * (cubicCanon eqPoly (d.take L)).2.1,
       coeff * (cubicCanon eqPoly (d.take L)).2.2) := by
  simp only [sparseCubicBranch, cubicCanon]
  rw [foldl_addTriple, triple_zero, zero_add,
    sum_map_zip _ ((0:F), (0:F), (0:F)) ((0:F), (0:F), (0:F), (0:F))
      (cubicEqTriples eqPoly) (chunks4 d)
      (by rw [cubicEqTriples_length, chunks4_length]; omega),
    cubicEqTriples_length]
  simp only [Prod.mk.injEq]
  refine ⟨?_, ?_, ?_⟩
  · rw [fst_finset_sum]
    congr 1
    refine Finset.sum_congr rfl ?_
    intro q hq
    have hqn : q < eqPoly.length / 2 := Finset.mem_range.mp hq
    simp only [cubicEqTriples_getD eqPoly q hqn,
      chunks4_getD d q (by omega),
      getD_take d L (4*q) 0 (by omega),
      getD_take d L (4*q+1) 0 (by omega)]
    ring
  · rw [sndfst_finset_sum]
    congr 1
    refine Finset.sum_congr rfl ?_
    intro q hq
    have hqn : q < eqPoly.length / 2 := Finset.mem_range.mp hq
    simp only [cubicEqTriples_getD eqPoly q hqn,
      chunks4_getD d q (by omega),
      getD_take d L (4*q) 0 (by omega),
      getD_take d L (4*q+1) 0 (by omega),
      getD_take d L (4*q+2) 0 (by omega),
      getD_take d L (4*q+3) 0 (by omega)]
    ring
  · rw [sndsnd_finset_sum]
    congr 1
    refine Finset.sum_congr rfl ?_
    intro q hq
    have hqn : q < eqPoly.length / 2 := Finset.mem_range.mp hq
    simp only [cubicEqTriples_getD eqPoly q hqn,
      chunks4_getD d q (by omega),
      getD_take d L (4*q) 0 (by omega),
      getD_take d L (4*q+1) 0 (by omega),
      getD_take d L (4*q+2) 0 (by omega),
      getD_take d L (4*q+3) 0 (by omega)]
    ring

theorem sparse_branch_eq (eqPoly : List F) (L : Nat) (coeff : F)
    (dyn : DynamicDensityGrandProductLayer F) (hL : L = 2 * eqPoly.length)
    (heven : eqPoly.length % 2 = 0) (hinv : DynInv L dyn) :
    sparseCubicBranch (cubicEqTriples eqPoly)
        ((cubicEqTriples eqPoly).foldl addTriple (0, 0, 0)) coeff dyn =
      (coeff * (cubicCanon eqPoly (densifyDyn L dyn)).1,
       coeff * (cubicCanon eqPoly (densifyDyn L dyn)).2.1,
       coeff * (cubicCanon eqPoly (densifyDyn L dyn)).2.2) := by
  cases dyn with
  | Sparse s =>
      exact sparse_branch_sparse eqPoly L coeff s hL heven hinv.1 hinv.2
  | Dense d =>
      exact sparse_branch_dense eqPoly L coeff d hL heven hinv

/-! ### Both `compute_cubic` implementations reach the canonical form -/

theorem dense_evals_canon (D : List (List F)) (coeffs eqPoly : List F)
    (hD : D.length = coeffs.length) :
    denseCubicEvals D coeffs eqPoly = canonCombined D coeffs eqPoly := by
  simp only [denseCubicEvals, foldl_addTriple, triple_zero, zero_add,
    sum_map_range, canonCombined, cubicCanon, hD]
  refine Prod.ext ?_ (Prod.ext ?_ ?_)
  · simp only [fst_finset_sum, sndfst_finset_sum, sndsnd_finset_sum]
    exact sum_swap_scale (eqPoly.length / 2) coeffs.length
      (fun bi i => coeffs.getD bi 0 * (D.getD bi []).getD (4*i) 0 *
        (D.getD bi []).getD (4*i+1) 0)
      (fun bi i => (D.getD bi []).getD (4*i) 0 * (D.getD bi []).getD (4*i+1) 0)
      (fun i => eqPoly.getD (2*i) 0)
      (fun bi => coeffs.getD bi 0)
      (fun bi i => by ring)
  · simp only [fst_finset_sum, sndfst_finset_sum, sndsnd_finset_sum]
    exact sum_swap_scale (eqPoly.length / 2) coeffs.length
      (fun bi i => (coeffs.getD bi 0 * (D.getD bi []).getD (4*i+2) 0 +
          (coeffs.getD bi 0 * (D.getD bi []).getD (4*i+2) 0 -
            coeffs.getD bi 0 * (D.getD bi []).getD (4*i) 0)) *
        ((D.getD bi []).getD (4*i+3) 0 +
          ((D.getD bi []).getD (4*i+3) 0 - (D.getD bi []).getD (4*i+1) 0)))
      (fun bi i => ((D.getD bi []).getD (4*i+2) 0 +
          ((D.getD bi []).getD (4*i+2) 0 - (D.getD bi []).getD (4*i) 0)) *
        ((D.getD bi []).getD (4*i+3) 0 +
          ((D.getD bi []).getD (4*i+3) 0 - (D.getD bi []).getD (4*i+1) 0)))
      (fun i => eqPoly.getD (2*i+1) 0 +
        (eqPoly.getD (2*i+1) 0 - eqPoly.getD (2*i) 0))
      (fun bi => coeffs.getD bi 0)
      (fun bi i => by ring)
  · simp only [fst_finset_sum, sndfst_finset_sum, sndsnd_finset_sum]
    exact sum_swap_scale (eqPoly.length / 2) coeffs.length
      (fun bi i => (coeffs.getD bi 0 * (D.getD bi []).getD (4*i+2) 0 +
          (coeffs.getD bi 0 * (D.getD bi []).getD (4*i+2) 0 -
            coeffs.getD bi 0 * (D.getD bi []).getD (4*i) 0) +
          (coeffs.getD bi 0 * (D.getD bi []).getD (4*i+2) 0 -
            coeffs.getD bi 0 * (D.getD bi []).getD (4*i) 0)) *
        ((D.getD bi []).getD (4*i+3) 0 +
          ((D.getD bi []).getD (4*i+3) 0 - (D.getD bi []).getD (4*i+1) 0) +
          ((D.getD bi []).getD (4*i+3) 0 - (D.getD bi []).getD (4*i+1) 0)))
      (fun bi i => ((D.getD bi []).getD (4*i+2) 0 +
          ((D.getD bi []).getD (4*i+2) 0 - (D.getD bi []).getD (4*i) 0) +
          ((D.getD bi []).getD (4*i+2) 0 - (D.getD bi []).getD (4*i) 0)) *
        ((D.getD bi []).getD (4*i+3) 0 +
          ((D.getD bi []).getD (4*i+3) 0 - (D.getD bi []).getD (4*i+1) 0) +
          ((D.getD bi []).getD (4*i+3) 0 - (D.getD bi []).getD (4*i+1) 0)))
      (fun i => eqPoly.getD (2*i+1) 0 +
        (eqPoly.getD (2*i+1) 0 - eqPoly.getD (2*i) 0) +
        (eqPoly.getD (2*i+1) 0 - eqPoly.getD (2*i) 0))
      (fun bi => coeffs.getD bi 0)
      (fun bi i => by ring)

theorem computeCubicDense_canon (D : List (List F)) (coeffs eqPoly : List F)
    (claim : F) (hD : D.length = coeffs.length) :
    computeCubicDense D coeffs eqPoly claim =
      fromEvalsCubic (canonCombined D coeffs eqPoly).1
        (claim - (canonCombined D coeffs eqPoly).1)
        (canonCombined D coeffs eqPoly).2.1
        (canonCombined D coeffs eqPoly).2.2 := by
  simp only [computeCubicDense]
  rw [dense_evals_canon D coeffs eqPoly hD]

theorem computeCubicSparse_canon (b : BatchedSparseGrandProductLayer F)
    (D : List (List F)) (coeffs eqPoly : List F) (claim : F) (L : Nat)
    (hL : L = 2 * eqPoly.length) (heven : eqPoly.length % 2 = 0)
    (hconv : ∀ bi < coeffs.length,
      DynInv L (b.layers.getD bi (.Sparse [])) ∧
        densifyDyn L (b.layers.getD bi (.Sparse [])) = D.getD bi []) :
    computeCubicSparse b coeffs eqPoly claim =
      fromEvalsCubic (canonCombined D coeffs eqPoly).1
        (claim - (canonCombined D coeffs eqPoly).1)
        (canonCombined D coeffs eqPoly).2.1
        (canonCombined D coeffs eqPoly).2.2 := by
  have hmap : (List.range coeffs.length).map (fun batch_index =>
      sparseCubicBranch (cubicEqTriples eqPoly)
        ((cubicEqTriples eqPoly).foldl addTriple (0, 0, 0))
        (coeffs.getD batch_index 0)
        (b.layers.getD batch_index (.Sparse []))) =
    (List.range coeffs.length).map (fun bi =>
      (coeffs.getD bi 0 * (cubicCanon eqPoly (D.getD bi [])).1,
       coeffs.getD bi 0 * (cubicCanon eqPoly (D.getD bi [])).2.1,
       coeffs.getD bi 0 * (cubicCanon eqPoly (D.getD bi [])).2.2)) := by
    refine List.map_congr_left ?_
    intro bi hbi
    have hbi' : bi < coeffs.length := List.mem_range.mp hbi
    rw [sparse_branch_eq eqPoly L _ _ hL heven (hconv bi hbi').1,
      (hconv bi hbi').2]
  simp only [computeCubicSparse]
  rw [hmap]
  have h1 : (((List.range coeffs.length).map (fun bi =>
      ((coeffs.getD bi 0 * (cubicCanon eqPoly (D.getD bi [])).1,
        coeffs.getD bi 0 * (cubicCanon eqPoly (D.getD bi [])).2.1,
        coeffs.getD bi 0 * (cubicCanon eqPoly (D.getD bi [])).2.2) :
          F × F × F))).map (fun e => e.1)).sum =
      (canonCombined D coeffs eqPoly).1 := by
    rw [List.map_map, sum_map_range]
    simp only [Function.comp, canonCombined]
  have h2 : (((List.range coeffs.length).map (fun bi =>
      ((coeffs.getD bi 0 * (cubicCanon eqPoly (D.getD bi [])).1,
        coeffs.getD bi 0 * (cubicCanon eqPoly (D.getD bi [])).2.1,
        coeffs.getD bi 0 * (cubicCanon eqPoly (D.getD bi [])).2.2) :
          F × F × F))).map (fun e => e.2.1)).sum =
      (canonCombined D coeffs eqPoly).2.1 := by
    rw [List.map_map, sum_map_range]
    simp only [Function.comp, canonCombined]
  have h3 : (((List.range coeffs.length).map (fun bi =>
      ((coeffs.getD bi 0 * (cubicCanon eqPoly (D.getD bi [])).1,
        coeffs.getD bi 0 * (cubicCanon eqPoly (D.getD bi [])).2.1,
        coeffs.getD bi 0 * (cubicCanon eqPoly (D.getD bi [])).2.2) :
          F × F × F))).map (fun e => e.2.2)).sum =
      (canonCombined D coeffs eqPoly).2.2 := by
    rw [List.map_map, sum_map_range]
    simp only [Function.comp, canonCombined]
  rw [h1, h2, h3]

/-- C3: for any batched layer represented both densely (`D`) and sparsely
(dynamic-density layers whose densification is `D`, with sorted in-range
sparse entries), the same coefficient vector, the same eq polynomial and the
same previous-round claim, the dense `compute_cubic` and the sparse
delta-based `compute_cubic` return the same univariate cubic, coefficient
for coefficient. -/
theorem c3_cubic_parity (b : BatchedSparseGrandProductLayer F)
    (D : List (List F)) (coeffs eqPoly : List F) (claim : F) (L : Nat)
    (hL : L = 2 * eqPoly.length) (heven : eqPoly.length % 2 = 0)
    (hD : D.length = coeffs.length)
    (hconv : ∀ bi < coeffs.length,
      DynInv L (b.layers.getD bi (.Sparse [])) ∧
        densifyDyn L (b.layers.getD bi (.Sparse [])) = D.getD bi []) :
    computeCubicSparse b coeffs eqPoly claim =
      computeCubicDense D coeffs eqPoly claim := by
  rw [computeCubicSparse_canon b D coeffs eqPoly claim L hL heven hconv,
    computeCubicDense_canon D coeffs eqPoly claim hD]

/-- Witness for C3: a concrete batch over `ZMod 101` with one sparse and one
dense layer, densifying to the dense batch. -/
theorem c3_witness :
    computeCubicSparse
        (⟨4, [.Sparse [(0, 2)], .Dense [5, 6, 7, 8]]⟩ :
          BatchedSparseGrandProductLayer (ZMod 101))
        [3, 4] [2, 3] 7 =
      computeCubicDense [[2, 1, 1, 1], [5, 6, 7, 8]] [3, 4] [2, 3] 7 :=
  c3_cubic_parity
    (⟨4, [.Sparse [(0, 2)], .Dense [5, 6, 7, 8]]⟩ :
      BatchedSparseGrandProductLayer (ZMod 101))
    [[2, 1, 1, 1], [5, 6, 7, 8]] [3, 4] [2, 3] 7 4
    (by decide) (by decide) (by decide)
    (fun bi hbi => by
      have hb2 : bi < 2 := by simpa using hbi
      interval_cases bi
      · exact ⟨⟨by simp [SparseSorted], by decide⟩, by decide⟩
      · exact ⟨show (4:Nat) ≤ [(5:ZMod 101), 6, 7, 8].length from by decide,
          by decide⟩)

/-! ## The grand-product driver: transcript, prover and verifier -/

/-- Modelled from the spec: the transcript state is the history of
domain-separated absorptions; drawing a challenge appends the label and
queries a deterministic sponge function of the whole history. -/
abbrev History (F : Type) : Type := List (String × List F)

/-- Modelled from the spec: the Fiat–Shamir sponge as an arbitrary
deterministic function of the transcript history; completeness holds for
every such function. -/
structure Oracle (F : Type) where
  chal : History F → F

def absorbScalar (h : History F) (label : String) (x : F) : History F :=
  h ++ [(label, [x])]

def absorbPoly (h : History F) (label : String) (cs : List F) : History F :=
  h ++ [(label, cs)]

def chalScalar (O : Oracle F) (h : History F) (label : String) :
    F × History F :=
  (O.chal (h ++ [(label, [])]), h ++ [(label, [])])

def chalVector (O : Oracle F) (label : String) :
    Nat → History F → List F × History F
  | 0, h => ([], h)
  | n+1, h =>
      let c := chalScalar O h label
      let rest := chalVector O label n c.2
      (c.1 :: rest.1, rest.2)

/-- Source: the joint claim `Σ claims[b] * coeffs[b]` over the zip. -/
def dotZip (a b : List F) : F := ((a.zip b).map (fun p => p.1 * p.2)).sum

/-- Source: `BatchedCubicSumcheck::prove_sumcheck` specialized to the dense
layer implementation: per round, compute the cubic, absorb it, draw the
round challenge, bind the layers and the eq polynomial, evaluate the cubic
at the challenge, and store the compressed cubic.  Returns the compressed
polynomials in round order, the challenges, the final layers and eq
polynomial, and the transcript history. -/
def proveSumcheckDense (O : Oracle F) (coeffs : List F) :
    Nat → List (List F) → List F → F → History F →
      List (List F) × List F × List (List F) × List F × History F
  | 0, layers, eqP, _, h => ([], [], layers, eqP, h)
  | k+1, layers, eqP, claim, h =>
      let poly := computeCubicDense layers coeffs eqP claim
      let h1 := absorbPoly h "poly" poly
      let c := chalScalar O h1 "challenge_nextround"
      let rest := proveSumcheckDense O coeffs k
        (layers.map (fun l => bindDenseLayer l c.1))
        (boundPolyVarBot eqP c.1) (evalUniPoly poly c.1) c.2
      (compressUniPoly poly :: rest.1, c.1 :: rest.2.1, rest.2.2)

/-- Source: the left/right-claim absorption loop shared by `prove_layer` and
`verify_grand_product`. -/
def absorbClaims (h : History F) (left right : List F) : History F :=
  (left.zip right).foldl (fun hh p =>
    absorbScalar (absorbScalar hh "sumcheck left claim" p.1)
      "sumcheck right claim" p.2) h

/-- Source: the claim fold `left + r_layer * (right - left)` shared by
`prove_layer` and `verify_sumcheck_claim`. -/
def foldClaims (left right : List F) (rl : F) : List F :=
  (left.zip right).map (fun p => p.1 + rl * (p.2 - p.1))

/-- A layer proof record: the compressed sumcheck polynomials and the final
left/right claims.  Source: `BatchedGrandProductLayerProof`. -/
structure LayerProof (F : Type) where
  polys : List (List F)
  left_claims : List F
  right_claims : List F

/-- Source: `BatchedGrandProductLayer::prove_layer` for the dense
implementation: draw coeffs, form the joint claim, run the sumcheck against
`eq(r_grand_product)`, absorb the final claims, reverse the sumcheck
challenges into `r_grand_product`, draw `r_layer`, fold the claims and
append `r_layer`. -/
def proveLayerDense (O : Oracle F) (layers : List (List F))
    (claims rGP : List F) (h : History F) :
    LayerProof F × List F × List F × History F :=
  let cv := chalVector O "rand_coeffs_next_layer" claims.length h
  let coeffs := cv.1
  let claim := dotZip claims coeffs
  let eqP := eqEvals rGP
  let sc := proveSumcheckDense O coeffs (denseNumRounds layers) layers eqP
    claim cv.2
  let left := sc.2.2.1.map (fun l => l.getD 0 0)
  let right := sc.2.2.1.map (fun l => l.getD 1 0)
  let h3 := absorbClaims sc.2.2.2.2 left right
  let rl := chalScalar O h3 "challenge_r_layer"
  (⟨sc.1, left, right⟩,
   foldClaims left right rl.1,
   sc.2.1.reverse ++ [rl.1],
   rl.2)

/-- Source: the loop of `prove_grand_product` over the (reversed) layer
stack. -/
def proveLayers (O : Oracle F) :
    List (List (List F)) → List F → List F → History F →
      List (LayerProof F) × List F × List F × History F
  | [], claims, rGP, h => ([], claims, rGP, h)
  | lyr :: rest, claims, rGP, h =>
      let p := proveLayerDense O lyr claims rGP h
      let ps := proveLayers O rest p.2.1 p.2.2.1 p.2.2.2
      (p.1 :: ps.1, ps.2)

/-- Source: `BatchedDenseGrandProduct::construct`: the stack of halved
layers, `num_layers = log2(leaf length)` many, leaves first. -/
def buildStackAux : Nat → List (List F) → List (List (List F))
  | 0, cur => [cur]
  | k+1, cur => cur :: buildStackAux k (cur.map halveLayer)

def buildStack (leaves : List (List F)) : List (List (List F)) :=
  buildStackAux (Nat.log2 (leaves.headD []).length - 1) leaves

/-- Source: `BatchedDenseGrandProduct::claims`: the products of the two
entries of each tree of the last (length-2) layer. -/
def topClaims (stack : List (List (List F))) : List F :=
  (stack.getLastD []).map (fun l => l.getD 0 0 * l.getD 1 0)

/-- Source: `prove_grand_product` for `BatchedDenseGrandProduct`: construct
the stack, take the root claims, and prove each layer from the top down. -/
def proveGrandProduct (O : Oracle F) (leaves : List (List F))
    (h : History F) :
    List (LayerProof F) × List F × List F × History F :=
  let stack := buildStack leaves
  proveLayers O stack.reverse (topClaims stack) [] h

/-- Modelled from the spec: the generic sum-check verifier with degree bound
three.  Per round it takes one compressed cubic (three stored coefficients),
decompresses it against the current claim, absorbs it, draws the round
challenge and evaluates; it rejects on a wrong number of polynomials or a
wrong compressed width. -/
def verifySumcheck (O : Oracle F) :
    Nat → List (List F) → F → History F → Option (F × List F × History F)
  | 0, polys, e, h => if polys = [] then some (e, [], h) else none
  | _+1, [], _, _ => none
  | k+1, c :: cs, e, h =>
      if c.length = 3 then
        let poly := decompressUniPoly c e
        let h1 := absorbPoly h "poly" poly
        let rj := chalScalar O h1 "challenge_nextround"
        match verifySumcheck O k cs (evalUniPoly poly rj.1) rj.2 with
        | some out => some (out.1, rj.1 :: out.2.1, out.2.2)
        | none => none
      else none

/-- Source: the body of the `verify_grand_product` loop together with
`verify_sumcheck_claim`: draw coeffs, verify the sumcheck, check the claim
vector lengths against the original input claims, absorb the left/right
claims, check `|r_grand_product| = |r_sumcheck|`, recompute the eq
evaluation against the reversed sumcheck challenges, check the expected
claim, draw `r_layer`, fold the claims.  Assertion failures are `none`. -/
def verifyLayerStep (O : Oracle F) (origLen layerIndex : Nat)
    (lp : LayerProof F) (claims rGP : List F) (h : History F) :
    Option (List F × List F × History F) :=
  let cv := chalVector O "rand_coeffs_next_layer" claims.length h
  let coeffs := cv.1
  let claim := dotZip claims coeffs
  match verifySumcheck O layerIndex lp.polys claim cv.2 with
  | none => none
  | some sc =>
    if origLen = lp.left_claims.length then
      if origLen = lp.right_claims.length then
        let h3 := absorbClaims sc.2.2 lp.left_claims lp.right_claims
        if rGP.length = sc.2.1.length then
          let eq_eval := ((rGP.zip sc.2.1.reverse).map (fun p =>
            p.1 * p.2 + (1 - p.1) * (1 - p.2))).prod
          let expected := ((List.range claims.length).map (fun i =>
            coeffs.getD i 0 * lp.left_claims.getD i 0 *
              lp.right_claims.getD i 0 * eq_eval)).sum
          if expected = sc.1 then
            let rl := chalScalar O h3 "challenge_r_layer"
            some (foldClaims lp.left_claims lp.right_claims rl.1,
              sc.2.1.reverse ++ [rl.1], rl.2)
          else none
        else none
      else none
    else none

/-- Source: the `verify_grand_product` loop over the layer proofs, with the
running layer index. -/
def verifyLayers (O : Oracle F) (origLen : Nat) :
    Nat → List (LayerProof F) → List F → List F → History F →
      Option (List F × List F × History F)
  | _, [], claims, rGP, h => some (claims, rGP, h)
  | idx, lp :: rest, claims, rGP, h =>
      match verifyLayerStep O origLen idx lp claims rGP h with
      | none => none
      | some st => verifyLayers O origLen (idx+1) rest st.1 st.2.1 st.2.2

/-- Source: `verify_grand_product`. -/
def verifyGrandProduct (O : Oracle F) (proofLayers : List (LayerProof F))
    (claims : List F) (h : History F) :
    Option (List F × List F × History F) :=
  verifyLayers O claims.length 0 proofLayers claims [] h

/-! ### Equality-polynomial lemmas -/

theorem getD_map_mulLeft (c : F) (l : List F) (i : Nat) :
    (l.map (fun e => c * e)).getD i 0 = c * l.getD i 0 := by
  rw [List.getD_eq_getElem?_getD, List.getD_eq_getElem?_getD,
    List.getElem?_map]
  cases l[i]? with
  | none => simp
  | some x => simp

theorem sum_range_pairs {M : Type} [AddCommMonoid M] (n : Nat) (f : Nat → M) :
    ∑ j ∈ Finset.range (2*n), f j =
      ∑ i ∈ Finset.range n, (f (2*i) + f (2*i+1)) := by
  induction n with
  | zero => simp
  | succ n ih =>
      rw [show 2*(n+1) = (2*n+1)+1 by ring, Finset.sum_range_succ,
        Finset.sum_range_succ, Finset.sum_range_succ, ih, add_assoc]

theorem sum_range_split {M : Type} [AddCommMonoid M] (m n : Nat)
    (f : Nat → M) :
    ∑ j ∈ Finset.range (m+n), f j =
      ∑ j ∈ Finset.range m, f j + ∑ j ∈ Finset.range n, f (m + j) := by
  induction n with
  | zero => simp
  | succ n ih =>
      rw [show m + (n+1) = (m+n)+1 by ring, Finset.sum_range_succ, ih,
        Finset.sum_range_succ, add_assoc]

theorem eqEvals_append_last (rs : List F) (a : F) :
    ∀ j : Nat, (eqEvals (rs ++ [a])).getD j 0 =
      (if j % 2 = 0 then 1 - a else a) * (eqEvals rs).getD (j / 2) 0 := by
  induction rs with
  | nil =>
      intro j
      show (eqEvals [a]).getD j 0 = _
      have he : eqEvals [a] = [(1-a) * 1, a * 1] := rfl
      rw [he]
      match j with
      | 0 => simp [eqEvals]
      | 1 => simp [eqEvals]
      | n+2 =>
          have h2 : (n+2) / 2 = n/2 + 1 := by omega
          rw [h2]
          simp [eqEvals, List.getD]
  | cons r rs' ih =>
      intro j
      have hlenE : (eqEvals (rs' ++ [a])).length = 2^(rs'.length + 1) := by
        rw [eqEvals_length]
        simp
      have hlenQ : (eqEvals rs').length = 2^rs'.length := eqEvals_length rs'
      show ((eqEvals (rs' ++ [a])).map (fun e => (1-r) * e) ++
          (eqEvals (rs' ++ [a])).map (fun e => r * e)).getD j 0 = _
      have hRHS : eqEvals (r :: rs') =
          (eqEvals rs').map (fun e => (1-r) * e) ++
            (eqEvals rs').map (fun e => r * e) := rfl
      rw [hRHS]
      by_cases hj : j < 2^(rs'.length + 1)
      · rw [List.getD_append _ _ _ _ (by simpa [hlenE] using hj),
          getD_map_mulLeft, ih j,
          List.getD_append _ _ _ _
            (by simp only [List.length_map, hlenQ]; omega),
          getD_map_mulLeft]
        by_cases hp : j % 2 = 0
        · rw [if_pos hp]; ring
        · rw [if_neg hp]; ring
      · rw [List.getD_append_right _ _ _ _
            (by simp only [List.length_map, hlenE]; omega)]
        by_cases hj2 : j < 2^(rs'.length + 2)
        · rw [(by simp [hlenE] :
              ((eqEvals (rs' ++ [a])).map (fun e => (1-r)*e)).length =
                2^(rs'.length+1)),
            getD_map_mulLeft, ih (j - 2^(rs'.length+1)),
            List.getD_append_right _ _ _ _
              (by simp only [List.length_map, hlenQ]; omega),
            (by simp [hlenQ] :
              ((eqEvals rs').map (fun e => (1-r)*e)).length = 2^rs'.length),
            getD_map_mulLeft,
            show (j - 2^(rs'.length+1)) % 2 = j % 2 by
              have : 2^(rs'.length+1) % 2 = 0 := by
                simp [pow_succ, Nat.mul_mod_left]
              omega,
            show (j - 2^(rs'.length+1)) / 2 = j / 2 - 2^rs'.length by
              have h1 : 2^(rs'.length+1) = 2 * 2^rs'.length := by ring
              omega]
          by_cases hp : j % 2 = 0
          · rw [if_pos hp]; ring
          · rw [if_neg hp]; ring
        · rw [(by simp [hlenE] :
              ((eqEvals (rs' ++ [a])).map (fun e => (1-r)*e)).length =
                2^(rs'.length+1))]
          have hL : ((eqEvals (rs' ++ [a])).map (fun e => r * e)).length =
              2^(rs'.length+1) := by simp [hlenE]
          rw [List.getD_eq_getElem?_getD, List.getElem?_eq_none
              (by rw [hL]
                  have h2 : (2:Nat)^(rs'.length+2) = 2 * 2^(rs'.length+1) :=
                    by ring
                  omega : ((eqEvals (rs' ++ [a])).map
                (fun e => r * e)).length ≤ j - 2^(rs'.length+1))]
          have hq : 2^(rs'.length+1) ≤ j / 2 := by
            have h1 : 2^(rs'.length+2) = 2 * 2^(rs'.length+1) := by ring
            omega
          rw [List.getD_eq_getElem?_getD, List.getElem?_eq_none
              (by rw [List.length_append, List.length_map, List.length_map,
                  hlenQ]
                  have h1 : (2:Nat)^(rs'.length+1) = 2 * 2^rs'.length :=
                    by ring
                  omega)]
          simp

/-- The iterated low-variable bind of a table equals its inner product with
the equality evaluations of the reversed challenges. -/
theorem foldl_bound_dot (rs : List F) :
    ∀ (Z : List F), Z.length = 2^rs.length →
      (rs.foldl boundPolyVarBot Z).getD 0 0 =
        ∑ j ∈ Finset.range (2^rs.length),
          (eqEvals rs.reverse).getD j 0 * Z.getD j 0 := by
  induction rs with
  | nil =>
      intro Z hZ
      simp only [List.foldl_nil, List.reverse_nil, pow_zero,
        Finset.range_one, Finset.sum_singleton]
      simp [eqEvals]
  | cons r rest ih =>
      intro Z hZ
      rw [List.foldl_cons,
        ih (boundPolyVarBot Z r)
          (by rw [boundPolyVarBot_length, hZ, List.length_cons, pow_succ]
              omega)]
      have hrev : (r :: rest).reverse = rest.reverse ++ [r] := by simp
      rw [hrev, List.length_cons,
        show (2:Nat)^(rest.length+1) = 2 * 2^rest.length by ring,
        sum_range_pairs]
      refine (Finset.sum_congr rfl ?_).symm
      intro j hj
      have hjn : j < 2^rest.length := Finset.mem_range.mp hj
      rw [eqEvals_append_last rest.reverse r (2*j),
        eqEvals_append_last rest.reverse r (2*j+1),
        if_pos (by omega), if_neg (by omega),
        show 2*j/2 = j by omega, show (2*j+1)/2 = j by omega,
        boundPolyVarBot_getD Z r j
          (by rw [hZ, List.length_cons, pow_succ]; omega)]
      ring

/-- The inner product of two equality-evaluation tables is the product form
used by the verifier. -/
theorem eq_dot_eq_prod :
    ∀ (a b : List F), a.length = b.length →
      ∑ j ∈ Finset.range (2^a.length),
          (eqEvals b).getD j 0 * (eqEvals a).getD j 0 =
        ((a.zip b).map (fun p => p.1 * p.2 + (1 - p.1) * (1 - p.2))).prod := by
  intro a
  induction a with
  | nil =>
      intro b hb
      match b with
      | [] =>
          simp [eqEvals]
      | _ :: _ => simp at hb
  | cons a0 a' ih =>
      intro b hb
      match b with
      | [] => simp at hb
      | b0 :: b' =>
          have hb' : a'.length = b'.length := by simpa using hb
          rw [List.zip_cons_cons, List.map_cons, List.prod_cons,
            ← ih b' hb', List.length_cons,
            show (2:Nat)^(a'.length+1) = 2 * 2^a'.length by ring]
          have key : ∀ j < 2 * 2^a'.length,
              (eqEvals (b0 :: b')).getD j 0 * (eqEvals (a0 :: a')).getD j 0 =
                (if j < 2^a'.length then
                  ((1-b0) * (eqEvals b').getD j 0) *
                    ((1-a0) * (eqEvals a').getD j 0)
                 else (b0 * (eqEvals b').getD (j - 2^a'.length) 0) *
                    (a0 * (eqEvals a').getD (j - 2^a'.length) 0)) := by
            intro j hj
            show ((eqEvals b').map (fun e => (1-b0) * e) ++
                (eqEvals b').map (fun e => b0 * e)).getD j 0 *
              ((eqEvals a').map (fun e => (1-a0) * e) ++
                (eqEvals a').map (fun e => a0 * e)).getD j 0 = _
            by_cases hjh : j < 2^a'.length
            · rw [if_pos hjh,
                List.getD_append _ _ _ _
                  (by simp only [List.length_map, eqEvals_length, ← hb']
                      omega),
                List.getD_append _ _ _ _
                  (by simp only [List.length_map, eqEvals_length]; omega),
                getD_map_mulLeft, getD_map_mulLeft]
            · rw [if_neg hjh,
                List.getD_append_right _ _ _ _
                  (by simp only [List.length_map, eqEvals_length, ← hb']
                      omega),
                List.getD_append_right _ _ _ _
                  (by simp only [List.length_map, eqEvals_length]; omega),
                getD_map_mulLeft, getD_map_mulLeft]
              simp only [List.length_map, eqEvals_length, ← hb']
          rw [Finset.sum_congr rfl (fun j hj =>
            key j (Finset.mem_range.mp hj)),
            show 2 * 2^a'.length = 2^a'.length + 2^a'.length by ring,
            sum_range_split]
          have hfst : ∀ j ∈ Finset.range (2^a'.length),
              (if j < 2^a'.length then
                ((1-b0) * (eqEvals b').getD j 0) *
                  ((1-a0) * (eqEvals a').getD j 0)
               else (b0 * (eqEvals b').getD (j - 2^a'.length) 0) *
                  (a0 * (eqEvals a').getD (j - 2^a'.length) 0)) =
                ((1-b0) * (1-a0)) *
                  ((eqEvals b').getD j 0 * (eqEvals a').getD j 0) := by
            intro j hj
            rw [if_pos (Finset.mem_range.mp hj)]
            ring
          have hsnd : ∀ j ∈ Finset.range (2^a'.length),
              (if 2^a'.length + j < 2^a'.length then
                ((1-b0) * (eqEvals b').getD (2^a'.length + j) 0) *
                  ((1-a0) * (eqEvals a').getD (2^a'.length + j) 0)
               else (b0 * (eqEvals b').getD (2^a'.length + j - 2^a'.length) 0) *
                  (a0 * (eqEvals a').getD (2^a'.length + j - 2^a'.length) 0)) =
                (b0 * a0) *
                  ((eqEvals b').getD j 0 * (eqEvals a').getD j 0) := by
            intro j hj
            rw [if_neg (by omega),
              show 2^a'.length + j - 2^a'.length = j by omega]
            ring
          rw [Finset.sum_congr rfl hfst, Finset.sum_congr rfl hsnd,
            ← Finset.mul_sum, ← Finset.mul_sum, ← add_mul]
          ring

/-! ### The dense bind in terms of even/odd subsequences -/

def evens (l : List F) : List F :=
  (List.range (l.length / 2)).map (fun j => l.getD (2*j) 0)

def odds (l : List F) : List F :=
  (List.range (l.length / 2)).map (fun j => l.getD (2*j+1) 0)

theorem evens_length (l : List F) : (evens l).length = l.length / 2 := by
  simp [evens]

theorem odds_length (l : List F) : (odds l).length = l.length / 2 := by
  simp [odds]

theorem evens_getD (l : List F) (j : Nat) (hj : j < l.length / 2) :
    (evens l).getD j 0 = l.getD (2*j) 0 := by
  rw [evens, getD_range_map, if_pos hj]

theorem odds_getD (l : List F) (j : Nat) (hj : j < l.length / 2) :
    (odds l).getD j 0 = l.getD (2*j+1) 0 := by
  rw [odds, getD_range_map, if_pos hj]

theorem evens_bind (L : List F) (r : F) (h4 : L.length % 4 = 0) :
    evens (bindDenseLayer L r) = boundPolyVarBot (evens L) r := by
  refine ext_of_getD ?_ ?_
  · rw [evens_length, bindDenseLayer_length, boundPolyVarBot_length,
      evens_length]
  · intro i hi
    rw [evens_length, bindDenseLayer_length] at hi
    rw [evens_getD _ i (by rw [bindDenseLayer_length]; omega),
      bindDenseLayer_getD L r (2*i) h4 (by omega),
      if_pos (by omega : 2*i % 2 = 0),
      boundPolyVarBot_getD _ r i (by rw [evens_length]; omega),
      evens_getD L (2*i) (by omega),
      evens_getD L (2*i+1) (by omega),
      show 2*(2*i+1) = 2*(2*i)+2 by ring]

theorem odds_bind (L : List F) (r : F) (h4 : L.length % 4 = 0) :
    odds (bindDenseLayer L r) = boundPolyVarBot (odds L) r := by
  refine ext_of_getD ?_ ?_
  · rw [odds_length, bindDenseLayer_length, boundPolyVarBot_length,
      odds_length]
  · intro i hi
    rw [odds_length, bindDenseLayer_length] at hi
    rw [odds_getD _ i (by rw [bindDenseLayer_length]; omega),
      bindDenseLayer_getD L r (2*i+1) h4 (by omega),
      if_neg (by omega : ¬ (2*i+1) % 2 = 0),
      boundPolyVarBot_getD _ r i (by rw [odds_length]; omega),
      odds_getD L (2*i) (by omega),
      odds_getD L (2*i+1) (by omega),
      show 2*(2*i+1)-1 = 2*(2*i)+1 by omega,
      show 2*(2*i+1)+1 = 2*(2*i+1)+1 by rfl]

theorem foldBind_length (rs : List F) :
    ∀ (L : List F), (rs.foldl bindDenseLayer L).length =
      L.length / 2^rs.length := by
  induction rs with
  | nil => intro L; simp
  | cons r rest ih =>
      intro L
      rw [List.foldl_cons, ih, bindDenseLayer_length, List.length_cons,
        pow_succ, Nat.div_div_eq_div_mul, Nat.mul_comm 2 (2^rest.length)]

theorem foldl_evens (rs : List F) :
    ∀ (L : List F), L.length = 2^(rs.length + 1) →
      evens (rs.foldl bindDenseLayer L) =
        rs.foldl boundPolyVarBot (evens L) := by
  induction rs with
  | nil => intro L _; simp
  | cons r rest ih =>
      intro L hL
      rw [List.foldl_cons, List.foldl_cons,
        ih (bindDenseLayer L r)
          (by rw [bindDenseLayer_length, hL, List.length_cons, pow_succ]
              omega),
        evens_bind L r
          (by rw [hL, List.length_cons]
              have h1 : (2:Nat)^(rest.length+1+1) = 4 * 2^rest.length := by
                ring
              omega)]

theorem foldl_odds (rs : List F) :
    ∀ (L : List F), L.length = 2^(rs.length + 1) →
      odds (rs.foldl bindDenseLayer L) =
        rs.foldl boundPolyVarBot (odds L) := by
  induction rs with
  | nil => intro L _; simp
  | cons r rest ih =>
      intro L hL
      rw [List.foldl_cons, List.foldl_cons,
        ih (bindDenseLayer L r)
          (by rw [bindDenseLayer_length, hL, List.length_cons, pow_succ]
              omega),
        odds_bind L r
          (by rw [hL, List.length_cons]
              have h1 : (2:Nat)^(rest.length+1+1) = 4 * 2^rest.length := by
                ring
              omega)]

/-- Final values of the fully bound dense layer: its two entries are the
inner products of the even/odd subsequences with the equality evaluations of
the reversed challenges. -/
theorem foldBind_final (rs : List F) (L : List F)
    (hL : L.length = 2^(rs.length + 1)) :
    (rs.foldl bindDenseLayer L).getD 0 0 =
      ∑ j ∈ Finset.range (2^rs.length),
        (eqEvals rs.reverse).getD j 0 * L.getD (2*j) 0
    ∧ (rs.foldl bindDenseLayer L).getD 1 0 =
      ∑ j ∈ Finset.range (2^rs.length),
        (eqEvals rs.reverse).getD j 0 * L.getD (2*j+1) 0 := by
  have hflen : (rs.foldl bindDenseLayer L).length = 2 := by
    rw [foldBind_length, hL, pow_succ,
      Nat.mul_div_cancel_left 2 (Nat.pos_pow_of_pos _ (by norm_num))]
  have hev : (rs.foldl bindDenseLayer L).getD 0 0 =
      (evens (rs.foldl bindDenseLayer L)).getD 0 0 := by
    rw [evens_getD _ 0 (by rw [hflen]; norm_num)]
  have hod : (rs.foldl bindDenseLayer L).getD 1 0 =
      (odds (rs.foldl bindDenseLayer L)).getD 0 0 := by
    rw [odds_getD _ 0 (by rw [hflen]; norm_num)]
  have hevlen : (evens L).length = 2^rs.length := by
    rw [evens_length, hL, pow_succ]
    omega
  have hodlen : (odds L).length = 2^rs.length := by
    rw [odds_length, hL, pow_succ]
    omega
  constructor
  · rw [hev, foldl_evens rs L hL, foldl_bound_dot rs (evens L) hevlen]
    refine Finset.sum_congr rfl ?_
    intro j hj
    rw [evens_getD L j (by
      rw [hL, pow_succ, Nat.mul_div_cancel _ (by norm_num : (0:Nat) < 2)]
      exact Finset.mem_range.mp hj)]
  · rw [hod, foldl_odds rs L hL, foldl_bound_dot rs (odds L) hodlen]
    refine Finset.sum_congr rfl ?_
    intro j hj
    rw [odds_getD L j (by
      rw [hL, pow_succ, Nat.mul_div_cancel _ (by norm_num : (0:Nat) < 2)]
      exact Finset.mem_range.mp hj)]

/-! ### The cubic round: interpolation and the sumcheck invariant -/

theorem evalFrom_add (x0 x1 x2 x3 y0 y1 y2 y3 r : F) :
    evalUniPoly (fromEvalsCubic (x0+y0) (x1+y1) (x2+y2) (x3+y3)) r =
      evalUniPoly (fromEvalsCubic x0 x1 x2 x3) r +
        evalUniPoly (fromEvalsCubic y0 y1 y2 y3) r := by
  simp only [fromEvalsCubic, evalUniPoly]
  ring

theorem evalFrom_zero (r : F) :
    evalUniPoly (fromEvalsCubic 0 0 0 0) r = 0 := by
  simp [fromEvalsCubic, evalUniPoly]

theorem evalFrom_01 (e0 e1 e2 e3 : F) :
    evalUniPoly (fromEvalsCubic e0 e1 e2 e3) 0 +
      evalUniPoly (fromEvalsCubic e0 e1 e2 e3) 1 = e0 + e1 := by
  simp only [fromEvalsCubic, evalUniPoly]
  ring

theorem lagrange_prod (x y u v w z r : F) (h2 : (2:F) ≠ 0)
    (h3 : (3:F) ≠ 0) :
    evalUniPoly (fromEvalsCubic (x*u*w) ((x+y)*(u+v)*(w+z))
      ((x+2*y)*(u+2*v)*(w+2*z)) ((x+3*y)*(u+3*v)*(w+3*z))) r =
      (x+r*y) * (u+r*v) * (w+r*z) := by
  have h6 : (6:F) ≠ 0 := by
    intro h
    have h23 : (2:F) * 3 = 0 := by rw [← h]; norm_num
    rcases mul_eq_zero.mp h23 with h' | h'
    · exact h2 h'
    · exact h3 h'
  simp only [fromEvalsCubic, evalUniPoly]
  field_simp
  ring

/-- `from_evals` on the four sums of products of linears evaluates, at any
point, to the sum of products of linears at that point. -/
theorem evalFrom_sum {ι : Type} (s : Finset ι) (p q u v w z : ι → F) (r : F)
    (h2 : (2:F) ≠ 0) (h3 : (3:F) ≠ 0) :
    evalUniPoly (fromEvalsCubic
      (∑ i ∈ s, p i * u i * w i)
      (∑ i ∈ s, (p i + q i) * (u i + v i) * (w i + z i))
      (∑ i ∈ s, (p i + 2*q i) * (u i + 2*v i) * (w i + 2*z i))
      (∑ i ∈ s, (p i + 3*q i) * (u i + 3*v i) * (w i + 3*z i))) r =
      ∑ i ∈ s, (p i + r * q i) * (u i + r * v i) * (w i + r * z i) := by
  induction s using Finset.cons_induction with
  | empty => simp [evalFrom_zero]
  | cons a t ha ih =>
      rw [Finset.sum_cons, Finset.sum_cons, Finset.sum_cons, Finset.sum_cons,
        evalFrom_add, lagrange_prod _ _ _ _ _ _ _ h2 h3, ih,
        Finset.sum_cons]

/-- The per-tree sumcheck invariant: the current claim as the eq-weighted
batch sum of pair products. -/
def sumcheckInv (layers : List (List F)) (coeffs eqP : List F) : F :=
  ∑ bi ∈ Finset.range layers.length, coeffs.getD bi 0 *
    ∑ j ∈ Finset.range eqP.length, eqP.getD j 0 *
      ((layers.getD bi []).getD (2*j) 0 * (layers.getD bi []).getD (2*j+1) 0)

/-- The cubic polynomial of one sumcheck round, as a function of the
evaluation point: linear extensions in the bound variable of the eq factor,
the (coefficient-scaled) left operand and the right operand. -/
def cubicPoint (layers : List (List F)) (coeffs eqP : List F) (t : F) : F :=
  ∑ bi ∈ Finset.range layers.length, ∑ i ∈ Finset.range (eqP.length / 2),
    (eqP.getD (2*i) 0 + t * (eqP.getD (2*i+1) 0 - eqP.getD (2*i) 0)) *
    (coeffs.getD bi 0 * (layers.getD bi []).getD (4*i) 0 +
      t * (coeffs.getD bi 0 * (layers.getD bi []).getD (4*i+2) 0 -
        coeffs.getD bi 0 * (layers.getD bi []).getD (4*i) 0)) *
    ((layers.getD bi []).getD (4*i+1) 0 +
      t * ((layers.getD bi []).getD (4*i+3) 0 -
        (layers.getD bi []).getD (4*i+1) 0))

theorem canon_point_0 (layers : List (List F)) (coeffs eqP : List F)
    (hB : layers.length = coeffs.length) :
    (canonCombined layers coeffs eqP).1 = cubicPoint layers coeffs eqP 0 := by
  simp only [canonCombined, cubicCanon, cubicPoint, hB]
  refine Finset.sum_congr rfl ?_
  intro bi _
  rw [Finset.mul_sum]
  refine Finset.sum_congr rfl ?_
  intro i _
  ring

theorem canon_point_2 (layers : List (List F)) (coeffs eqP : List F)
    (hB : layers.length = coeffs.length) :
    (canonCombined layers coeffs eqP).2.1 =
      cubicPoint layers coeffs eqP 2 := by
  simp only [canonCombined, cubicCanon, cubicPoint, hB]
  refine Finset.sum_congr rfl ?_
  intro bi _
  rw [Finset.mul_sum]
  refine Finset.sum_congr rfl ?_
  intro i _
  ring

theorem canon_point_3 (layers : List (List F)) (coeffs eqP : List F)
    (hB : layers.length = coeffs.length) :
    (canonCombined layers coeffs eqP).2.2 =
      cubicPoint layers coeffs eqP 3 := by
  simp only [canonCombined, cubicCanon, cubicPoint, hB]
  refine Finset.sum_congr rfl ?_
  intro bi _
  rw [Finset.mul_sum]
  refine Finset.sum_congr rfl ?_
  intro i _
  ring

/-- Parity split of the sumcheck invariant into the points `0` and `1` of
the round cubic. -/
theorem parity_claim (layers : List (List F)) (coeffs eqP : List F)
    (heven : eqP.length % 2 = 0) :
    sumcheckInv layers coeffs eqP =
      cubicPoint layers coeffs eqP 0 + cubicPoint layers coeffs eqP 1 := by
  simp only [sumcheckInv, cubicPoint, ← Finset.sum_add_distrib]
  refine Finset.sum_congr rfl ?_
  intro bi _
  rw [show eqP.length = 2 * (eqP.length / 2) by omega, sum_range_pairs,
    Finset.mul_sum,
    show 2 * (eqP.length / 2) / 2 = eqP.length / 2 by omega]
  refine Finset.sum_congr rfl ?_
  intro i _
  rw [show 2*(2*i) = 4*i by ring, show 2*(2*i+1) = 4*i+2 by ring,
    show 4*i+2+1 = 4*i+3 by omega]
  ring

/-- The round cubic produced by the dense `compute_cubic` evaluates to
`cubicPoint` everywhere, given the round invariant. -/
theorem cubic_round_eval (layers : List (List F)) (coeffs eqP : List F)
    (claim r : F)
    (h2 : (2:F) ≠ 0) (h3 : (3:F) ≠ 0)
    (hB : layers.length = coeffs.length) (heven : eqP.length % 2 = 0)
    (hclaim : claim = sumcheckInv layers coeffs eqP) :
    evalUniPoly (computeCubicDense layers coeffs eqP claim) r =
      cubicPoint layers coeffs eqP r := by
  have hflat : ∀ t : F, cubicPoint layers coeffs eqP t =
      ∑ x ∈ Finset.range layers.length ×ˢ Finset.range (eqP.length / 2),
        (eqP.getD (2*x.2) 0 + t * (eqP.getD (2*x.2+1) 0 - eqP.getD (2*x.2) 0)) *
        (coeffs.getD x.1 0 * (layers.getD x.1 []).getD (4*x.2) 0 +
          t * (coeffs.getD x.1 0 * (layers.getD x.1 []).getD (4*x.2+2) 0 -
            coeffs.getD x.1 0 * (layers.getD x.1 []).getD (4*x.2) 0)) *
        ((layers.getD x.1 []).getD (4*x.2+1) 0 +
          t * ((layers.getD x.1 []).getD (4*x.2+3) 0 -
            (layers.getD x.1 []).getD (4*x.2+1) 0)) := by
    intro t
    rw [cubicPoint, ← Finset.sum_product']
  have hkey := evalFrom_sum
    (Finset.range layers.length ×ˢ Finset.range (eqP.length / 2))
    (fun x => eqP.getD (2*x.2) 0)
    (fun x => eqP.getD (2*x.2+1) 0 - eqP.getD (2*x.2) 0)
    (fun x => coeffs.getD x.1 0 * (layers.getD x.1 []).getD (4*x.2) 0)
    (fun x => coeffs.getD x.1 0 * (layers.getD x.1 []).getD (4*x.2+2) 0 -
      coeffs.getD x.1 0 * (layers.getD x.1 []).getD (4*x.2) 0)
    (fun x => (layers.getD x.1 []).getD (4*x.2+1) 0)
    (fun x => (layers.getD x.1 []).getD (4*x.2+3) 0 -
      (layers.getD x.1 []).getD (4*x.2+1) 0)
    r h2 h3
  have h0 : cubicPoint layers coeffs eqP 0 =
      ∑ x ∈ Finset.range layers.length ×ˢ Finset.range (eqP.length / 2),
        eqP.getD (2*x.2) 0 *
          (coeffs.getD x.1 0 * (layers.getD x.1 []).getD (4*x.2) 0) *
          (layers.getD x.1 []).getD (4*x.2+1) 0 := by
    rw [hflat 0]
    exact Finset.sum_congr rfl (fun x _ => by ring)
  have h1 : cubicPoint layers coeffs eqP 1 =
      ∑ x ∈ Finset.range layers.length ×ˢ Finset.range (eqP.length / 2),
        (eqP.getD (2*x.2) 0 + (eqP.getD (2*x.2+1) 0 - eqP.getD (2*x.2) 0)) *
        (coeffs.getD x.1 0 * (layers.getD x.1 []).getD (4*x.2) 0 +
          (coeffs.getD x.1 0 * (layers.getD x.1 []).getD (4*x.2+2) 0 -
            coeffs.getD x.1 0 * (layers.getD x.1 []).getD (4*x.2) 0)) *
        ((layers.getD x.1 []).getD (4*x.2+1) 0 +
          ((layers.getD x.1 []).getD (4*x.2+3) 0 -
            (layers.getD x.1 []).getD (4*x.2+1) 0)) := by
    rw [hflat 1]
    exact Finset.sum_congr rfl (fun x _ => by ring)
  rw [computeCubicDense_canon layers coeffs eqP claim hB,
    canon_point_0 layers coeffs eqP hB,
    show claim - cubicPoint layers coeffs eqP 0 =
        cubicPoint layers coeffs eqP 1 by
      rw [hclaim, parity_claim layers coeffs eqP heven]
      ring,
    canon_point_2 layers coeffs eqP hB, canon_point_3 layers coeffs eqP hB,
    h0, h1, hflat 2, hflat 3, hflat r]
  exact hkey

theorem getD_mem_of_lt {A : Type} (l : List A) (n : Nat) (d : A)
    (h : n < l.length) : l.getD n d ∈ l := by
  rw [List.getD_eq_getElem?_getD, List.getElem?_eq_getElem h]
  simpa using List.getElem_mem h

theorem getD_map_bind (layers : List (List F)) (r : F) (bi : Nat) :
    (layers.map (fun l => bindDenseLayer l r)).getD bi [] =
      bindDenseLayer (layers.getD bi []) r := by
  rw [List.getD_eq_getElem?_getD, List.getD_eq_getElem?_getD,
    List.getElem?_map]
  cases layers[bi]? with
  | none =>
      show ([] : List F) = bindDenseLayer [] r
      simp [bindDenseLayer]
  | some l => rfl

/-- Binding the round challenge preserves the sumcheck invariant: the
evaluation of the round cubic at the challenge is the invariant of the
bound state. -/
theorem cubic_round_bind (layers : List (List F)) (coeffs eqP : List F)
    (r : F) (heven : eqP.length % 2 = 0)
    (hlen : ∀ l ∈ layers, l.length = 2 * eqP.length) :
    cubicPoint layers coeffs eqP r =
      sumcheckInv (layers.map (fun l => bindDenseLayer l r)) coeffs
        (boundPolyVarBot eqP r) := by
  rw [cubicPoint, sumcheckInv, List.length_map]
  refine Finset.sum_congr rfl ?_
  intro bi hbi
  have hbi' : bi < layers.length := Finset.mem_range.mp hbi
  have hlbi : (layers.getD bi []).length = 2 * eqP.length :=
    hlen _ (getD_mem_of_lt layers bi [] hbi')
  have h4 : (layers.getD bi []).length % 4 = 0 := by omega
  rw [getD_map_bind, boundPolyVarBot_length, Finset.mul_sum]
  refine Finset.sum_congr rfl ?_
  intro j hj
  have hj' : j < eqP.length / 2 := Finset.mem_range.mp hj
  rw [boundPolyVarBot_getD eqP r j hj',
    bindDenseLayer_getD (layers.getD bi []) r (2*j) h4 (by omega),
    if_pos (by omega : 2*j % 2 = 0),
    bindDenseLayer_getD (layers.getD bi []) r (2*j+1) h4 (by omega),
    if_neg (by omega : ¬ (2*j+1) % 2 = 0),
    show 2*(2*j) = 4*j by ring, show 2*(2*j+1) = 4*j+2 by ring,
    show 4*j+2-1 = 4*j+1 by omega, show 4*j+2+1 = 4*j+3 by omega]
  ring

theorem cubic_g01 (layers : List (List F)) (coeffs eqP : List F) (claim : F)
    (hB : layers.length = coeffs.length) :
    evalUniPoly (computeCubicDense layers coeffs eqP claim) 0 +
      evalUniPoly (computeCubicDense layers coeffs eqP claim) 1 = claim := by
  rw [computeCubicDense_canon layers coeffs eqP claim hB, evalFrom_01]
  ring

theorem decompress_compress_cubic (e0 e1 e2 e3 hint : F)
    (hh : hint = evalUniPoly (fromEvalsCubic e0 e1 e2 e3) 0 +
      evalUniPoly (fromEvalsCubic e0 e1 e2 e3) 1) :
    decompressUniPoly (compressUniPoly (fromEvalsCubic e0 e1 e2 e3)) hint =
      fromEvalsCubic e0 e1 e2 e3 := by
  subst hh
  exact decompress_compress e0 _ _ _

theorem decompress_compress_dense (layers : List (List F))
    (coeffs eqP : List F) (claim : F) (hB : layers.length = coeffs.length) :
    decompressUniPoly
        (compressUniPoly (computeCubicDense layers coeffs eqP claim))
        claim =
      computeCubicDense layers coeffs eqP claim := by
  rw [computeCubicDense_canon _ _ _ _ hB]
  exact decompress_compress_cubic _ _ _ _ claim (by rw [evalFrom_01]; ring)

theorem compress_dense_length (layers : List (List F))
    (coeffs eqP : List F) (claim : F) (hB : layers.length = coeffs.length) :
    (compressUniPoly (computeCubicDense layers coeffs eqP claim)).length =
      3 := by
  rw [computeCubicDense_canon _ _ _ _ hB]
  rfl

/-- Lockstep of the honest dense sumcheck prover with the spec-modelled
sumcheck verifier: the verifier accepts, replays the same challenges and
transcript, and its final claim is the sumcheck invariant of the fully
bound prover state. -/
theorem sumcheck_lockstep (O : Oracle F) (coeffs : List F)
    (h2 : (2:F) ≠ 0) (h3 : (3:F) ≠ 0) :
    ∀ (k : Nat) (layers : List (List F)) (eqP : List F) (claim : F)
      (h : History F),
      layers.length = coeffs.length →
      eqP.length = 2^k →
      (∀ l ∈ layers, l.length = 2 * eqP.length) →
      claim = sumcheckInv layers coeffs eqP →
      ∃ polys rs flayers feq h9,
        proveSumcheckDense O coeffs k layers eqP claim h =
          (polys, rs, flayers, feq, h9) ∧
        verifySumcheck O k polys claim h =
          some (sumcheckInv flayers coeffs feq, rs, h9) ∧
        flayers = layers.map (fun l => rs.foldl bindDenseLayer l) ∧
        feq = rs.foldl boundPolyVarBot eqP ∧
        rs.length = k := by
  intro k
  induction k with
  | zero =>
      intro layers eqP claim h hB heq hlen hclaim
      refine ⟨[], [], layers, eqP, h, rfl, ?_, ?_, rfl, rfl⟩
      · show (if ([] : List (List F)) = [] then
            some (claim, ([] : List F), h) else none) = _
        rw [if_pos rfl, hclaim]
      · have : layers.map (fun l => List.foldl bindDenseLayer l []) =
            layers.map (fun l => l) := rfl
        rw [this, List.map_id']
  | succ k ih =>
      intro layers eqP claim h hB heq hlen hclaim
      have heven : eqP.length % 2 = 0 := by
        rw [heq, pow_succ]
        omega
      have heq' : (boundPolyVarBot eqP
          (chalScalar O (absorbPoly h "poly"
            (computeCubicDense layers coeffs eqP claim))
            "challenge_nextround").1).length = 2^k := by
        rw [boundPolyVarBot_length, heq, pow_succ,
          Nat.mul_div_cancel _ (by norm_num : (0:Nat) < 2)]
      have hB' : (layers.map (fun l => bindDenseLayer l
          (chalScalar O (absorbPoly h "poly"
            (computeCubicDense layers coeffs eqP claim))
            "challenge_nextround").1)).length = coeffs.length := by
        rw [List.length_map, hB]
      have hlen' : ∀ l' ∈ layers.map (fun l => bindDenseLayer l
          (chalScalar O (absorbPoly h "poly"
            (computeCubicDense layers coeffs eqP claim))
            "challenge_nextround").1),
          l'.length = 2 * (boundPolyVarBot eqP
            (chalScalar O (absorbPoly h "poly"
              (computeCubicDense layers coeffs eqP claim))
              "challenge_nextround").1).length := by
        intro l' hl'
        obtain ⟨l, hl, rfl⟩ := List.mem_map.mp hl'
        rw [bindDenseLayer_length, boundPolyVarBot_length, hlen l hl]
        omega
      have hclaim' : evalUniPoly
          (computeCubicDense layers coeffs eqP claim)
          (chalScalar O (absorbPoly h "poly"
            (computeCubicDense layers coeffs eqP claim))
            "challenge_nextround").1 =
          sumcheckInv (layers.map (fun l => bindDenseLayer l
            (chalScalar O (absorbPoly h "poly"
              (computeCubicDense layers coeffs eqP claim))
              "challenge_nextround").1)) coeffs
            (boundPolyVarBot eqP
              (chalScalar O (absorbPoly h "poly"
                (computeCubicDense layers coeffs eqP claim))
                "challenge_nextround").1) := by
        rw [cubic_round_eval layers coeffs eqP claim _ h2 h3 hB heven hclaim,
          cubic_round_bind layers coeffs eqP _ heven hlen]
      obtain ⟨polys, rs, flayers, feq, h9, hPr, hVr, hLr, hEr, hlenr⟩ :=
        ih (layers.map (fun l => bindDenseLayer l
            (chalScalar O (absorbPoly h "poly"
              (computeCubicDense layers coeffs eqP claim))
              "challenge_nextround").1))
          (boundPolyVarBot eqP
            (chalScalar O (absorbPoly h "poly"
              (computeCubicDense layers coeffs eqP claim))
              "challenge_nextround").1)
          (evalUniPoly (computeCubicDense layers coeffs eqP claim)
            (chalScalar O (absorbPoly h "poly"
              (computeCubicDense layers coeffs eqP claim))
              "challenge_nextround").1)
          (chalScalar O (absorbPoly h "poly"
            (computeCubicDense layers coeffs eqP claim))
            "challenge_nextround").2
          hB' heq' hlen' hclaim'
      refine ⟨compressUniPoly (computeCubicDense layers coeffs eqP claim)
          :: polys,
        (chalScalar O (absorbPoly h "poly"
          (computeCubicDense layers coeffs eqP claim))
          "challenge_nextround").1 :: rs,
        flayers, feq, h9, ?_, ?_, ?_, ?_, ?_⟩
      · show (compressUniPoly (computeCubicDense layers coeffs eqP claim)
            :: (proveSumcheckDense O coeffs k _ _ _ _).1,
          (chalScalar O (absorbPoly h "poly"
            (computeCubicDense layers coeffs eqP claim))
            "challenge_nextround").1
            :: (proveSumcheckDense O coeffs k _ _ _ _).2.1,
          (proveSumcheckDense O coeffs k _ _ _ _).2.2) = _
        rw [hPr]
      · show (if (compressUniPoly
              (computeCubicDense layers coeffs eqP claim)).length = 3 then
            _ else none) = _
        rw [if_pos (compress_dense_length layers coeffs eqP claim hB)]
        simp only [decompress_compress_dense layers coeffs eqP claim hB]
        rw [hVr]
      · rw [hLr, List.map_map]
        exact List.map_congr_left (fun l _ => rfl)
      · rw [hEr, List.foldl_cons]
      · rw [List.length_cons, hlenr]

/-! ### Layer-level support lemmas -/

theorem chalVector_length (O : Oracle F) (label : String) :
    ∀ (n : Nat) (h : History F), (chalVector O label n h).1.length = n := by
  intro n
  induction n with
  | zero => intro h; rfl
  | succ n ih =>
      intro h
      show ((chalScalar O h label).1 ::
        (chalVector O label n (chalScalar O h label).2).1).length = n + 1
      rw [List.length_cons, ih]

/-- The per-tree grand-product claim: the eq-weighted sum of pair products
of the (next-larger) layer. -/
def claimOf (rGP L : List F) : F :=
  ∑ j ∈ Finset.range (eqEvals rGP).length,
    (eqEvals rGP).getD j 0 * (L.getD (2*j) 0 * L.getD (2*j+1) 0)

theorem dotZip_sum (a b : List F) (hab : a.length ≤ b.length) :
    dotZip a b = ∑ i ∈ Finset.range a.length, a.getD i 0 * b.getD i 0 := by
  rw [dotZip, sum_map_zip (fun p => p.1 * p.2) 0 0 a b hab]

theorem joint_claim_inv (layers : List (List F)) (claims coeffs rGP : List F)
    (hBc : claims.length = layers.length)
    (hcB : coeffs.length = claims.length)
    (hclaims : ∀ bi < layers.length,
      claims.getD bi 0 = claimOf rGP (layers.getD bi [])) :
    dotZip claims coeffs = sumcheckInv layers coeffs (eqEvals rGP) := by
  rw [dotZip_sum claims coeffs (by omega), sumcheckInv, hBc]
  refine Finset.sum_congr rfl ?_
  intro bi hbi
  rw [hclaims bi (Finset.mem_range.mp hbi), claimOf]
  ring

theorem denseNumRounds_pow (layers : List (List F)) (k : Nat)
    (hB0 : 0 < layers.length)
    (hlen : ∀ l ∈ layers, l.length = 2^(k+1)) :
    denseNumRounds layers = k := by
  rw [denseNumRounds, hlen (layers.headD [])
    (by cases layers with
        | nil => simp at hB0
        | cons a t => exact List.mem_cons_self a t),
    Nat.log2_two_pow]
  omega

theorem foldl_bound_length (rs : List F) :
    ∀ Z : List F, (rs.foldl boundPolyVarBot Z).length =
      Z.length / 2^rs.length := by
  induction rs with
  | nil => intro Z; simp
  | cons r rest ih =>
      intro Z
      rw [List.foldl_cons, ih, boundPolyVarBot_length, List.length_cons,
        pow_succ, Nat.div_div_eq_div_mul, Nat.mul_comm 2 (2^rest.length)]

theorem getD_map_headVal (L : List (List F)) (j bi : Nat) :
    (L.map (fun l => l.getD j 0)).getD bi 0 = (L.getD bi []).getD j 0 := by
  have hL : L.getD bi [] = (L[bi]?).getD [] :=
    List.getD_eq_getElem?_getD L bi []
  rw [hL, List.getD_eq_getElem?_getD, List.getElem?_map]
  cases L[bi]? with
  | none => simp
  | some l => simp

theorem zipmap_fold_getD (rl : F) :
    ∀ (a b : List F) (bi : Nat), a.length = b.length → bi < a.length →
      ((a.zip b).map (fun p => p.1 + rl * (p.2 - p.1))).getD bi 0 =
        a.getD bi 0 + rl * (b.getD bi 0 - a.getD bi 0)
  | [], _, _, _, h => absurd h (by simp)
  | x :: a2, [], _, hab, _ => by simp at hab
  | x :: a2, y :: b2, 0, _, _ => rfl
  | x :: a2, y :: b2, bi+1, hab, hbi => by
      rw [List.zip_cons_cons, List.map_cons, List.getD_cons_succ,
        List.getD_cons_succ, List.getD_cons_succ]
      exact zipmap_fold_getD rl a2 b2 bi (by simpa using hab)
        (by simpa using hbi)

/-- Folding the two final sumcheck claims with `r_layer` yields the claim of
the next (doubled) grand-product point. -/
theorem fold_claims_link (L rs : List F) (rl : F)
    (hL : L.length = 2^(rs.length + 1)) :
    (∑ j ∈ Finset.range (2^rs.length),
        (eqEvals rs.reverse).getD j 0 * L.getD (2*j) 0) +
      rl * ((∑ j ∈ Finset.range (2^rs.length),
        (eqEvals rs.reverse).getD j 0 * L.getD (2*j+1) 0) -
        ∑ j ∈ Finset.range (2^rs.length),
          (eqEvals rs.reverse).getD j 0 * L.getD (2*j) 0) =
      ∑ y ∈ Finset.range (2^(rs.length + 1)),
        (eqEvals (rs.reverse ++ [rl])).getD y 0 * L.getD y 0 := by
  rw [show (2:Nat)^(rs.length+1) = 2 * 2^rs.length by ring, sum_range_pairs,
    ← Finset.sum_sub_distrib, Finset.mul_sum, ← Finset.sum_add_distrib]
  refine Finset.sum_congr rfl ?_
  intro j hj
  rw [eqEvals_append_last rs.reverse rl (2*j),
    eqEvals_append_last rs.reverse rl (2*j+1),
    if_pos (by omega : 2*j % 2 = 0), if_neg (by omega : ¬ (2*j+1) % 2 = 0),
    show 2*j/2 = j by omega, show (2*j+1)/2 = j by omega]
  ring

theorem foldBind_nil (rs : List F) : rs.foldl bindDenseLayer [] = [] := by
  induction rs with
  | nil => rfl
  | cons r rest ih =>
      rw [List.foldl_cons,
        show bindDenseLayer [] r = [] from by simp [bindDenseLayer], ih]

theorem getD_map_foldBind (layers : List (List F)) (rs : List F) (bi : Nat) :
    (layers.map (fun l => rs.foldl bindDenseLayer l)).getD bi [] =
      rs.foldl bindDenseLayer (layers.getD bi []) := by
  have hL : layers.getD bi [] = (layers[bi]?).getD [] :=
    List.getD_eq_getElem?_getD layers bi []
  rw [hL, List.getD_eq_getElem?_getD, List.getElem?_map]
  cases layers[bi]? with
  | none => simp [foldBind_nil]
  | some l => rfl

/-- Lockstep of one honest prover layer with one verifier layer step: the
verifier's step accepts and produces exactly the prover's folded claims,
updated `r_grand_product` and transcript; the folded claims carry the
grand-product invariant for the next (doubled) layer. -/
theorem layer_lockstep (O : Oracle F) (layers : List (List F))
    (claims rGP : List F) (h : History F)
    (h2 : (2:F) ≠ 0) (h3 : (3:F) ≠ 0)
    (hB0 : 0 < layers.length) (hBc : claims.length = layers.length)
    (hlen : ∀ l ∈ layers, l.length = 2^(rGP.length + 1))
    (hclaims : ∀ bi < layers.length,
      claims.getD bi 0 = claimOf rGP (layers.getD bi []))
    (origLen : Nat) (horig : origLen = claims.length) :
    ∃ lp claims2 rGP2 h2o,
      proveLayerDense O layers claims rGP h = (lp, claims2, rGP2, h2o) ∧
      verifyLayerStep O origLen rGP.length lp claims rGP h =
        some (claims2, rGP2, h2o) ∧
      claims2.length = claims.length ∧
      rGP2.length = rGP.length + 1 ∧
      ∀ bi < layers.length, claims2.getD bi 0 =
        ∑ y ∈ Finset.range (2^(rGP.length + 1)),
          (eqEvals rGP2).getD y 0 * (layers.getD bi []).getD y 0 := by
  have hcoeffslen :
      (chalVector O "rand_coeffs_next_layer" claims.length h).1.length =
        claims.length := chalVector_length O _ claims.length h
  have hB : layers.length =
      (chalVector O "rand_coeffs_next_layer" claims.length h).1.length := by
    omega
  have hlen2 : ∀ l ∈ layers, l.length = 2 * (eqEvals rGP).length := by
    intro l hl
    rw [eqEvals_length, hlen l hl, pow_succ]
    ring
  have hrounds : denseNumRounds layers = rGP.length :=
    denseNumRounds_pow layers rGP.length hB0 hlen
  obtain ⟨polys, rs, flayers, feq, h9, hPr, hVr, hLr, hEr, hk⟩ :=
    sumcheck_lockstep O (chalVector O "rand_coeffs_next_layer"
        claims.length h).1 h2 h3 rGP.length layers (eqEvals rGP)
      (dotZip claims (chalVector O "rand_coeffs_next_layer"
        claims.length h).1)
      (chalVector O "rand_coeffs_next_layer" claims.length h).2
      hB (eqEvals_length rGP) hlen2
      (joint_claim_inv layers claims _ rGP hBc hcoeffslen hclaims)
  have hflen : flayers.length = layers.length := by
    rw [hLr, List.length_map]
  have hexp : ((List.range claims.length).map (fun i =>
      (chalVector O "rand_coeffs_next_layer" claims.length h).1.getD i 0 *
      (flayers.map (fun l => l.getD 0 0)).getD i 0 *
      (flayers.map (fun l => l.getD 1 0)).getD i 0 *
      ((rGP.zip rs.reverse).map (fun p =>
        p.1 * p.2 + (1 - p.1) * (1 - p.2))).prod)).sum =
      sumcheckInv flayers (chalVector O "rand_coeffs_next_layer"
        claims.length h).1 feq := by
    have hfeqlen : feq.length = 1 := by
      rw [hEr, foldl_bound_length, eqEvals_length, hk,
        Nat.div_self (Nat.pos_pow_of_pos _ (by norm_num))]
    have hfeq0 : feq.getD 0 0 = ((rGP.zip rs.reverse).map (fun p =>
        p.1 * p.2 + (1 - p.1) * (1 - p.2))).prod := by
      have hd := eq_dot_eq_prod rGP rs.reverse
        (by rw [List.length_reverse, hk])
      rw [hEr, foldl_bound_dot rs (eqEvals rGP)
        (by rw [eqEvals_length, hk]), hk]
      exact hd
    rw [sum_map_range, sumcheckInv, hflen, ← hBc]
    refine Finset.sum_congr rfl ?_
    intro bi hbi
    simp only [hfeqlen, Finset.range_one, Finset.sum_singleton,
      Nat.mul_zero, Nat.zero_add]
    rw [getD_map_headVal, getD_map_headVal, hfeq0]
    ring
  refine ⟨⟨polys, flayers.map (fun l => l.getD 0 0),
      flayers.map (fun l => l.getD 1 0)⟩,
    foldClaims (flayers.map (fun l => l.getD 0 0))
      (flayers.map (fun l => l.getD 1 0))
      (chalScalar O (absorbClaims h9 (flayers.map (fun l => l.getD 0 0))
        (flayers.map (fun l => l.getD 1 0))) "challenge_r_layer").1,
    rs.reverse ++ [(chalScalar O (absorbClaims h9
      (flayers.map (fun l => l.getD 0 0))
      (flayers.map (fun l => l.getD 1 0))) "challenge_r_layer").1],
    (chalScalar O (absorbClaims h9 (flayers.map (fun l => l.getD 0 0))
      (flayers.map (fun l => l.getD 1 0))) "challenge_r_layer").2,
    ?_, ?_, ?_, ?_, ?_⟩
  · simp only [proveLayerDense]
    rw [hrounds, hPr]
  · simp only [verifyLayerStep]
    rw [hVr]
    dsimp only
    rw [if_pos (show origLen =
        (flayers.map (fun l => l.getD 0 0)).length by
          rw [List.length_map, hflen]; omega),
      if_pos (show origLen =
        (flayers.map (fun l => l.getD 1 0)).length by
          rw [List.length_map, hflen]; omega),
      if_pos hk.symm, if_pos hexp]
  · simp only [foldClaims, List.length_map, List.length_zip, hflen,
      Nat.min_self]
    omega
  · simp [hk]
  · intro bi hbi
    have hLbi : (layers.getD bi []).length = 2^(rs.length + 1) := by
      rw [hlen _ (getD_mem_of_lt layers bi [] hbi), hk]
    obtain ⟨hf0, hf1⟩ := foldBind_final rs (layers.getD bi []) hLbi
    rw [foldClaims, zipmap_fold_getD _ _ _ bi
        (by rw [List.length_map, List.length_map])
        (by rw [List.length_map, hflen]; exact hbi),
      getD_map_headVal, getD_map_headVal, hLr, getD_map_foldBind,
      hf0, hf1, fold_claims_link (layers.getD bi []) rs _ hLbi, hk]

/-! ### The layer stack -/

/-- The processed (reversed) layer stack: batch size `B` throughout, tree
lengths doubling from `2^(k+1)`, and each layer the pairwise-product halving
of the next. -/
def StackChain (B : Nat) : Nat → List (List (List F)) → Prop
  | _, [] => True
  | k, lyr :: rest =>
      lyr.length = B ∧ (∀ l ∈ lyr, l.length = 2^(k+1)) ∧
      (match rest with
       | [] => True
       | lyr2 :: _ => lyr2.map halveLayer = lyr) ∧
      StackChain B (k+1) rest

theorem stackChain_snoc (B : Nat) :
    ∀ (xs : List (List (List F))) (m : Nat) (lyr : List (List F)),
      StackChain B m xs →
      lyr.length = B →
      (∀ l ∈ lyr, l.length = 2^(m + xs.length + 1)) →
      (∀ lyrPrev, xs.getLast? = some lyrPrev →
        lyr.map halveLayer = lyrPrev) →
      StackChain B m (xs ++ [lyr]) := by
  intro xs
  induction xs with
  | nil =>
      intro m lyr _ hB hlen _
      exact ⟨hB, by simpa using hlen, trivial, trivial⟩
  | cons x xs' ih =>
      intro m lyr hchain hB hlen hlast
      obtain ⟨hxB, hxlen, hxlink, hchain'⟩ := hchain
      refine ⟨hxB, hxlen, ?_, ?_⟩
      · cases xs' with
        | nil =>
            show lyr.map halveLayer = x
            exact hlast x rfl
        | cons y ys => exact hxlink
      · show StackChain B (m+1) (xs' ++ [lyr])
        refine ih (m+1) lyr hchain' hB ?_ ?_
        · intro l hl
          rw [hlen l hl, List.length_cons]
          congr 1
          omega
        · intro lyrPrev hprev
          refine hlast lyrPrev ?_
          cases xs' with
          | nil => simp at hprev
          | cons y ys =>
              rw [List.getLast?_cons_cons]
              exact hprev

theorem buildStackAux_length :
    ∀ (k : Nat) (cur : List (List F)),
      (buildStackAux k cur).length = k + 1 := by
  intro k
  induction k with
  | zero => intro cur; rfl
  | succ k ih =>
      intro cur
      show (cur :: buildStackAux k (cur.map halveLayer)).length = k + 2
      rw [List.length_cons, ih]

theorem buildStackAux_headD (k : Nat) (cur : List (List F)) :
    (buildStackAux k cur).head? = some cur := by
  cases k with
  | zero => rfl
  | succ k => rfl

theorem buildStack_chain :
    ∀ (k : Nat) (cur : List (List F)) (B : Nat),
      cur.length = B → (∀ l ∈ cur, l.length = 2^(k+1)) →
      StackChain B 0 ((buildStackAux k cur).reverse) := by
  intro k
  induction k with
  | zero =>
      intro cur B hB hlen
      exact ⟨hB, hlen, trivial, trivial⟩
  | succ k ih =>
      intro cur B hB hlen
      show StackChain B 0
        ((cur :: buildStackAux k (cur.map halveLayer)).reverse)
      rw [List.reverse_cons]
      refine stackChain_snoc B _ 0 cur
        (ih (cur.map halveLayer) B (by rw [List.length_map, hB]) ?_)
        hB ?_ ?_
      · intro l hl
        obtain ⟨l0, hl0, rfl⟩ := List.mem_map.mp hl
        rw [halveLayer_length, hlen l0 hl0, pow_succ,
          Nat.mul_div_cancel _ (by norm_num : (0:Nat) < 2)]
      · intro l hl
        rw [hlen l hl, List.length_reverse, buildStackAux_length]
        norm_num
      · intro lyrPrev hprev
        rw [List.getLast?_reverse, buildStackAux_headD] at hprev
        cases hprev
        rfl

theorem getD_map_halve (L : List (List F)) (bi : Nat) :
    (L.map halveLayer).getD bi [] = halveLayer (L.getD bi []) := by
  have hL : L.getD bi [] = (L[bi]?).getD [] :=
    List.getD_eq_getElem?_getD L bi []
  rw [hL, List.getD_eq_getElem?_getD, List.getElem?_map]
  cases L[bi]? with
  | none =>
      show ([] : List F) = halveLayer []
      simp [halveLayer]
  | some l => rfl

theorem getD_map_pairProd (L : List (List F)) (bi : Nat) :
    (L.map (fun l => l.getD 0 0 * l.getD 1 0)).getD bi 0 =
      (L.getD bi []).getD 0 0 * (L.getD bi []).getD 1 0 := by
  have hL : L.getD bi [] = (L[bi]?).getD [] :=
    List.getD_eq_getElem?_getD L bi []
  rw [hL, List.getD_eq_getElem?_getD, List.getElem?_map]
  cases L[bi]? with
  | none => simp
  | some l => rfl

theorem claimOf_nil (L : List F) :
    claimOf [] L = L.getD 0 0 * L.getD 1 0 := by
  simp [claimOf, eqEvals]

/-- Lockstep of the full driver loop over the (reversed) layer stack. -/
theorem layers_lockstep (O : Oracle F) (h2 : (2:F) ≠ 0) (h3 : (3:F) ≠ 0)
    (B : Nat) (hB0 : 0 < B) :
    ∀ (stackRev : List (List (List F))) (claims rGP : List F)
      (h : History F),
      StackChain B rGP.length stackRev →
      claims.length = B →
      (∀ lyr rest, stackRev = lyr :: rest → ∀ bi < B,
        claims.getD bi 0 = claimOf rGP (lyr.getD bi [])) →
      ∃ lps claims2 rGP2 h9,
        proveLayers O stackRev claims rGP h = (lps, claims2, rGP2, h9) ∧
        verifyLayers O B rGP.length lps claims rGP h =
          some (claims2, rGP2, h9) := by
  intro stackRev
  induction stackRev with
  | nil =>
      intro claims rGP h _ _ _
      exact ⟨[], claims, rGP, h, rfl, rfl⟩
  | cons lyr rest ih =>
      intro claims rGP h hchain hclen hclaims
      obtain ⟨hlB, hllen, hlink, hchain'⟩ := hchain
      obtain ⟨lp, claims2, rGP2, h2o, hP, hV, hc2len, hr2len, hinv2⟩ :=
        layer_lockstep O lyr claims rGP h h2 h3 (by omega)
          (by omega)
          hllen
          (fun bi hbi => hclaims lyr rest rfl bi (by omega))
          B (by omega)
      obtain ⟨lps, claims3, rGP3, h9, hP', hV'⟩ :=
        ih claims2 rGP2 h2o
          (by rw [hr2len]; exact hchain')
          (by omega)
          (by
            intro lyr2 rest2 hrest bi hbi
            subst hrest
            have hlink2 : lyr2.map halveLayer = lyr := hlink
            have hl2len : (lyr2.getD bi []).length = 2^(rGP.length+2) := by
              obtain ⟨h2B, h2len, _, _⟩ := hchain'
              refine h2len _ (getD_mem_of_lt lyr2 bi [] ?_)
              omega
            rw [hinv2 bi (by omega), claimOf, eqEvals_length, hr2len]
            refine Finset.sum_congr rfl ?_
            intro j hj
            have hj' : j < 2^(rGP.length+1) := Finset.mem_range.mp hj
            rw [← hlink2, getD_map_halve,
              halveLayer_getD (lyr2.getD bi []) j
                (by rw [hl2len, pow_succ,
                  Nat.mul_div_cancel _ (by norm_num : (0:Nat) < 2)]
                    omega)])
      refine ⟨lp :: lps, claims3, rGP3, h9, ?_, ?_⟩
      · simp only [proveLayers]
        rw [hP, hP']
      · simp only [verifyLayers]
        rw [hV]
        have hV2 := hV'
        rw [hr2len] at hV2
        exact hV2

theorem getLastD_mem {A : Type} : ∀ (l : List A) (d : A), l ≠ [] →
    l.getLastD d ∈ l
  | [], _, h => absurd rfl h
  | [a], _, _ => by simp [List.getLastD]
  | a :: b :: t, d, _ =>
      List.mem_cons_of_mem a (getLastD_mem (b :: t) a (by simp))

theorem buildStackAux_mem_len :
    ∀ (k : Nat) (cur : List (List F)) (lyr : List (List F)),
      lyr ∈ buildStackAux k cur → lyr.length = cur.length := by
  intro k
  induction k with
  | zero =>
      intro cur lyr hmem
      have : lyr = cur := by simpa [buildStackAux] using hmem
      rw [this]
  | succ k ih =>
      intro cur lyr hmem
      rcases List.mem_cons.mp (by simpa [buildStackAux] using hmem) with
        rfl | hmem'
      · rfl
      · rw [ih (cur.map halveLayer) lyr hmem', List.length_map]

/-- C1: completeness of the batched grand product.  For every honest prover
over a batch of `B` leaf vectors of power-of-two length, and every
Fiat–Shamir sponge, the verifier run on the produced proof (with
identically initialized transcripts) succeeds and returns exactly the
prover's final claims, the prover's `r_grand_product` (element for element,
in the same order), and the same transcript state. -/
theorem c1_completeness (O : Oracle F) (leaves : List (List F))
    (h : History F) (n : Nat)
    (h2 : (2:F) ≠ 0) (h3 : (3:F) ≠ 0)
    (hB0 : 0 < leaves.length)
    (hlen : ∀ l ∈ leaves, l.length = 2^(n+1)) :
    ∃ lps claims2 rGP h9,
      proveGrandProduct O leaves h = (lps, claims2, rGP, h9) ∧
      verifyGrandProduct O lps (topClaims (buildStack leaves)) h =
        some (claims2, rGP, h9) := by
  have hhead : (leaves.headD []).length = 2^(n+1) := by
    cases leaves with
    | nil => simp at hB0
    | cons a t => exact hlen a (List.mem_cons_self a t)
  have hstack : buildStack leaves = buildStackAux n leaves := by
    rw [buildStack, hhead, Nat.log2_two_pow, Nat.add_sub_cancel]
  have hne : buildStackAux n leaves ≠ [] := by
    intro hnil
    have := buildStackAux_length n leaves
    rw [hnil] at this
    simp at this
  have hlastlen : ((buildStackAux n leaves).getLastD []).length =
      leaves.length :=
    buildStackAux_mem_len n leaves _ (getLastD_mem _ [] hne)
  have hclen : (topClaims (buildStackAux n leaves)).length =
      leaves.length := by
    rw [topClaims, List.getLastD_eq_getLast?, ← List.getLastD_eq_getLast?,
      List.length_map, hlastlen]
  obtain ⟨lps, claims2, rGP2, h9, hP, hV⟩ :=
    layers_lockstep O h2 h3 leaves.length hB0
      ((buildStackAux n leaves).reverse)
      (topClaims (buildStackAux n leaves)) [] h
      (buildStack_chain n leaves leaves.length rfl hlen)
      hclen
      (by
        intro lyr rest hrev bi hbi
        have hlast : (buildStackAux n leaves).getLast? = some lyr := by
          rw [← List.head?_reverse, hrev]
          rfl
        have hlyr : (buildStackAux n leaves).getLastD [] = lyr := by
          rw [List.getLastD_eq_getLast?, hlast]
          rfl
        rw [topClaims, hlyr, getD_map_pairProd, claimOf_nil])
  refine ⟨lps, claims2, rGP2, h9, ?_, ?_⟩
  · rw [proveGrandProduct, hstack]
    exact hP
  · rw [verifyGrandProduct, hstack, hclen]
    exact hV

/-- Witness for C1: one leaf vector `[2, 3]` over `ZMod 101` with a
constant-`7` sponge. -/
theorem c1_witness :
    ∃ lps claims2 rGP h9,
      proveGrandProduct (⟨fun _ => 7⟩ : Oracle (ZMod 101)) [[2, 3]] [] =
        (lps, claims2, rGP, h9) ∧
      verifyGrandProduct (⟨fun _ => 7⟩ : Oracle (ZMod 101)) lps
          (topClaims (buildStack [[2, 3]])) [] =
        some (claims2, rGP, h9) :=
  c1_completeness (⟨fun _ => 7⟩ : Oracle (ZMod 101)) [[2, 3]] [] 0
    (by decide) (by decide) (by decide) (by decide)

/-! ### Verifier rejection conditions -/

theorem verifySumcheck_some_length (O : Oracle F) :
    ∀ (k : Nat) (polys : List (List F)) (e : F) (h : History F) out,
      verifySumcheck O k polys e h = some out → out.2.1.length = k := by
  intro k
  induction k with
  | zero =>
      intro polys e h out hsome
      cases polys with
      | nil =>
          have hred : verifySumcheck O 0 ([] : List (List F)) e h =
              some (e, [], h) := rfl
          rw [hred, Option.some.injEq] at hsome
          rw [← hsome]
          rfl
      | cons c cs => simp [verifySumcheck] at hsome
  | succ k ih =>
      intro polys e h out hsome
      cases polys with
      | nil => simp [verifySumcheck] at hsome
      | cons c cs =>
          simp only [verifySumcheck] at hsome
          by_cases hlen : c.length = 3
          · rw [if_pos hlen] at hsome
            cases hrec : verifySumcheck O k cs
              (evalUniPoly (decompressUniPoly c e)
                (chalScalar O (absorbPoly h "poly" (decompressUniPoly c e))
                  "challenge_nextround").1)
              (chalScalar O (absorbPoly h "poly" (decompressUniPoly c e))
                "challenge_nextround").2 with
            | none => rw [hrec] at hsome; simp at hsome
            | some o2 =>
                rw [hrec] at hsome
                simp only [Option.some.injEq] at hsome
                rw [← hsome]
                show (_ :: o2.2.1).length = k + 1
                rw [List.length_cons, ih cs _ _ o2 hrec]
          · rw [if_neg hlen] at hsome
            simp at hsome

/-- C5: the verifier rejects exactly when the generic sum-check verifier
rejects, when a layer record's left or right claim vector has the wrong
length, or when the recomputed expected claim (batch sum weighted by the
eq evaluation against the reversed sum-check challenges) differs from the
sum-check's final claim; the `|r_grand_product| = |r_sumcheck|` assertion
never fires on reachable states (`|r_grand_product| = layer_index`), and
any rejection is fatal for the whole loop: no partial result is returned. -/
theorem c5_rejection (O : Oracle F) (origLen layerIndex : Nat)
    (lp : LayerProof F) (claims rGP : List F) (h : History F)
    (rest : List (LayerProof F))
    (hr : rGP.length = layerIndex) :
    (verifyLayerStep O origLen layerIndex lp claims rGP h = none ↔
      (verifySumcheck O layerIndex lp.polys
          (dotZip claims
            (chalVector O "rand_coeffs_next_layer" claims.length h).1)
          (chalVector O "rand_coeffs_next_layer" claims.length h).2 =
            none ∨
        origLen ≠ lp.left_claims.length ∨
        origLen ≠ lp.right_claims.length ∨
        ∃ scClaim rsc h4,
          verifySumcheck O layerIndex lp.polys
            (dotZip claims
              (chalVector O "rand_coeffs_next_layer" claims.length h).1)
            (chalVector O "rand_coeffs_next_layer" claims.length h).2 =
              some (scClaim, rsc, h4) ∧
          ((List.range claims.length).map (fun i =>
            (chalVector O "rand_coeffs_next_layer" claims.length h).1.getD
                i 0 *
              lp.left_claims.getD i 0 * lp.right_claims.getD i 0 *
              ((rGP.zip rsc.reverse).map (fun p =>
                p.1 * p.2 + (1 - p.1) * (1 - p.2))).prod)).sum ≠
            scClaim)) ∧
    (verifyLayers O origLen layerIndex (lp :: rest) claims rGP h = none ↔
      (verifyLayerStep O origLen layerIndex lp claims rGP h = none ∨
        ∃ st, verifyLayerStep O origLen layerIndex lp claims rGP h =
            some st ∧
          verifyLayers O origLen (layerIndex+1) rest st.1 st.2.1 st.2.2 =
            none)) := by
  constructor
  · simp only [verifyLayerStep]
    cases hsc : verifySumcheck O layerIndex lp.polys
        (dotZip claims
          (chalVector O "rand_coeffs_next_layer" claims.length h).1)
        (chalVector O "rand_coeffs_next_layer" claims.length h).2 with
    | none =>
        simp
    | some sc =>
        obtain ⟨scc, rsc, h4⟩ := sc
        simp only []
        by_cases hL : origLen = lp.left_claims.length
        · rw [if_pos hL]
          by_cases hR : origLen = lp.right_claims.length
          · rw [if_pos hR]
            rw [if_pos (by
              rw [hr, verifySumcheck_some_length O layerIndex lp.polys _ _
                (scc, rsc, h4) hsc])]
            by_cases hE : ((List.range claims.length).map (fun i =>
                (chalVector O "rand_coeffs_next_layer"
                  claims.length h).1.getD i 0 *
                lp.left_claims.getD i 0 * lp.right_claims.getD i 0 *
                ((rGP.zip rsc.reverse).map (fun p =>
                  p.1 * p.2 + (1 - p.1) * (1 - p.2))).prod)).sum = scc
            · rw [if_pos hE]
              constructor
              · intro hno
                simp at hno
              · intro hdis
                rcases hdis with hno | hne | hne | ⟨s1, r1, hh1, hsome, hne⟩
                · simp at hno
                · exact absurd hL hne
                · exact absurd hR hne
                · simp only [Option.some.injEq, Prod.mk.injEq] at hsome
                  obtain ⟨he1, he2, he3⟩ := hsome
                  subst he1
                  subst he2
                  exact absurd hE hne
            · rw [if_neg hE]
              constructor
              · intro _
                exact Or.inr (Or.inr (Or.inr ⟨scc, rsc, h4, rfl, hE⟩))
              · intro _
                rfl
          · rw [if_neg hR]
            constructor
            · intro _
              exact Or.inr (Or.inr (Or.inl hR))
            · intro _
              rfl
        · rw [if_neg hL]
          constructor
          · intro _
            exact Or.inr (Or.inl hL)
          · intro _
            rfl
  · show (match verifyLayerStep O origLen layerIndex lp claims rGP h with
      | none => none
      | some st => verifyLayers O origLen (layerIndex+1) rest st.1 st.2.1
          st.2.2) = none ↔ _
    cases hst : verifyLayerStep O origLen layerIndex lp claims rGP h with
    | none => simp
    | some st =>
        simp only []
        constructor
        · intro hno
          exact Or.inr ⟨st, rfl, hno⟩
        · intro hdis
          rcases hdis with hno | ⟨st2, hst2, hno⟩
          · exact absurd hno (by simp)
          · cases hst2
            exact hno

/-- Witness for C5: a layer record whose left-claim vector has the wrong
length is rejected. -/
theorem c5_witness :
    verifyLayerStep (⟨fun _ => 7⟩ : Oracle (ZMod 101)) 1 0
      ⟨[], [5, 5], [7]⟩ [6] [] [] = none :=
  (c5_rejection (⟨fun _ => 7⟩ : Oracle (ZMod 101)) 1 0
      ⟨[], [5, 5], [7]⟩ [6] [] [] [] rfl).1.mpr
    (Or.inr (Or.inl (by decide)))

/-! ### Claims-length invariants -/

theorem proveSumcheck_layers_len (O : Oracle F) (coeffs : List F) :
    ∀ (k : Nat) (layers : List (List F)) (eqP : List F) (claim : F)
      (h : History F),
      (proveSumcheckDense O coeffs k layers eqP claim h).2.2.1.length =
        layers.length := by
  intro k
  induction k with
  | zero => intro layers eqP claim h; rfl
  | succ k ih =>
      intro layers eqP claim h
      simp only [proveSumcheckDense]
      rw [ih, List.length_map]

theorem verifyLayerStep_some_len (O : Oracle F) (origLen layerIndex : Nat)
    (lp : LayerProof F) (claims rGP : List F) (h : History F)
    (out : List F × List F × History F)
    (hsome : verifyLayerStep O origLen layerIndex lp claims rGP h =
      some out) :
    out.1.length = origLen := by
  simp only [verifyLayerStep] at hsome
  cases hsc : verifySumcheck O layerIndex lp.polys
      (dotZip claims
        (chalVector O "rand_coeffs_next_layer" claims.length h).1)
      (chalVector O "rand_coeffs_next_layer" claims.length h).2 with
  | none => rw [hsc] at hsome; simp at hsome
  | some sc =>
      rw [hsc] at hsome
      simp only [] at hsome
      by_cases hL : origLen = lp.left_claims.length
      · rw [if_pos hL] at hsome
        by_cases hR : origLen = lp.right_claims.length
        · rw [if_pos hR] at hsome
          by_cases hk : rGP.length = sc.2.1.length
          · rw [if_pos hk] at hsome
            by_cases hE : ((List.range claims.length).map (fun i =>
                (chalVector O "rand_coeffs_next_layer"
                  claims.length h).1.getD i 0 *
                lp.left_claims.getD i 0 * lp.right_claims.getD i 0 *
                ((rGP.zip sc.2.1.reverse).map (fun p =>
                  p.1 * p.2 + (1 - p.1) * (1 - p.2))).prod)).sum = sc.1
            · rw [if_pos hE, Option.some.injEq] at hsome
              rw [← hsome]
              show (foldClaims lp.left_claims lp.right_claims _).length =
                origLen
              simp only [foldClaims, List.length_map, List.length_zip]
              omega
            · rw [if_neg hE] at hsome
              simp at hsome
          · rw [if_neg hk] at hsome
            simp at hsome
        · rw [if_neg hR] at hsome
          simp at hsome
      · rw [if_neg hL] at hsome
        simp at hsome

theorem verifyLayers_some_len (O : Oracle F) (origLen : Nat) :
    ∀ (lps : List (LayerProof F)) (idx : Nat) (claims rGP : List F)
      (h : History F) (out : List F × List F × History F),
      verifyLayers O origLen idx lps claims rGP h = some out →
      claims.length = origLen →
      out.1.length = origLen := by
  intro lps
  induction lps with
  | nil =>
      intro idx claims rGP h out hsome hc
      have hred : verifyLayers O origLen idx ([] : List (LayerProof F))
          claims rGP h = some (claims, rGP, h) := rfl
      rw [hred, Option.some.injEq] at hsome
      rw [← hsome]
      exact hc
  | cons lp rest ih =>
      intro idx claims rGP h out hsome hc
      simp only [verifyLayers] at hsome
      cases hstep : verifyLayerStep O origLen idx lp claims rGP h with
      | none => rw [hstep] at hsome; simp at hsome
      | some st =>
          rw [hstep] at hsome
          exact ih (idx+1) st.1 st.2.1 st.2.2 out hsome
            (verifyLayerStep_some_len O origLen idx lp claims rGP h st hstep)

/-- C10: the claims-vector length is an invariant of both drivers: the
coefficient vector is drawn with exactly the current claims length; the
prover's layer fold always returns one claim per tree of the batch; a
successful verifier step returns exactly `origLen` claims; and a successful
full verification returns exactly as many claims as it was given. -/
theorem c10_claims_length (O : Oracle F) :
    (∀ (n : Nat) (h : History F) (label : String),
      (chalVector O label n h).1.length = n) ∧
    (∀ (layers : List (List F)) (claims rGP : List F) (h : History F),
      (proveLayerDense O layers claims rGP h).1.left_claims.length =
        layers.length ∧
      (proveLayerDense O layers claims rGP h).1.right_claims.length =
        layers.length ∧
      (proveLayerDense O layers claims rGP h).2.1.length = layers.length) ∧
    (∀ (origLen layerIndex : Nat) (lp : LayerProof F)
      (claims rGP : List F) (h : History F)
      (out : List F × List F × History F),
      verifyLayerStep O origLen layerIndex lp claims rGP h = some out →
      out.1.length = origLen) ∧
    (∀ (proofLayers : List (LayerProof F)) (claims : List F)
      (h : History F) (out : List F × List F × History F),
      verifyGrandProduct O proofLayers claims h = some out →
      out.1.length = claims.length) := by
  refine ⟨fun n h label => chalVector_length O label n h, ?_, ?_, ?_⟩
  · intro layers claims rGP h
    refine ⟨?_, ?_, ?_⟩
    · show ((proveSumcheckDense O _ _ _ _ _ _).2.2.1.map
        (fun l => l.getD 0 0)).length = layers.length
      rw [List.length_map, proveSumcheck_layers_len]
    · show ((proveSumcheckDense O _ _ _ _ _ _).2.2.1.map
        (fun l => l.getD 1 0)).length = layers.length
      rw [List.length_map, proveSumcheck_layers_len]
    · show (foldClaims ((proveSumcheckDense O _ _ _ _ _ _).2.2.1.map
          (fun l => l.getD 0 0))
        ((proveSumcheckDense O _ _ _ _ _ _).2.2.1.map
          (fun l => l.getD 1 0)) _).length = layers.length
      simp only [foldClaims, List.length_map, List.length_zip,
        proveSumcheck_layers_len, Nat.min_self]
  · exact fun origLen layerIndex lp claims rGP h out hsome =>
      verifyLayerStep_some_len O origLen layerIndex lp claims rGP h out
        hsome
  · exact fun proofLayers claims h out hsome =>
      verifyLayers_some_len O claims.length proofLayers 0 claims [] h out
        hsome rfl

/-- Witness for C10: the coefficient draw, the prover fold, and a complete
successful verification over `ZMod 101` all preserve the batch size. -/
theorem c10_witness :
    (chalVector (⟨fun _ => 7⟩ : Oracle (ZMod 101))
        "rand_coeffs_next_layer" 2 []).1.length = 2 ∧
    (proveLayerDense (⟨fun _ => 7⟩ : Oracle (ZMod 101)) [[2, 3], [4, 5]]
        [6, 20] [] []).2.1.length = 2 ∧
    (([9], [7],
      [("rand_coeffs_next_layer", []), ("sumcheck left claim", [2]),
       ("sumcheck right claim", [3]), ("challenge_r_layer", [])]) :
        List (ZMod 101) × List (ZMod 101) × History (ZMod 101)).1.length =
      ([(6 : ZMod 101)]).length :=
  ⟨(c10_claims_length (⟨fun _ => 7⟩ : Oracle (ZMod 101))).1 2 []
      "rand_coeffs_next_layer",
   ((c10_claims_length (⟨fun _ => 7⟩ : Oracle (ZMod 101))).2.1
      [[2, 3], [4, 5]] [6, 20] [] []).2.2,
   (c10_claims_length (⟨fun _ => 7⟩ : Oracle (ZMod 101))).2.2.2
      [⟨[], [2], [3]⟩] [6] []
      ([9], [7],
        [("rand_coeffs_next_layer", []), ("sumcheck left claim", [2]),
         ("sumcheck right claim", [3]), ("challenge_r_layer", [])])
      (by decide)⟩

end GrandProduct
